import Mathlib

/-!
# ml-models-from-scratch-with-cpp: the Matrix kernel and the four learners

A shallow embedding of `src/utils/Matrix.cpp`, of the models under `src/models/` and of
`DataPreprocessor::standardize` of `src/data/DataPreprocessor.cpp`.

* `double` is modelled by `ℚ`: the statements are about exact arithmetic, except where the
  rounding of `double` decides the outcome (the singularity test of the linear regression,
  the range of the sigmoid); there the code is modelled once more with every operation
  rounded (section "The arithmetic of `double`"), `binary64.round` being the rounding of
  IEEE 754 binary64.
* `std::vector<double>` is `List ℚ`, `std::vector<std::vector<double>>` is `List (List ℚ)`.
* A `for (size_t i = 0; i < n; ++i)` loop is a left fold over `List.range n`, the loop body
  being the step function and the variables written by the loop being the accumulator.
* A quotient whose divisor is a count that can be 0 where the quotient is taken and kept
  (the leaf value of `buildTree`) is an `Option ℚ`: `none` is the non-number `0.0 / 0`.
* The same holds for a quotient by a standard deviation that can be 0 (the cells of
  `standardize`).
* `size_t` is `ℕ`; the one product of two sizes that are not bounded by a stored object, the
  guard of `reshape`, is taken modulo `utils.sizeRange`.
* A C++ exception is the `Except.error` outcome; a member function that can write to the
  object returns the outcome together with the object as it is when the call ends.
-/

namespace ml

/-- The failures of the library: the three exception classes it throws, and `undefined` for
an execution that reaches undefined behaviour (an unchecked read outside a vector, a null
dereference), which is no exception. -/
inductive Error
  | invalid_argument
  | out_of_range
  | runtime_error
  | undefined
  deriving DecidableEq, Repr

instance Error.exceptDecidableEq {α : Type} [DecidableEq α] : DecidableEq (Except Error α)
  | .ok a, .ok b =>
    if h : a = b then isTrue (by rw [h]) else isFalse (fun h2 => h (Except.ok.inj h2))
  | .error a, .error b =>
    if h : a = b then isTrue (by rw [h]) else isFalse (fun h2 => h (Except.error.inj h2))
  | .ok _, .error _ => isFalse (fun h => by cases h)
  | .error _, .ok _ => isFalse (fun h => by cases h)

/-- Rational matrices of Mathlib, the mathematical objects the code is compared with. -/
abbrev QMat (r c : Nat) := Matrix (Fin r) (Fin c) ℚ

/-! ## `utils::Matrix` -/

/-- The three private members of `class Matrix` (Matrix.hpp 63-66). -/
structure utils.Matrix where
  rows_ : Nat
  cols_ : Nat
  data_ : List (List ℚ)
  deriving DecidableEq, Repr

/-- The read `data_[i][j]`. Inside the member functions every such read is within the stored
rows (see `utils.Matrix.WF`); outside them the model reads `0`. -/
def utils.Matrix.get (m : utils.Matrix) (i j : Nat) : ℚ :=
  (m.data_.getD i []).getD j 0

/-- The write `data_[i][j] = v`. -/
def utils.Matrix.set (m : utils.Matrix) (i j : Nat) (v : ℚ) : utils.Matrix :=
  { m with data_ := m.data_.set i ((m.data_.getD i []).set j v) }

/-- The class invariant: `rows_` stored rows, each of length `cols_`. -/
def utils.Matrix.WF (m : utils.Matrix) : Prop :=
  m.data_.length = m.rows_ ∧ ∀ row ∈ m.data_, row.length = m.cols_

instance utils.Matrix.decidableWF (m : utils.Matrix) : Decidable m.WF := by
  unfold utils.Matrix.WF; infer_instance

/-- The matrix has `r` rows and `c` columns and satisfies the class invariant. -/
def utils.Matrix.HasShape (m : utils.Matrix) (r c : Nat) : Prop :=
  m.rows_ = r ∧ m.cols_ = c ∧ m.WF

/-- The mathematical matrix of the first `r` rows and `c` columns of the stored cells. -/
def utils.Matrix.toMat (m : utils.Matrix) (r c : Nat) : QMat r c :=
  fun i j => m.get i.1 j.1

/-- `Matrix::Matrix(size_t rows, size_t cols)` (Matrix.cpp 11-12). -/
def utils.Matrix.ofSize (rows cols : Nat) : utils.Matrix :=
  ⟨rows, cols, List.replicate rows (List.replicate cols 0)⟩

/-- `Matrix::Matrix(const std::vector<std::vector<double>>&)` (Matrix.cpp 14-31). -/
def utils.Matrix.ofData (data : List (List ℚ)) : Except Error utils.Matrix :=
  if data.isEmpty then .ok ⟨0, 0, []⟩
  else
    let cols := (data.getD 0 []).length
    if data.any (fun row => row.length ≠ cols) then .error .invalid_argument
    else .ok ⟨data.length, cols, data⟩

/-- The constructor from nested data at the one-row argument `{row}`, where the validation
of the row lengths cannot fail (`ofData_singleton`). -/
def utils.Matrix.ofRow (row : List ℚ) : utils.Matrix :=
  ⟨1, row.length, [row]⟩

/-- `Matrix::operator[]` (Matrix.cpp 141-153): the checked row access. -/
def utils.Matrix.row (m : utils.Matrix) (row : Nat) : Except Error (List ℚ) :=
  if row ≥ m.rows_ then .error .out_of_range else .ok (m.data_.getD row [])

/-- `Matrix::validateDimensions` (Matrix.cpp 293-297). -/
def utils.Matrix.validateDimensions (m other : utils.Matrix) : Except Error Unit :=
  if m.rows_ ≠ other.rows_ ∨ m.cols_ ≠ other.cols_ then .error .invalid_argument else .ok ()

/-- `Matrix::identity` (Matrix.cpp 245-251). -/
def utils.Matrix.identity (size : Nat) : utils.Matrix :=
  (List.range size).foldl (fun result i => result.set i i 1) (utils.Matrix.ofSize size size)

/-- `Matrix::zeros` (Matrix.cpp 253-255). -/
def utils.Matrix.zeros (rows cols : Nat) : utils.Matrix :=
  utils.Matrix.ofSize rows cols

/-- `Matrix::ones` (Matrix.cpp 257-263): `std::fill` on every stored row. -/
def utils.Matrix.ones (rows cols : Nat) : utils.Matrix :=
  let result := utils.Matrix.ofSize rows cols
  { result with data_ := result.data_.map (fun row => row.map (fun _ => 1)) }

/-- `Matrix::operator*(const Matrix&)` (Matrix.cpp 84-100). -/
def utils.Matrix.mul (m other : utils.Matrix) : Except Error utils.Matrix :=
  if m.cols_ ≠ other.rows_ then .error .invalid_argument
  else
    .ok ((List.range m.rows_).foldl (fun result i =>
      (List.range other.cols_).foldl (fun result j =>
        let sum := (List.range m.cols_).foldl
          (fun sum k => sum + m.get i k * other.get k j) 0
        result.set i j sum) result) (utils.Matrix.ofSize m.rows_ other.cols_))

/-- `Matrix::transpose` (Matrix.cpp 155-163). -/
def utils.Matrix.transpose (m : utils.Matrix) : utils.Matrix :=
  (List.range m.rows_).foldl (fun result i =>
    (List.range m.cols_).foldl (fun result j => result.set j i (m.get i j)) result)
    (utils.Matrix.ofSize m.cols_ m.rows_)

/-- `Matrix::operator+(const Matrix&)` (Matrix.cpp 62-71). -/
def utils.Matrix.add (m other : utils.Matrix) : Except Error utils.Matrix :=
  match m.validateDimensions other with
  | .error e => .error e
  | .ok _ =>
    .ok ((List.range m.rows_).foldl (fun result i =>
      (List.range m.cols_).foldl (fun result j =>
        result.set i j (m.get i j + other.get i j)) result)
      (utils.Matrix.ofSize m.rows_ m.cols_))

/-- `Matrix::operator-(const Matrix&)` (Matrix.cpp 73-82). -/
def utils.Matrix.sub (m other : utils.Matrix) : Except Error utils.Matrix :=
  match m.validateDimensions other with
  | .error e => .error e
  | .ok _ =>
    .ok ((List.range m.rows_).foldl (fun result i =>
      (List.range m.cols_).foldl (fun result j =>
        result.set i j (m.get i j - other.get i j)) result)
      (utils.Matrix.ofSize m.rows_ m.cols_))

/-- `Matrix::operator*(double)` (Matrix.cpp 102-110). -/
def utils.Matrix.scale (m : utils.Matrix) (scalar : ℚ) : utils.Matrix :=
  (List.range m.rows_).foldl (fun result i =>
    (List.range m.cols_).foldl (fun result j =>
      result.set i j (m.get i j * scalar)) result)
    (utils.Matrix.ofSize m.rows_ m.cols_)

/-- `Matrix::operator+=` (Matrix.cpp 112-120): the outcome and the object after the call. -/
def utils.Matrix.addAssign (m other : utils.Matrix) : Except Error Unit × utils.Matrix :=
  match m.validateDimensions other with
  | .error e => (.error e, m)
  | .ok _ =>
    (.ok (), (List.range m.rows_).foldl (fun self i =>
      (List.range m.cols_).foldl (fun self j =>
        self.set i j (self.get i j + other.get i j)) self) m)

/-- `Matrix::operator-=` (Matrix.cpp 122-130): the outcome and the object after the call. -/
def utils.Matrix.subAssign (m other : utils.Matrix) : Except Error Unit × utils.Matrix :=
  match m.validateDimensions other with
  | .error e => (.error e, m)
  | .ok _ =>
    (.ok (), (List.range m.rows_).foldl (fun self i =>
      (List.range m.cols_).foldl (fun self j =>
        self.set i j (self.get i j - other.get i j)) self) m)

/-- `Matrix::operator*=` (Matrix.cpp 132-139): the object after the call. -/
def utils.Matrix.scaleAssign (m : utils.Matrix) (scalar : ℚ) : utils.Matrix :=
  (List.range m.rows_).foldl (fun self i =>
    (List.range m.cols_).foldl (fun self j =>
      self.set i j (self.get i j * scalar)) self) m

/-- The number of values of `size_t` on the 64-bit targets: a product of two `size_t` is
taken modulo this number. -/
def utils.sizeRange : Nat := 2 ^ 64

/-- The vector `temp` of `Matrix::reshape` (Matrix.cpp 270-275): the stored rows, one after
the other. -/
def utils.Matrix.flatten (m : utils.Matrix) : List ℚ :=
  m.data_.foldl (fun temp row => temp ++ row) []

/-- The calls `data_.resize(rows)` and `row.resize(cols)` of `Matrix::reshape`
(Matrix.cpp 277-280): rows and cells are cut off or value-initialised ones appended. -/
def utils.Matrix.resized (m : utils.Matrix) (rows cols : Nat) : List (List ℚ) :=
  ((m.data_ ++ List.replicate (rows - m.data_.length) []).take rows).map
    (fun (row : List ℚ) => (row ++ List.replicate (cols - row.length) 0).take cols)

/-- The statement `data_[i][j] = temp[k++]` of `Matrix::reshape` (Matrix.cpp 285) on the
object and the counter `k`. The read of `temp` is unchecked: past the end of `temp` the
outcome is `Error.undefined`. -/
def utils.Matrix.refill (temp : List ℚ) (i j : Nat) (st : utils.Matrix × Nat) :
    Except Error (utils.Matrix × Nat) :=
  match temp[st.2]? with
  | none => .error .undefined
  | some v => .ok (st.1.set i j v, st.2 + 1)

/-- `Matrix::reshape` (Matrix.cpp 265-291): the outcome and the object after the call. The
two products of the guard are products of `size_t`. After an unchecked read past the end of
`temp` the object is left as the model has it after the two `resize`. The model has no bound
on the memory the call takes. -/
def utils.Matrix.reshape (m : utils.Matrix) (rows cols : Nat) :
    Except Error Unit × utils.Matrix :=
  if (rows * cols) % utils.sizeRange ≠ (m.rows_ * m.cols_) % utils.sizeRange then
    (.error .invalid_argument, m)
  else
    let temp := m.flatten
    let self : utils.Matrix := ⟨m.rows_, m.cols_, m.resized rows cols⟩
    match (List.range rows).foldlM (fun (st : utils.Matrix × Nat) i =>
        (List.range cols).foldlM (fun (st : utils.Matrix × Nat) j =>
          utils.Matrix.refill temp i j st) st) (self, 0) with
    | .error e => (.error e, self)
    | .ok st => (.ok (), ⟨rows, cols, st.1.data_⟩)

/-- The tolerance `1e-10` of the pivot test. -/
def utils.Matrix.pivotTolerance : ℚ := 1 / 10 ^ 10

/-- The augmented matrix `[A | I]` of `Matrix::inverse` (Matrix.cpp 171-179). -/
def utils.Matrix.augment (m : utils.Matrix) : utils.Matrix :=
  (List.range m.rows_).foldl (fun augmented i =>
    (List.range m.cols_).foldl (fun augmented j =>
      (augmented.set i j (m.get i j)).set i (j + m.cols_) (if i = j then 1 else 0))
      augmented) (utils.Matrix.ofSize m.rows_ (2 * m.cols_))

/-- One pass of the elimination loop of `Matrix::inverse` (Matrix.cpp 183-201) for the pivot
row `i`: the pivot test, the scaling of the pivot row, the elimination of column `i` from
every other row. -/
def utils.Matrix.eliminate (m : utils.Matrix) (augmented : utils.Matrix) (i : Nat) :
    Except Error utils.Matrix :=
  let pivot := augmented.get i i
  if |pivot| < utils.Matrix.pivotTolerance then .error .runtime_error
  else
    let augmented := (List.range (2 * m.cols_)).foldl
      (fun augmented j => augmented.set i j (augmented.get i j / pivot)) augmented
    .ok ((List.range m.rows_).foldl (fun augmented k =>
      if k ≠ i then
        let factor := augmented.get k i
        (List.range (2 * m.cols_)).foldl
          (fun augmented j => augmented.set k j (augmented.get k j - factor * augmented.get i j))
          augmented
      else augmented) augmented)

/-- `Matrix::inverse` (Matrix.cpp 165-213). -/
def utils.Matrix.inverse (m : utils.Matrix) : Except Error utils.Matrix :=
  if m.rows_ ≠ m.cols_ then .error .invalid_argument
  else
    match (List.range m.rows_).foldlM (fun augmented i => m.eliminate augmented i) m.augment with
    | .error e => .error e
    | .ok augmented =>
      .ok ((List.range m.rows_).foldl (fun inverse i =>
        (List.range m.cols_).foldl (fun inverse j =>
          inverse.set i j (augmented.get i (j + m.cols_))) inverse)
        (utils.Matrix.ofSize m.rows_ m.cols_))

/-- The matrix `minor` that `Matrix::determinant` builds for column `j` (Matrix.cpp 230-239):
rows `1 .. rows_ - 1` of the matrix without column `j`, the write position `k` advancing
with every copied cell. -/
def utils.Matrix.minorAt (m : utils.Matrix) (j : Nat) : utils.Matrix :=
  (List.range' 1 (m.rows_ - 1)).foldl (fun minor i =>
    ((List.range m.cols_).foldl (fun (st : utils.Matrix × Nat) l =>
      if l ≠ j then (st.1.set (i - 1) st.2 (m.get i l), st.2 + 1) else st) (minor, 0)).1)
    (utils.Matrix.ofSize (m.rows_ - 1) (m.cols_ - 1))

/-- `Matrix::determinant` (Matrix.cpp 215-243). The recursion is on `rows_`, which the minor
has one less of. -/
def utils.Matrix.determinant (m : utils.Matrix) : Except Error ℚ :=
  if m.rows_ ≠ m.cols_ then .error .invalid_argument
  else if m.rows_ = 1 then .ok (m.get 0 0)
  else if m.rows_ = 2 then .ok (m.get 0 0 * m.get 1 1 - m.get 0 1 * m.get 1 0)
  else
    (List.range m.cols_).attach.foldlM (fun det j =>
      match (m.minorAt j.1).determinant with
      | .error e => .error e
      | .ok d => .ok (det + (if j.1 % 2 = 0 then 1 else -1) * m.get 0 j.1 * d)) 0
termination_by m.rows_
decreasing_by
  have hj := List.mem_range.mp j.2
  have houter : ∀ (l : List Nat) (f : utils.Matrix → Nat → utils.Matrix)
      (_ : ∀ a i, (f a i).rows_ = a.rows_) (init : utils.Matrix),
      (l.foldl f init).rows_ = init.rows_ := by
    intro l f hf
    induction l with
    | nil => intro init; rfl
    | cons a l ih => intro init; rw [List.foldl_cons, ih, hf]
  have hinner : ∀ (l : List Nat) (f : utils.Matrix × Nat → Nat → utils.Matrix × Nat)
      (_ : ∀ a i, (f a i).1.rows_ = a.1.rows_) (init : utils.Matrix × Nat),
      (l.foldl f init).1.rows_ = init.1.rows_ := by
    intro l f hf
    induction l with
    | nil => intro init; rfl
    | cons a l ih => intro init; rw [List.foldl_cons, ih, hf]
  have hrows : (m.minorAt j.1).rows_ = m.rows_ - 1 := by
    unfold utils.Matrix.minorAt
    rw [houter]
    · rfl
    · intro a i
      rw [hinner]
      intro st l
      by_cases h : l ≠ j.1
      · rw [if_pos h]; rfl
      · rw [if_neg h]
  rw [hrows]
  omega

/-! ## The models -/

/-- The functions of `<cmath>` the models call. They have no rational model and are
parameters of the embedding. -/
structure models.Libm where
  exp : ℚ → ℚ
  log : ℚ → ℚ
  sqrt : ℚ → ℚ

/-- The block `X = features; if (fitIntercept_) { X = ones(rows, cols + 1); X[i][j + 1] =
features[i][j] }` that `train` and `predict` of both regressions start with
(LinearRegression.cpp 17-25 and 48-56, LogisticRegression.cpp 21-29 and 58-66). The row index
of every `X[i]` and `features[i]` is below `rows()` by the loop guard, so the range check of
`operator[]` does not fire (`row_of_lt`). -/
def models.designMatrix (fitIntercept_ : Bool) (features : utils.Matrix) : utils.Matrix :=
  if fitIntercept_ then
    (List.range features.rows_).foldl (fun X i =>
      (List.range features.cols_).foldl (fun X j => X.set i (j + 1) (features.get i j)) X)
      (utils.Matrix.ones features.rows_ (features.cols_ + 1))
  else features

/-! ### `models::LinearRegression` -/

/-- The members of `class LinearRegression` (LinearRegression.hpp 20-22). -/
structure models.LinearRegression where
  coefficients_ : List ℚ
  fitIntercept_ : Bool
  deriving DecidableEq, Repr

/-- `LinearRegression::train`, lines 17-37: the normal equations, up to `theta`. Every step
that can throw stands before the first write to `coefficients_`. -/
def models.LinearRegression.solve (self : models.LinearRegression) (features : utils.Matrix)
    (targets : List ℚ) : Except Error utils.Matrix := do
  let X := models.designMatrix self.fitIntercept_ features
  let y := (List.range targets.length).foldl (fun y i => y.set i 0 (targets.getD i 0))
    (utils.Matrix.ofSize targets.length 1)
  let X_T := X.transpose
  let X_T_X ← X_T.mul X
  let X_T_X_inv ← X_T_X.inverse
  let X_T_y ← X_T.mul y
  let theta ← X_T_X_inv.mul X_T_y
  pure theta

/-- `LinearRegression::train` (LinearRegression.cpp 11-45): the outcome and the model as the
call leaves it. -/
def models.LinearRegression.train (self : models.LinearRegression) (features : utils.Matrix)
    (targets : List ℚ) : Except Error Bool × models.LinearRegression :=
  if features.rows_ ≠ targets.length then (.error .invalid_argument, self)
  else
    match self.solve features targets with
    | .error e => (.error e, self)
    | .ok theta =>
      let resized := (self.coefficients_ ++
        List.replicate (theta.rows_ - self.coefficients_.length) 0).take theta.rows_
      let filled := (List.range theta.rows_).foldl (fun c i => c.set i (theta.get i 0)) resized
      (.ok true, { self with coefficients_ := filled })

/-- `LinearRegression::predict` (LinearRegression.cpp 47-68). The read `coefficients_[j]` is
unchecked: outside the vector the outcome is `Error.undefined`. -/
def models.LinearRegression.predict (self : models.LinearRegression)
    (features : utils.Matrix) : Except Error (List ℚ) :=
  let X := models.designMatrix self.fitIntercept_ features
  (List.range X.rows_).foldlM (fun predictions i => do
    let prediction ← (List.range X.cols_).foldlM (fun prediction j =>
      match self.coefficients_[j]? with
      | some c => .ok (prediction + X.get i j * c)
      | none => .error .undefined) (0 : ℚ)
    pure (predictions.set i prediction))
    (List.replicate X.rows_ 0)

/-- `LinearRegression::getParameters` (LinearRegression.cpp 70-72). -/
def models.LinearRegression.getParameters (self : models.LinearRegression) : List ℚ :=
  self.coefficients_

/-! ### `models::LogisticRegression` -/

/-- The members of `class LogisticRegression` (LogisticRegression.hpp 23-27). -/
structure models.LogisticRegression where
  coefficients_ : List ℚ
  learningRate_ : ℚ
  maxIterations_ : Nat
  tolerance_ : ℚ
  fitIntercept_ : Bool
  deriving DecidableEq, Repr

/-- `LogisticRegression::sigmoid` (LogisticRegression.cpp 84-86). -/
def models.LogisticRegression.sigmoid (libm : models.Libm) (x : ℚ) : ℚ :=
  1 / (1 + libm.exp (-x))

/-- `LogisticRegression::predict` (LogisticRegression.cpp 57-78). The read
`coefficients_[j]` is unchecked: outside the vector the outcome is `Error.undefined`. -/
def models.LogisticRegression.predict (libm : models.Libm) (self : models.LogisticRegression)
    (features : utils.Matrix) : Except Error (List ℚ) :=
  let X := models.designMatrix self.fitIntercept_ features
  (List.range X.rows_).foldlM (fun predictions i => do
    let z ← (List.range X.cols_).foldlM (fun z j =>
      match self.coefficients_[j]? with
      | some c => .ok (z + X.get i j * c)
      | none => .error .undefined) (0 : ℚ)
    pure (predictions.set i (models.LogisticRegression.sigmoid libm z)))
    (List.replicate X.rows_ 0)

/-- `LogisticRegression::computeCost` (LogisticRegression.cpp 88-97). -/
def models.LogisticRegression.computeCost (libm : models.Libm)
    (self : models.LogisticRegression) (features : utils.Matrix) (targets : List ℚ) :
    Except Error ℚ := do
  let predictions ← self.predict libm features
  let cost := (List.range predictions.length).foldl (fun cost i =>
    cost - (targets.getD i 0 * libm.log (predictions.getD i 0) +
      (1 - targets.getD i 0) * libm.log (1 - predictions.getD i 0))) 0
  pure (cost / predictions.length)

/-- The body of the loop of `LogisticRegression::train` up to the write of the coefficients
(LogisticRegression.cpp 34-46): the predictions for `features` under the coefficients the
iteration starts with, the gradient accumulated over the cells of `X`, then every coefficient
less the learning rate times its gradient cell by `X.rows()`. The divisor `X.rows()` is 0 for
an empty training set only, where the quotients of the code are not numbers; the statements
about the loop are for at least one row. -/
def models.LogisticRegression.update (libm : models.Libm) (self : models.LogisticRegression)
    (X features : utils.Matrix) (targets : List ℚ) : Except Error models.LogisticRegression := do
  let predictions ← self.predict libm features
  let gradient := (List.range X.rows_).foldl (fun gradient i =>
    let error := predictions.getD i 0 - targets.getD i 0
    (List.range X.cols_).foldl (fun gradient j =>
      gradient.set j (gradient.getD j 0 + error * X.get i j)) gradient)
    (List.replicate X.cols_ 0)
  let updated := (List.range X.cols_).foldl (fun c j =>
    c.set j (c.getD j 0 - self.learningRate_ * gradient.getD j 0 / X.rows_))
    self.coefficients_
  pure { self with coefficients_ := updated }

/-- The loop of `LogisticRegression::train` (LogisticRegression.cpp 33-52) with `n` iterations
left: the gradient step on `coefficients_`, then the cost test that leaves the loop. -/
def models.LogisticRegression.iterate (libm : models.Libm) (X features : utils.Matrix)
    (targets : List ℚ) : Nat → models.LogisticRegression → Except Error models.LogisticRegression
  | 0, self => .ok self
  | n + 1, self => do
    let self ← self.update libm X features targets
    let cost : ℚ ← self.computeCost libm X targets
    if cost < self.tolerance_ then .ok self
    else models.LogisticRegression.iterate libm X features targets n self

/-- `LogisticRegression::train` (LogisticRegression.cpp 11-55). After undefined behaviour the
object is unspecified; the model returns it with the zero-initialised coefficients. -/
def models.LogisticRegression.train (libm : models.Libm) (self : models.LogisticRegression)
    (features : utils.Matrix) (targets : List ℚ) :
    Except Error Bool × models.LogisticRegression :=
  if features.rows_ ≠ targets.length then (.error .invalid_argument, self)
  else
    let X := models.designMatrix self.fitIntercept_ features
    let self := { self with coefficients_ := List.replicate X.cols_ 0 }
    match models.LogisticRegression.iterate libm X features targets self.maxIterations_ self with
    | .error e => (.error e, self)
    | .ok self => (.ok true, self)

/-- `LogisticRegression::getParameters` (LogisticRegression.cpp 80-82). -/
def models.LogisticRegression.getParameters (self : models.LogisticRegression) : List ℚ :=
  self.coefficients_

/-! ### `models::KNNClassifier` -/

/-- The members of `class KNNClassifier` (KNNClassifier.hpp 20-22). -/
structure models.KNNClassifier where
  k_ : Nat
  trainFeatures_ : utils.Matrix
  trainTargets_ : List ℚ
  deriving DecidableEq, Repr

/-- `KNNClassifier::train` (KNNClassifier.cpp 12-22). -/
def models.KNNClassifier.train (self : models.KNNClassifier) (features : utils.Matrix)
    (targets : List ℚ) : Except Error Bool × models.KNNClassifier :=
  if features.rows_ ≠ targets.length then (.error .invalid_argument, self)
  else (.ok true, { self with trainFeatures_ := features, trainTargets_ := targets })

/-! ### `models::DecisionTree` -/

/-- `class DecisionTreeNode` (DecisionTree.hpp 9-19). The code builds two shapes only: a node
with both children null, which carries `value` (`leaf`), and a node with both children set,
which carries `featureIndex` and `threshold` (`node`). The `double value` of a leaf is a
number or, after the division `0.0 / 0`, the non-number NaN, which is `none`. -/
inductive models.DecisionTreeNode
  | leaf (value : Option ℚ)
  | node (featureIndex : Nat) (threshold : ℚ) (left right : models.DecisionTreeNode)
  deriving DecidableEq, Repr

/-- The members of `class DecisionTree` (DecisionTree.hpp 35-38); `none` is the null root. -/
structure models.DecisionTree where
  root_ : Option models.DecisionTreeNode
  maxDepth_ : Nat
  minSamplesSplit_ : Nat
  maxFeatures_ : Nat
  deriving DecidableEq, Repr

/-- The source of randomness of `buildTree` (`std::random_device`, `std::mt19937`,
`std::shuffle`, DecisionTree.cpp 77-79): what the shuffle makes of the feature indices in the
call that built the node at the given path from the root (`false` left, `true` right). -/
abbrev models.Shuffle := List Bool → List Nat → List Nat

/-- The statement `++classCounts[target]` on the `std::unordered_map<double, size_t>`, kept
as the list of its (key, count) entries. -/
def models.DecisionTree.bump : List (ℚ × Nat) → ℚ → List (ℚ × Nat)
  | [], target => [(target, 1)]
  | (key, count) :: rest, target =>
    if key = target then (key, count + 1) :: rest
    else (key, count) :: models.DecisionTree.bump rest target

/-- `DecisionTree::calculateGini` (DecisionTree.cpp 123-140). The map is walked in the order
of first insertion, one of the orders `std::unordered_map` may give. -/
def models.DecisionTree.calculateGini (targets : List ℚ) : ℚ :=
  if targets.isEmpty then 0
  else
    let classCounts := targets.foldl models.DecisionTree.bump []
    let n : ℚ := targets.length
    classCounts.foldl (fun gini kc =>
      let p := (kc.2 : ℚ) / n
      gini - p * p) 1

/-- The order `operator<` of `std::pair<double, double>` gives `std::sort`, as `≤`. -/
def models.DecisionTree.pairLE (a b : ℚ × ℚ) : Prop :=
  a.1 < b.1 ∨ (a.1 = b.1 ∧ a.2 ≤ b.2)

instance models.DecisionTree.pairLE_decidable : DecidableRel models.DecisionTree.pairLE := by
  intro a b; unfold models.DecisionTree.pairLE; infer_instance

/-- The sorted vector `featureTargetPairs` of `findBestSplit` (DecisionTree.cpp 147-154).
The order is total, so every sorting algorithm returns the same vector. The reads
`features[i][featureIndex]` and `targets[i]` have `i < features.rows()`. -/
def models.DecisionTree.sortedPairs (features : utils.Matrix) (targets : List ℚ)
    (featureIndex : Nat) : List (ℚ × ℚ) :=
  List.insertionSort models.DecisionTree.pairLE
    ((List.range features.rows_).foldl (fun featureTargetPairs i =>
      featureTargetPairs ++ [(features.get i featureIndex, targets.getD i 0)]) [])

/-- The quality of the split at `threshold` (DecisionTree.cpp 163-173): the partition of the
pairs and the weighted Gini impurity of the two sides. -/
def models.DecisionTree.splitGini (rows : Nat) (featureTargetPairs : List (ℚ × ℚ))
    (threshold : ℚ) : ℚ :=
  let sides := featureTargetPairs.foldl (fun (sides : List ℚ × List ℚ) pair =>
    if pair.1 ≤ threshold then (sides.1 ++ [pair.2], sides.2)
    else (sides.1, sides.2 ++ [pair.2])) ([], [])
  (sides.1.length * models.DecisionTree.calculateGini sides.1 +
    sides.2.length * models.DecisionTree.calculateGini sides.2) / rows

/-- `DecisionTree::findBestSplit` (DecisionTree.cpp 142-183): the pair (bestThreshold,
bestGini), where `⊤` is `std::numeric_limits<double>::infinity()`. -/
def models.DecisionTree.findBestSplit (features : utils.Matrix) (targets : List ℚ)
    (featureIndex : Nat) : ℚ × WithTop ℚ :=
  let featureTargetPairs := models.DecisionTree.sortedPairs features targets featureIndex
  (List.range' 1 (featureTargetPairs.length - 1)).foldl
    (fun (best : ℚ × WithTop ℚ) i =>
      if (featureTargetPairs.getD i (0, 0)).1 ≠ (featureTargetPairs.getD (i - 1) (0, 0)).1 then
        let threshold :=
          ((featureTargetPairs.getD i (0, 0)).1 + (featureTargetPairs.getD (i - 1) (0, 0)).1) / 2
        let gini := models.DecisionTree.splitGini features.rows_ featureTargetPairs threshold
        if (gini : WithTop ℚ) < best.2 then (threshold, (gini : WithTop ℚ)) else best
      else best) (0, ⊤)

/-- The leaf value `std::accumulate(begin, end, 0.0) / targets.size()`: no number when
`targets.size()` is 0. -/
def models.DecisionTree.mean (targets : List ℚ) : Option ℚ :=
  if targets.length = 0 then none
  else some (targets.foldl (fun acc t => acc + t) 0 / targets.length)

/-- The candidate features of `buildTree` (DecisionTree.cpp 72-81): all indices, or the
first `maxFeatures_` of the shuffled indices. -/
def models.DecisionTree.featureIndices (self : models.DecisionTree) (shuffle : models.Shuffle)
    (path : List Bool) (features : utils.Matrix) : List Nat :=
  if self.maxFeatures_ < features.cols_ then
    (shuffle path (List.range features.cols_)).take self.maxFeatures_
  else List.range features.cols_

/-- The search of `buildTree` (DecisionTree.cpp 67-90): (bestGini, bestFeature,
bestThreshold) over the candidate features. -/
def models.DecisionTree.bestSplit (features : utils.Matrix) (targets : List ℚ)
    (featureIndices : List Nat) : WithTop ℚ × Nat × ℚ :=
  featureIndices.foldl (fun (best : WithTop ℚ × Nat × ℚ) featureIdx =>
    let found := models.DecisionTree.findBestSplit features targets featureIdx
    if found.2 < best.1 then (found.2, featureIdx, found.1) else best) (⊤, 0, 0)

/-- The split of the data in `buildTree` (DecisionTree.cpp 98-111): (leftFeatures,
rightFeatures, leftTargets, rightTargets). Each assignment to `leftFeatures` or
`rightFeatures` replaces the matrix by the one-row matrix of the current row. -/
def models.DecisionTree.splitData (features : utils.Matrix) (targets : List ℚ)
    (bestFeature : Nat) (bestThreshold : ℚ) :
    utils.Matrix × utils.Matrix × List ℚ × List ℚ :=
  (List.range features.rows_).foldl
    (fun (st : utils.Matrix × utils.Matrix × List ℚ × List ℚ) i =>
      if features.get i bestFeature ≤ bestThreshold then
        (utils.Matrix.ofRow (features.data_.getD i []), st.2.1,
          st.2.2.1 ++ [targets.getD i 0], st.2.2.2)
      else
        (st.1, utils.Matrix.ofRow (features.data_.getD i []),
          st.2.2.1, st.2.2.2 ++ [targets.getD i 0]))
    (utils.Matrix.ofSize 0 features.cols_, utils.Matrix.ofSize 0 features.cols_, [], [])

/-- `DecisionTree::buildTree` (DecisionTree.cpp 53-121). The recursion stops because `depth`
grows towards `maxDepth_`. -/
def models.DecisionTree.buildTree (self : models.DecisionTree) (shuffle : models.Shuffle)
    (path : List Bool) (features : utils.Matrix) (targets : List ℚ) (depth : Nat) :
    models.DecisionTreeNode :=
  if h : depth ≥ self.maxDepth_ ∨ targets.length < self.minSamplesSplit_ then
    .leaf (if targets.isEmpty then some 0 else models.DecisionTree.mean targets)
  else
    let best := models.DecisionTree.bestSplit features targets
      (self.featureIndices shuffle path features)
    if best.1 = ⊤ then .leaf (models.DecisionTree.mean targets)
    else
      let parts := models.DecisionTree.splitData features targets best.2.1 best.2.2
      .node best.2.1 best.2.2
        (self.buildTree shuffle (path ++ [false]) parts.1 parts.2.2.1 (depth + 1))
        (self.buildTree shuffle (path ++ [true]) parts.2.1 parts.2.2.2 (depth + 1))
termination_by self.maxDepth_ - depth
decreasing_by all_goals (simp only [not_or, not_le, ge_iff_le] at h; omega)

/-- `DecisionTree::train` (DecisionTree.cpp 16-27). -/
def models.DecisionTree.train (self : models.DecisionTree) (shuffle : models.Shuffle)
    (features : utils.Matrix) (targets : List ℚ) : Except Error Bool × models.DecisionTree :=
  if features.rows_ ≠ targets.length ∨ features.rows_ = 0 then (.ok false, self)
  else
    let self := if self.maxFeatures_ = 0 then { self with maxFeatures_ := features.cols_ }
      else self
    (.ok true, { self with root_ := some (self.buildTree shuffle [] features targets 0) })

/-- The `while (node->left && node->right)` walk of `DecisionTree::predict`
(DecisionTree.cpp 35-42) for one query row. The read `features[i][node->featureIndex]` is
unchecked: outside the row the outcome is `Error.undefined`. -/
def models.DecisionTreeNode.walk (row : List ℚ) :
    models.DecisionTreeNode → Except Error (Option ℚ)
  | .leaf value => .ok value
  | .node featureIndex threshold left right =>
    match row[featureIndex]? with
    | none => .error .undefined
    | some x => if x ≤ threshold then left.walk row else right.walk row

/-- `DecisionTree::predict` (DecisionTree.cpp 29-46). A null `root_` is dereferenced by the
first query row: `Error.undefined`. -/
def models.DecisionTree.predict (self : models.DecisionTree) (features : utils.Matrix) :
    Except Error (List (Option ℚ)) :=
  (List.range features.rows_).foldlM (fun predictions i =>
    match self.root_ with
    | none => .error .undefined
    | some root =>
      match root.walk (features.data_.getD i []) with
      | .error e => .error e
      | .ok value => .ok (predictions ++ [value])) []

/-! ### `KNNClassifier::predict` -/

/-- `KNNClassifier::euclideanDistance` (KNNClassifier.cpp 58-71). -/
def models.KNNClassifier.euclideanDistance (libm : models.Libm) (a b : List ℚ) :
    Except Error ℚ :=
  if a.length ≠ b.length then .error .invalid_argument
  else
    .ok (libm.sqrt ((List.range a.length).foldl (fun sum i =>
      let diff := a.getD i 0 - b.getD i 0
      sum + diff * diff) 0))

/-- The vector `distances` of `predict` for one query row (KNNClassifier.cpp 28-32). The
read `trainTargets_[j]` is unchecked: outside the vector the outcome is `Error.undefined`. -/
def models.KNNClassifier.distances (libm : models.Libm) (self : models.KNNClassifier)
    (query : List ℚ) : Except Error (List (ℚ × ℚ)) :=
  (List.range self.trainFeatures_.rows_).foldlM (fun distances j =>
    match models.KNNClassifier.euclideanDistance libm query
        (self.trainFeatures_.data_.getD j []) with
    | .error e => .error e
    | .ok distance =>
      match self.trainTargets_[j]? with
      | none => .error .undefined
      | some target => .ok (distances ++ [(distance, target)])) []

/-- The first `k_` entries of `distances` after `std::partial_sort(begin, begin + k_, end)`
(KNNClassifier.cpp 34): the `k_` smallest pairs in the order of `std::pair`, ascending, which
is all of the vector the code reads afterwards. With `begin + k_` past the end the call is
undefined. -/
def models.KNNClassifier.nearest (k_ : Nat) (distances : List (ℚ × ℚ)) :
    Except Error (List (ℚ × ℚ)) :=
  if k_ > distances.length then .error .undefined
  else .ok ((List.insertionSort models.DecisionTree.pairLE distances).take k_)

/-- The statement `++classVotes[target]` on the `std::map<double, int>`, kept as the list of
its entries in ascending key order. -/
def models.KNNClassifier.vote : List (ℚ × Int) → ℚ → List (ℚ × Int)
  | [], target => [(target, 1)]
  | (key, count) :: rest, target =>
    if target < key then (target, 1) :: (key, count) :: rest
    else if key = target then (key, count + 1) :: rest
    else (key, count) :: models.KNNClassifier.vote rest target

/-- The call `std::max_element(classVotes.begin(), classVotes.end(), comp)` with `comp`
comparing the counts (KNNClassifier.cpp 41-45): the first entry that no later entry beats;
`none` is the iterator `end()` of an empty map. -/
def models.KNNClassifier.maxElement : List (ℚ × Int) → Option (ℚ × Int)
  | [] => none
  | first :: rest =>
    some (rest.foldl (fun largest it => if largest.2 < it.2 then it else largest) first)

/-- The vote tally of `predict` (KNNClassifier.cpp 36-39) over the first `k_` entries. -/
def models.KNNClassifier.tally (k_ : Nat) (nearest : List (ℚ × ℚ)) : List (ℚ × Int) :=
  (List.range k_).foldl (fun classVotes j =>
    models.KNNClassifier.vote classVotes (nearest.getD j (0, 0)).2) []

/-- The body of the loop of `KNNClassifier::predict` for one query row
(KNNClassifier.cpp 28-47). `maxVote->first` on `end()` is undefined. -/
def models.KNNClassifier.predictRow (libm : models.Libm) (self : models.KNNClassifier)
    (query : List ℚ) : Except Error ℚ :=
  match self.distances libm query with
  | .error e => .error e
  | .ok distances =>
    match models.KNNClassifier.nearest self.k_ distances with
    | .error e => .error e
    | .ok nearest =>
      match models.KNNClassifier.maxElement (models.KNNClassifier.tally self.k_ nearest) with
      | none => .error .undefined
      | some maxVote => .ok maxVote.1

/-- `KNNClassifier::predict` (KNNClassifier.cpp 24-51). -/
def models.KNNClassifier.predict (libm : models.Libm) (self : models.KNNClassifier)
    (features : utils.Matrix) : Except Error (List ℚ) :=
  (List.range features.rows_).foldlM (fun predictions i =>
    match self.predictRow libm (features.data_.getD i []) with
    | .error e => .error e
    | .ok prediction => .ok (predictions.set i prediction)) (List.replicate features.rows_ 0)

/-- A sequence of calls of `KNNClassifier::train`, each on the model the call before left. -/
def models.KNNClassifier.trainAll (self : models.KNNClassifier)
    (calls : List (utils.Matrix × List ℚ)) : models.KNNClassifier :=
  calls.foldl (fun model call => (model.train call.1 call.2).2) self

/-! ### `data::DataPreprocessor` -/

/-- A `utils::Matrix` whose cells can hold the outcome of a division by zero: `none` is a
`double` that is no finite number (NaN, or an infinity). -/
structure data.CellMatrix where
  rows_ : Nat
  cols_ : Nat
  data_ : List (List (Option ℚ))
  deriving DecidableEq, Repr

/-- The read `data_[i][j]` of a cell that a loop has written; `none` also outside the stored
cells. -/
def data.CellMatrix.get (m : data.CellMatrix) (i j : Nat) : Option ℚ :=
  (m.data_.getD i []).getD j none

/-- The write `m[i][j] = v` for `i < rows()`. -/
def data.CellMatrix.set (m : data.CellMatrix) (i j : Nat) (v : Option ℚ) : data.CellMatrix :=
  { m with data_ := m.data_.set i ((m.data_.getD i []).set j v) }

/-- The matrix has `r` rows and `c` columns and stores `r` rows of `c` cells. -/
def data.CellMatrix.HasShape (m : data.CellMatrix) (r c : Nat) : Prop :=
  m.rows_ = r ∧ m.cols_ = c ∧ m.data_.length = r ∧ ∀ row ∈ m.data_, row.length = c

/-- The quotient `x / y` of two `double`: by `0.0` it is NaN or an infinity. -/
def data.quotient (x y : ℚ) : Option ℚ :=
  if y = 0 then none else some (x / y)

/-- The mean of column `j` that `standardize` computes (DataPreprocessor.cpp 54-61). With no
row the quotient is not a number; no cell is computed from it then. -/
def data.DataPreprocessor.columnMean (features : utils.Matrix) (j : Nat) : ℚ :=
  (List.range features.rows_).foldl (fun mean i => mean + features.get i j) 0 / features.rows_

/-- The variance of column `j` that `standardize` computes (DataPreprocessor.cpp 55-68). -/
def data.DataPreprocessor.columnVariance (features : utils.Matrix) (j : Nat) : ℚ :=
  (List.range features.rows_).foldl (fun variance i =>
    let diff := features.get i j - data.DataPreprocessor.columnMean features j
    variance + diff * diff) 0 / features.rows_

/-- `DataPreprocessor::standardize` (DataPreprocessor.cpp 50-79). -/
def data.DataPreprocessor.standardize (libm : models.Libm) (features : utils.Matrix) :
    data.CellMatrix :=
  (List.range features.cols_).foldl (fun standardizedFeatures j =>
    let mean := data.DataPreprocessor.columnMean features j
    let variance := data.DataPreprocessor.columnVariance features j
    let stdDev := libm.sqrt variance
    (List.range features.rows_).foldl (fun standardizedFeatures i =>
      standardizedFeatures.set i j (data.quotient (features.get i j - mean) stdDev))
      standardizedFeatures)
    ⟨features.rows_, features.cols_,
      List.replicate features.rows_ (List.replicate features.cols_ (some 0))⟩

/-! ## The arithmetic of `double`

The definitions above compute with exact rationals. Where the rounding of `double` decides the
outcome, the same code is given once more with a rounding function `fl` applied to the result
of every multiplication, division, addition and subtraction, in the order of the source; with
`fl` the identity these are the definitions above. -/

/-- The integer nearest to `n / d`, the even one of the two when both are equally near. -/
def binary64.nearestEven (n d : Nat) : Nat :=
  if 2 * (n % d) < d then n / d
  else if d < 2 * (n % d) then n / d + 1
  else if (n / d) % 2 = 0 then n / d else n / d + 1

/-- The number of binary digits of `n`, by halving; the first argument bounds the number of
halvings, and `n` itself is enough of it. -/
def binary64.bitLength : Nat → Nat → Nat
  | 0, _ => 0
  | fuel + 1, n => if n = 0 then 0 else binary64.bitLength fuel (n / 2) + 1

/-- The exponent `e` of the last binary digit that binary64 keeps of `n / d`, for positive
`n` and `d`: the integer with `2 ^ 52 ≤ (n / d) / 2 ^ e < 2 ^ 53`. The bit lengths give an
exponent that is right or one too small, and the comparison with `2 ^ 53` tells which. -/
def binary64.exponent (n d : Nat) : Int :=
  let e0 : Int := (binary64.bitLength n n : Int) - (binary64.bitLength d d : Int) - 53
  if n * 2 ^ (-e0).toNat < 2 ^ 53 * (d * 2 ^ e0.toNat) then e0 else e0 + 1

/-- The rounding of IEEE 754 binary64 in its default mode (to nearest, ties to even) for the
numbers of the normal range: `|x| = n / d` is divided by the power of two `2 ^ e` that brings
it into `[2 ^ 52, 2 ^ 53)`, rounded there to the nearest integer `m`, and the result is
`± m * 2 ^ e`. The exponent range of the format is not modelled: nothing overflows to an
infinity and nothing becomes subnormal. -/
def binary64.round (x : ℚ) : ℚ :=
  if x = 0 then 0
  else
    let n := x.num.natAbs
    let d := x.den
    let e := binary64.exponent n d
    let m := binary64.nearestEven (n * 2 ^ (-e).toNat) (d * 2 ^ e.toNat)
    let r : ℚ := ((m * 2 ^ e.toNat : Nat) : ℚ) / ((2 ^ (-e).toNat : Nat) : ℚ)
    if x < 0 then -r else r

/-- `Matrix::operator*(const Matrix&)` (Matrix.cpp 84-100) with the product and the sum of
`sum += data_[i][k] * other.data_[k][j]` rounded. -/
def utils.Matrix.mulWith (fl : ℚ → ℚ) (m other : utils.Matrix) : Except Error utils.Matrix :=
  if m.cols_ ≠ other.rows_ then .error .invalid_argument
  else
    .ok ((List.range m.rows_).foldl (fun result i =>
      (List.range other.cols_).foldl (fun result j =>
        let sum := (List.range m.cols_).foldl
          (fun sum k => fl (sum + fl (m.get i k * other.get k j))) 0
        result.set i j sum) result) (utils.Matrix.ofSize m.rows_ other.cols_))

/-- One pass of the elimination loop of `Matrix::inverse` (Matrix.cpp 183-201) with rounding:
the literal `1e-10` is the `double` nearest to it, the quotient of `/= pivot` is rounded, and
so are the product and the difference of `-= factor * augmented.data_[i][j]`. -/
def utils.Matrix.eliminateWith (fl : ℚ → ℚ) (m : utils.Matrix) (augmented : utils.Matrix)
    (i : Nat) : Except Error utils.Matrix :=
  let pivot := augmented.get i i
  if |pivot| < fl utils.Matrix.pivotTolerance then .error .runtime_error
  else
    let augmented := (List.range (2 * m.cols_)).foldl
      (fun augmented j => augmented.set i j (fl (augmented.get i j / pivot))) augmented
    .ok ((List.range m.rows_).foldl (fun augmented k =>
      if k ≠ i then
        let factor := augmented.get k i
        (List.range (2 * m.cols_)).foldl
          (fun augmented j =>
            augmented.set k j (fl (augmented.get k j - fl (factor * augmented.get i j))))
          augmented
      else augmented) augmented)

/-- `Matrix::inverse` (Matrix.cpp 165-213) with the rounded elimination. -/
def utils.Matrix.inverseWith (fl : ℚ → ℚ) (m : utils.Matrix) : Except Error utils.Matrix :=
  if m.rows_ ≠ m.cols_ then .error .invalid_argument
  else
    match (List.range m.rows_).foldlM (fun augmented i => m.eliminateWith fl augmented i)
        m.augment with
    | .error e => .error e
    | .ok augmented =>
      .ok ((List.range m.rows_).foldl (fun inverse i =>
        (List.range m.cols_).foldl (fun inverse j =>
          inverse.set i j (augmented.get i (j + m.cols_))) inverse)
        (utils.Matrix.ofSize m.rows_ m.cols_))

/-- `LinearRegression::train`, lines 17-37, with the rounded products and the rounded
inverse. -/
def models.LinearRegression.solveWith (fl : ℚ → ℚ) (self : models.LinearRegression)
    (features : utils.Matrix) (targets : List ℚ) : Except Error utils.Matrix := do
  let X := models.designMatrix self.fitIntercept_ features
  let y := (List.range targets.length).foldl (fun y i => y.set i 0 (targets.getD i 0))
    (utils.Matrix.ofSize targets.length 1)
  let X_T := X.transpose
  let X_T_X ← X_T.mulWith fl X
  let X_T_X_inv ← X_T_X.inverseWith fl
  let X_T_y ← X_T.mulWith fl y
  let theta ← X_T_X_inv.mulWith fl X_T_y
  pure theta

/-- `LinearRegression::train` (LinearRegression.cpp 11-45) in rounded arithmetic: the outcome
and the model as the call leaves it. -/
def models.LinearRegression.trainWith (fl : ℚ → ℚ) (self : models.LinearRegression)
    (features : utils.Matrix) (targets : List ℚ) :
    Except Error Bool × models.LinearRegression :=
  if features.rows_ ≠ targets.length then (.error .invalid_argument, self)
  else
    match self.solveWith fl features targets with
    | .error e => (.error e, self)
    | .ok theta =>
      let resized := (self.coefficients_ ++
        List.replicate (theta.rows_ - self.coefficients_.length) 0).take theta.rows_
      let filled := (List.range theta.rows_).foldl (fun c i => c.set i (theta.get i 0)) resized
      (.ok true, { self with coefficients_ := filled })

/-- `LogisticRegression::sigmoid` (LogisticRegression.cpp 84-86) with the sum and the quotient
rounded; the negation is exact and `std::exp` returns a `double`. -/
def models.LogisticRegression.sigmoidWith (fl : ℚ → ℚ) (libm : models.Libm) (x : ℚ) : ℚ :=
  fl (1 / fl (1 + libm.exp (-x)))

/-- `LogisticRegression::predict` (LogisticRegression.cpp 57-78) with the product and the sum
of `z += X[i][j] * coefficients_[j]` rounded and the rounded sigmoid. -/
def models.LogisticRegression.predictWith (fl : ℚ → ℚ) (libm : models.Libm)
    (self : models.LogisticRegression) (features : utils.Matrix) : Except Error (List ℚ) :=
  let X := models.designMatrix self.fitIntercept_ features
  (List.range X.rows_).foldlM (fun predictions i => do
    let z ← (List.range X.cols_).foldlM (fun z j =>
      match self.coefficients_[j]? with
      | some c => .ok (fl (z + fl (X.get i j * c)))
      | none => .error .undefined) (0 : ℚ)
    pure (predictions.set i (models.LogisticRegression.sigmoidWith fl libm z)))
    (List.replicate X.rows_ 0)

/-! ## The tree, in the words of the specification -/

/-- The height of a tree: the number of internal nodes on the longest path from the root to
a leaf. -/
def models.DecisionTreeNode.height : models.DecisionTreeNode → Nat
  | .leaf _ => 0
  | .node _ _ left right => 1 + max left.height right.height

/-- The prediction traversal of the specification: at each internal node left (`false`) when
the value of the row at the feature of the node is `≤` the threshold, else right (`true`). -/
def models.DecisionTreeNode.route (row : List ℚ) : models.DecisionTreeNode → List Bool
  | .leaf _ => []
  | .node featureIndex threshold left right =>
    if row.getD featureIndex 0 ≤ threshold then false :: left.route row
    else true :: right.route row

/-- The value of the leaf at the end of a path from the root, when the path ends at a leaf. -/
def models.DecisionTreeNode.leafAt : models.DecisionTreeNode → List Bool → Option (Option ℚ)
  | .leaf value, [] => some value
  | .node _ _ left _, false :: path => left.leafAt path
  | .node _ _ _ right, true :: path => right.leafAt path
  | _, _ => none

/-- The training targets whose feature rows reach the leaf at the end of `path`. -/
def models.DecisionTree.reaching (tree : models.DecisionTreeNode) (features : utils.Matrix)
    (targets : List ℚ) (path : List Bool) : List ℚ :=
  ((List.range features.rows_).filter
    (fun i => tree.route (features.data_.getD i []) = path)).map (fun i => targets.getD i 0)

/-! ## The split search, in the words of the specification -/

/-- The values of feature `f` over the rows of the node. -/
def models.DecisionTree.columnValues (features : utils.Matrix) (f : Nat) : List ℚ :=
  (List.range features.rows_).map (fun i => features.get i f)

/-- A candidate split of the specification: a feature and the midpoint between two
consecutive distinct values of that feature (no value of the feature lies strictly between
them). -/
def models.DecisionTree.IsCandidate (features : utils.Matrix) (f : Nat) (t : ℚ) : Prop :=
  f < features.cols_ ∧ ∃ a b, a ∈ models.DecisionTree.columnValues features f ∧
    b ∈ models.DecisionTree.columnValues features f ∧ a < b ∧
    (∀ v ∈ models.DecisionTree.columnValues features f, ¬ (a < v ∧ v < b)) ∧ t = (a + b) / 2

/-- The targets of the rows on the left of a split (`value ≤ t`), in row order. -/
def models.DecisionTree.leftOf (features : utils.Matrix) (targets : List ℚ) (f : Nat)
    (t : ℚ) : List ℚ :=
  ((List.range features.rows_).filter (fun i => features.get i f ≤ t)).map
    (fun i => targets.getD i 0)

/-- The targets of the rows on the right of a split (`value > t`), in row order. -/
def models.DecisionTree.rightOf (features : utils.Matrix) (targets : List ℚ) (f : Nat)
    (t : ℚ) : List ℚ :=
  ((List.range features.rows_).filter (fun i => ¬ features.get i f ≤ t)).map
    (fun i => targets.getD i 0)

/-- The sample-weighted Gini impurity `(|L| gini(L) + |R| gini(R)) / n` of a split. -/
def models.DecisionTree.weightedGini (features : utils.Matrix) (targets : List ℚ) (f : Nat)
    (t : ℚ) : ℚ :=
  ((models.DecisionTree.leftOf features targets f t).length *
      models.DecisionTree.calculateGini (models.DecisionTree.leftOf features targets f t) +
    (models.DecisionTree.rightOf features targets f t).length *
      models.DecisionTree.calculateGini (models.DecisionTree.rightOf features targets f t)) /
    features.rows_

/-! ## The gradient step, in the words of the specification -/

/-- The cell `k` of row `i` of the features with a leading 1 when an intercept is fitted. -/
def models.LogisticRegression.augmentedRow (fitIntercept : Bool) (features : utils.Matrix)
    (i k : Nat) : ℚ :=
  if fitIntercept then (if k = 0 then 1 else features.get i (k - 1)) else features.get i k

/-- The width of the coefficient vector: one more than the number of feature columns when an
intercept is fitted. -/
def models.LogisticRegression.width (fitIntercept : Bool) (features : utils.Matrix) : Nat :=
  if fitIntercept then features.cols_ + 1 else features.cols_

/-- The prediction for row `i` under the coefficients `theta`: the sigmoid
`1 / (1 + exp(-z))` of the product `z` of the augmented row with `theta`. -/
def models.LogisticRegression.rowPrediction (libm : models.Libm) (fitIntercept : Bool)
    (features : utils.Matrix) (theta : List ℚ) (i : Nat) : ℚ :=
  1 / (1 + libm.exp
    (-(∑ k in Finset.range (models.LogisticRegression.width fitIntercept features),
      models.LogisticRegression.augmentedRow fitIntercept features i k * theta.getD k 0)))

/-- One gradient step: every coefficient `theta[j]` less the learning rate times the sum over
the samples of (prediction - target) times the cell `j` of the augmented row, by the number
of samples, all predictions being those under `theta`. -/
def models.LogisticRegression.gradientStep (libm : models.Libm) (fitIntercept : Bool)
    (learningRate : ℚ) (features : utils.Matrix) (targets : List ℚ) (theta : List ℚ) :
    List ℚ :=
  (List.range (models.LogisticRegression.width fitIntercept features)).map (fun j =>
    theta.getD j 0 - learningRate *
      (∑ i in Finset.range features.rows_,
        (models.LogisticRegression.rowPrediction libm fitIntercept features theta i -
          targets.getD i 0) *
          models.LogisticRegression.augmentedRow fitIntercept features i j) /
      features.rows_)

/-- The linear combination of the augmented row `i` with `theta` as `double` accumulates it:
from 0, one rounded product added with a rounded sum for every column, in the order of the
columns. -/
def models.LogisticRegression.linearCombination (fl : ℚ → ℚ) (fitIntercept : Bool)
    (features : utils.Matrix) (theta : List ℚ) (i : Nat) : ℚ :=
  (List.range (models.LogisticRegression.width fitIntercept features)).foldl (fun z k =>
    fl (z + fl (models.LogisticRegression.augmentedRow fitIntercept features i k *
      theta.getD k 0))) 0

/-! ## Auxiliary definitions of the proofs -/

/-- The model with its coefficient vector replaced. -/
def models.LogisticRegression.withCoefficients (self : models.LogisticRegression)
    (theta : List ℚ) : models.LogisticRegression :=
  { self with coefficients_ := theta }

/-- The candidate threshold of `findBestSplit` at position `i` of the sorted pairs. -/
def models.DecisionTree.thresholdAt (pairs : List (ℚ × ℚ)) (i : Nat) : ℚ :=
  ((pairs.getD i (0, 0)).1 + (pairs.getD (i - 1) (0, 0)).1) / 2

/-- The quality `findBestSplit` computes at position `i` of the sorted pairs, and `⊤` where
the position is no boundary between two distinct values. -/
def models.DecisionTree.qualityAt (rows : Nat) (pairs : List (ℚ × ℚ)) (i : Nat) : WithTop ℚ :=
  if (pairs.getD i (0, 0)).1 ≠ (pairs.getD (i - 1) (0, 0)).1 then
    ((models.DecisionTree.splitGini rows pairs (models.DecisionTree.thresholdAt pairs i) : ℚ) :
      WithTop ℚ)
  else ⊤

/-! ## Concrete inputs -/

/-- The shuffle that leaves the feature indices in order. -/
def examples.noShuffle : models.Shuffle := fun _ indices => indices

/-- A libm whose functions are constant, for the calls that never reach them. -/
def examples.constLibm : models.Libm := ⟨fun _ => 1, fun _ => 0, fun _ => 0⟩

/-- Ten feature rows of one column. -/
def examples.tenRows : utils.Matrix := utils.Matrix.ofSize 10 1

/-- Nine targets. -/
def examples.nineTargets : List ℚ := List.replicate 9 0

/-- Two rows of one feature with the values 1 and 2. -/
def examples.twoRows : utils.Matrix := ⟨2, 1, [[1], [2]]⟩

/-- Four rows of one feature with the values 1, 2, 3, 4. -/
def examples.fourRows : utils.Matrix := ⟨4, 1, [[1], [2], [3], [4]]⟩

/-- Two rows of two features: the first feature is constant, the second takes 1 and 2. -/
def examples.twoColumns : utils.Matrix := ⟨2, 2, [[0, 1], [0, 2]]⟩

/-- Two identical rows of one feature with the value 1. -/
def examples.twinRows : utils.Matrix := ⟨2, 1, [[1], [1]]⟩

/-- One row of one feature with the value 1. -/
def examples.oneRow : utils.Matrix := ⟨1, 1, [[1]]⟩

/-- A libm whose square root is the identity: it is exact at 0 and at 1, where the
examples call it, and positive on the positive numbers. -/
def examples.unitLibm : models.Libm := ⟨fun _ => 1, fun _ => 0, fun x => x⟩


/-- A libm whose `exp` is exact at 0 and, as the `exp` of `double` does by underflow, returns
0 at the arguments `≤ -746`; the examples call it at 0 and at -1600 only. -/
def examples.underflowLibm : models.Libm :=
  ⟨fun x => if x ≤ -746 then 0 else 1, fun _ => 0, fun x => x⟩

/-- A libm whose `exp` has at -37 the value `0x1.898471fca6055p-54` that `std::exp(-37.0)`
returns, a positive number below `2 ^ -53`, and is 1 elsewhere. -/
def examples.exp37Libm : models.Libm :=
  ⟨fun x => if x = -37 then 6922830684512341 / 2 ^ 106 else 1, fun _ => 0, fun _ => 0⟩

/-- Three rows of two features, the second feature three times the first. -/
def examples.collinear : utils.Matrix := ⟨3, 2, [[915, 2745], [856, 2568], [400, 1200]]⟩

/-- One row of one feature with the value 40. -/
def examples.fortyRow : utils.Matrix := ⟨1, 1, [[40]]⟩

/-- The matrix `[[2, 1], [1, 1]]`. -/
def examples.invertible2 : utils.Matrix := ⟨2, 2, [[2, 1], [1, 1]]⟩

/-- The matrix `[[1, -1], [-1, 2]]`, the inverse of `examples.invertible2`. -/
def examples.inverse2 : utils.Matrix := ⟨2, 2, [[1, -1], [-1, 2]]⟩

/-- The permutation matrix `[[0, 1], [1, 0]]`: invertible, its own inverse, first pivot 0. -/
def examples.swap2 : utils.Matrix := ⟨2, 2, [[0, 1], [1, 0]]⟩

/-- The singular matrix `[[1, 2], [2, 4]]` of the specification. -/
def examples.singular2 : utils.Matrix := ⟨2, 2, [[1, 2], [2, 4]]⟩

/-- A 3×3 matrix, for the cofactor expansion. -/
def examples.square3 : utils.Matrix := ⟨3, 3, [[2, 0, 1], [1, 3, 2], [1, 1, 4]]⟩

/-- The features of four samples of the plane `y = 2 x1 + 3 x2 + 1`. -/
def examples.planeFeatures : utils.Matrix := ⟨4, 2, [[1, 0], [0, 1], [1, 1], [2, 5]]⟩

/-- The targets `2 x1 + 3 x2 + 1` of `examples.planeFeatures`. -/
def examples.planeTargets : List ℚ := [3, 4, 6, 20]

/-- Induction over a counted loop: an invariant that holds before the loop and is kept by every
pass holds after it. -/
theorem foldl_range_inv {α : Type} (P : Nat → α → Prop) (f : α → Nat → α) (n : Nat) (init : α)
    (h0 : P 0 init) (hstep : ∀ k a, k < n → P k a → P (k + 1) (f a k)) :
    P n ((List.range n).foldl f init) := by
  induction n with
  | zero => simpa using h0
  | succ n ih =>
    rw [List.range_succ, List.foldl_append, List.foldl_cons, List.foldl_nil]
    exact hstep n _ (Nat.lt_succ_self n)
      (ih (fun k a hk hP => hstep k a (Nat.lt_succ_of_lt hk) hP))

/-- One more pass of a counted loop that can throw. -/
theorem foldlM_range_succ {α : Type} (f : α → Nat → Except Error α) (n : Nat) (init : α) :
    (List.range (n + 1)).foldlM f init =
      match (List.range n).foldlM f init with
      | .error e => .error e
      | .ok a => f a n := by
  rw [List.range_succ, List.foldlM_append]
  cases (List.range n).foldlM f init with
  | error e => rfl
  | ok a =>
    show (List.foldlM f a [n]) = f a n
    rw [List.foldlM_cons]
    show (f a n >>= fun b => pure b) = f a n
    rw [bind_pure]

/-- Induction over a counted loop that can throw: when the loop returns, the invariant holds. -/
theorem foldlM_range_inv {α : Type} (P : Nat → α → Prop) (f : α → Nat → Except Error α)
    (n : Nat) (init : α) (h0 : P 0 init)
    (hstep : ∀ k a b, k < n → P k a → f a k = .ok b → P (k + 1) b) :
    ∀ r, (List.range n).foldlM f init = .ok r → P n r := by
  induction n with
  | zero =>
    intro r hr
    simp only [List.range_zero, List.foldlM_nil] at hr
    cases hr
    exact h0
  | succ n ih =>
    intro r hr
    rw [foldlM_range_succ] at hr
    cases hmid : (List.range n).foldlM f init with
    | error e => rw [hmid] at hr; cases hr
    | ok a =>
      rw [hmid] at hr
      exact hstep n a r (Nat.lt_succ_self n)
        (ih (fun k a b hk hP hf => hstep k a b (Nat.lt_succ_of_lt hk) hP hf) a hmid) hr

/-- A counted loop that throws has a first pass that throws. -/
theorem foldlM_range_error {α : Type} (f : α → Nat → Except Error α) (n : Nat) (init : α)
    (e : Error) (h : (List.range n).foldlM f init = .error e) :
    ∃ i a, i < n ∧ (List.range i).foldlM f init = .ok a ∧ f a i = .error e := by
  induction n with
  | zero => simp only [List.range_zero, List.foldlM_nil] at h; cases h
  | succ n ih =>
    rw [foldlM_range_succ] at h
    cases hmid : (List.range n).foldlM f init with
    | error e2 =>
      rw [hmid] at h
      cases h
      obtain ⟨i, a, hi, h1, h2⟩ := ih hmid
      exact ⟨i, a, Nat.lt_succ_of_lt hi, h1, h2⟩
    | ok a =>
      rw [hmid] at h
      exact ⟨n, a, Nat.lt_succ_self n, hmid, h⟩

/-- The accumulation `sum += f k` over `k < n` is the finite sum. -/
theorem foldl_add_range (f : Nat → ℚ) (n : Nat) :
    (List.range n).foldl (fun sum k => sum + f k) 0 = ∑ k in Finset.range n, f k := by
  induction n with
  | zero => simp
  | succ n ih =>
    rw [List.range_succ, List.foldl_append, List.foldl_cons, List.foldl_nil, ih,
      Finset.sum_range_succ]

/-! ## Cells -/

theorem hasShape_ofSize (r c : Nat) : (utils.Matrix.ofSize r c).HasShape r c := by
  refine ⟨rfl, rfl, ?_, ?_⟩
  · simp [utils.Matrix.ofSize]
  · intro row hrow
    simp only [utils.Matrix.ofSize] at hrow
    rw [List.eq_of_mem_replicate hrow]
    simp [utils.Matrix.ofSize]

theorem get_ofSize (r c i j : Nat) : (utils.Matrix.ofSize r c).get i j = 0 := by
  unfold utils.Matrix.get utils.Matrix.ofSize
  simp only [List.getD_eq_getElem?_getD, List.getElem?_replicate]
  by_cases hi : i < r
  · by_cases hj : j < c <;> simp [hi, hj]
  · simp [hi]

theorem hasShape_set {m : utils.Matrix} {r c : Nat} (h : m.HasShape r c) (i j : Nat) (v : ℚ) :
    (m.set i j v).HasShape r c := by
  obtain ⟨hr, hc, hl, hrow⟩ := h
  refine ⟨hr, hc, ?_, ?_⟩
  · simp [utils.Matrix.set, hl]
  · intro row hmem
    simp only [utils.Matrix.set] at hmem
    rcases List.mem_or_eq_of_mem_set hmem with h1 | h1
    · exact hrow row h1
    · subst h1
      rw [List.length_set]
      by_cases hi : i < m.data_.length
      · have : m.data_.getD i [] ∈ m.data_ := by
          rw [List.getD_eq_getElem _ _ hi]; exact List.getElem_mem _
        exact hrow _ this
      · have hge : m.data_.length ≤ i := Nat.le_of_not_lt hi
        rw [List.set_eq_of_length_le hge] at hmem
        have hlen := hrow _ hmem
        rw [List.length_set] at hlen
        exact hlen

theorem get_set {m : utils.Matrix} {r c : Nat} (h : m.HasShape r c) {i j : Nat} (hi : i < r)
    (hj : j < c) (v : ℚ) (x y : Nat) :
    (m.set i j v).get x y = if x = i ∧ y = j then v else m.get x y := by
  obtain ⟨hr, hc, hl, hrow⟩ := h
  have hil : i < m.data_.length := by omega
  have hrowi : (m.data_.getD i []).length = c := by
    rw [← hc]; apply hrow
    rw [List.getD_eq_getElem _ _ hil]; exact List.getElem_mem _
  unfold utils.Matrix.get utils.Matrix.set
  simp only [List.getD_eq_getElem?_getD, List.getElem?_set]
  by_cases hx : x = i
  · subst hx
    simp only [hil, if_true, true_and, Option.getD_some, List.getElem?_set]
    by_cases hy : y = j
    · subst hy
      have : y < (m.data_[x]?.getD []).length := by
        rw [← List.getD_eq_getElem?_getD, hrowi]; exact hj
      simp [this]
    · have : ¬ j = y := fun h => hy h.symm
      simp [hy, this]
  · have : ¬ i = x := fun h => hx h.symm
    simp [hx, this]

/-- Two matrices of one shape with the same cells are the same object. -/
theorem eq_of_get {a b : utils.Matrix} {r c : Nat} (ha : a.HasShape r c) (hb : b.HasShape r c)
    (h : ∀ i j, i < r → j < c → a.get i j = b.get i j) : a = b := by
  obtain ⟨har, hac, hal, harow⟩ := ha
  obtain ⟨hbr, hbc, hbl, hbrow⟩ := hb
  have hdata : a.data_ = b.data_ := by
    apply List.ext_getElem (by omega)
    intro i h1 h2
    have hra : a.data_[i].length = c := by rw [← hac]; exact harow _ (List.getElem_mem _)
    have hrb : b.data_[i].length = c := by rw [← hbc]; exact hbrow _ (List.getElem_mem _)
    apply List.ext_getElem (by omega)
    intro j h3 h4
    have := h i j (by omega) (by omega)
    unfold utils.Matrix.get at this
    rw [List.getD_eq_getElem _ _ h1, List.getD_eq_getElem _ _ h2,
      List.getD_eq_getElem _ _ h3, List.getD_eq_getElem _ _ h4] at this
    exact this
  cases a; cases b
  simp only [utils.Matrix.mk.injEq]
  exact ⟨by simp_all, by simp_all, hdata⟩

/-- A double loop that writes the cell `(pi i j, pj i j)` in pass `(i, j)`, no cell twice:
every written cell holds the value of its pass and every other cell is untouched. -/
theorem fill_spec (pi pj : Nat → Nat → Nat) (val : Nat → Nat → ℚ) (r c R C : Nat)
    (init : utils.Matrix) (hinit : init.HasShape R C)
    (hpos : ∀ i j, i < r → j < c → pi i j < R ∧ pj i j < C)
    (hinj : ∀ i j i2 j2, i < r → j < c → i2 < r → j2 < c →
      pi i j = pi i2 j2 → pj i j = pj i2 j2 → i = i2 ∧ j = j2) :
    ((List.range r).foldl (fun a i =>
        (List.range c).foldl (fun a j => a.set (pi i j) (pj i j) (val i j)) a) init).HasShape R C ∧
    (∀ i j, i < r → j < c →
      ((List.range r).foldl (fun a i =>
        (List.range c).foldl (fun a j => a.set (pi i j) (pj i j) (val i j)) a) init).get
          (pi i j) (pj i j) = val i j) ∧
    (∀ x y, (∀ i j, i < r → j < c → ¬ (x = pi i j ∧ y = pj i j)) →
      ((List.range r).foldl (fun a i =>
        (List.range c).foldl (fun a j => a.set (pi i j) (pj i j) (val i j)) a) init).get x y =
          init.get x y) := by
  have key := foldl_range_inv
    (fun i a => a.HasShape R C ∧
      (∀ i2 j2, i2 < i → j2 < c → a.get (pi i2 j2) (pj i2 j2) = val i2 j2) ∧
      (∀ x y, (∀ i2 j2, i2 < i → j2 < c → ¬ (x = pi i2 j2 ∧ y = pj i2 j2)) →
        a.get x y = init.get x y))
    (fun a i => (List.range c).foldl (fun a j => a.set (pi i j) (pj i j) (val i j)) a) r init
    ⟨hinit, fun _ _ h => absurd h (Nat.not_lt_zero _), fun _ _ _ => rfl⟩
    (by
      intro i a hi ⟨hs, hdone, hframe⟩
      have inner := foldl_range_inv
        (fun j b => b.HasShape R C ∧
          (∀ i2 j2, j2 < c → (i2 < i ∨ (i2 = i ∧ j2 < j)) →
            b.get (pi i2 j2) (pj i2 j2) = val i2 j2) ∧
          (∀ x y, (∀ i2 j2, j2 < c → (i2 < i ∨ (i2 = i ∧ j2 < j)) →
            ¬ (x = pi i2 j2 ∧ y = pj i2 j2)) → b.get x y = init.get x y))
        (fun a j => a.set (pi i j) (pj i j) (val i j)) c a
        ⟨hs, fun i2 j2 hj2 h => hdone i2 j2 (by omega) hj2,
          fun x y h => hframe x y (fun i2 j2 hi2 hj2 => h i2 j2 hj2 (Or.inl hi2))⟩
        (by
          intro j b hj ⟨hbs, hbdone, hbframe⟩
          have hp := hpos i j hi hj
          refine ⟨hasShape_set hbs _ _ _, ?_, ?_⟩
          · intro i2 j2 hj2 hcase
            rw [get_set hbs hp.1 hp.2]
            by_cases heq : pi i2 j2 = pi i j ∧ pj i2 j2 = pj i j
            · rw [if_pos heq]
              have hi2 : i2 < r := by omega
              have := hinj i2 j2 i j hi2 hj2 hi hj heq.1 heq.2
              rw [this.1, this.2]
            · rw [if_neg heq]
              apply hbdone i2 j2 hj2
              rcases hcase with h1 | ⟨h1, h2⟩
              · exact Or.inl h1
              · rcases Nat.lt_succ_iff_lt_or_eq.mp h2 with h3 | h3
                · exact Or.inr ⟨h1, h3⟩
                · exfalso; apply heq; rw [h1, h3]; exact ⟨rfl, rfl⟩
          · intro x y hxy
            rw [get_set hbs hp.1 hp.2, if_neg (hxy i j hj (Or.inr ⟨rfl, Nat.lt_succ_self j⟩))]
            apply hbframe
            intro i2 j2 hj2 hcase
            apply hxy i2 j2 hj2
            rcases hcase with h1 | ⟨h1, h2⟩
            · exact Or.inl h1
            · exact Or.inr ⟨h1, Nat.lt_succ_of_lt h2⟩)
      obtain ⟨h1, h2, h3⟩ := inner
      refine ⟨h1, ?_, ?_⟩
      · intro i2 j2 hi2 hj2
        apply h2 i2 j2 hj2
        rcases Nat.lt_succ_iff_lt_or_eq.mp hi2 with h | h
        · exact Or.inl h
        · exact Or.inr ⟨h, hj2⟩
      · intro x y hxy
        apply h3
        intro i2 j2 hj2 hcase
        apply hxy i2 j2 _ hj2
        rcases hcase with h | ⟨h, _⟩
        · exact Nat.lt_succ_of_lt h
        · rw [h]; exact Nat.lt_succ_self i)
  obtain ⟨h1, h2, h3⟩ := key
  exact ⟨h1, h2, h3⟩

/-! ## The operations as mathematical matrices -/

theorem toMat_eq {a b : utils.Matrix} {r c : Nat} (ha : a.HasShape r c) (hb : b.HasShape r c)
    (h : a.toMat r c = b.toMat r c) : a = b := by
  apply eq_of_get ha hb
  intro i j hi hj
  exact congrFun (congrFun h ⟨i, hi⟩) ⟨j, hj⟩

theorem mul_spec {a b : utils.Matrix} {r k c : Nat} (ha : a.HasShape r k)
    (hb : b.HasShape k c) :
    ∃ res, a.mul b = .ok res ∧ res.HasShape r c ∧ res.toMat r c = a.toMat r k * b.toMat k c := by
  have hcols : a.cols_ = b.rows_ := by rw [ha.2.1, hb.1]
  unfold utils.Matrix.mul
  rw [if_neg (by simpa using hcols)]
  refine ⟨_, rfl, ?_⟩
  rw [ha.1, hb.2.1, ha.2.1]
  have h := fill_spec (fun i _ => i) (fun _ j => j)
    (fun i j => (List.range k).foldl (fun sum x => sum + a.get i x * b.get x j) 0)
    r c r c (utils.Matrix.ofSize r c) (hasShape_ofSize r c)
    (fun i j hi hj => ⟨hi, hj⟩) (fun i j i2 j2 _ _ _ _ h1 h2 => ⟨h1, h2⟩)
  beta_reduce at h
  refine ⟨h.1, ?_⟩
  funext i j
  show utils.Matrix.get _ i.1 j.1 = _
  rw [h.2.1 i.1 j.1 i.2 j.2, foldl_add_range, Matrix.mul_apply, Finset.sum_range]
  rfl

theorem transpose_spec {a : utils.Matrix} {r c : Nat} (ha : a.HasShape r c) :
    a.transpose.HasShape c r ∧ a.transpose.toMat c r = (a.toMat r c).transpose := by
  unfold utils.Matrix.transpose
  rw [ha.1, ha.2.1]
  have h := fill_spec (fun _ j => j) (fun i _ => i) (fun i j => a.get i j)
    r c c r (utils.Matrix.ofSize c r) (hasShape_ofSize c r)
    (fun i j hi hj => ⟨hj, hi⟩) (fun i j i2 j2 _ _ _ _ h1 h2 => ⟨h2, h1⟩)
  beta_reduce at h
  refine ⟨h.1, ?_⟩
  funext i j
  show utils.Matrix.get _ i.1 j.1 = _
  rw [h.2.1 j.1 i.1 j.2 i.2]
  rfl

theorem identity_spec (n : Nat) :
    (utils.Matrix.identity n).HasShape n n ∧ (utils.Matrix.identity n).toMat n n = 1 := by
  unfold utils.Matrix.identity
  have h := foldl_range_inv
    (fun i a => a.HasShape n n ∧
      ∀ x y, a.get x y = if x = y ∧ x < i then 1 else 0)
    (fun result i => result.set i i 1) n (utils.Matrix.ofSize n n)
    ⟨hasShape_ofSize n n, fun x y => by simp [get_ofSize]⟩
    (by
      intro i a hi ⟨hs, hget⟩
      refine ⟨hasShape_set hs _ _ _, ?_⟩
      intro x y
      rw [get_set hs hi hi, hget]
      by_cases h1 : x = i ∧ y = i
      · rw [if_pos h1, if_pos]; omega
      · rw [if_neg h1]
        by_cases h2 : x = y ∧ x < i
        · rw [if_pos h2, if_pos]; omega
        · rw [if_neg h2, if_neg]; omega)
  refine ⟨h.1, ?_⟩
  funext i j
  show utils.Matrix.get _ i.1 j.1 = _
  rw [h.2, Matrix.one_apply]
  by_cases hij : i = j
  · rw [if_pos hij, if_pos]; exact ⟨congrArg Fin.val hij, i.2⟩
  · rw [if_neg hij, if_neg]; intro h; exact hij (Fin.ext h.1)

theorem ones_spec (r c : Nat) :
    (utils.Matrix.ones r c).HasShape r c ∧
      ∀ i j, i < r → j < c → (utils.Matrix.ones r c).get i j = 1 := by
  refine ⟨⟨rfl, rfl, ?_, ?_⟩, ?_⟩
  · simp [utils.Matrix.ones, utils.Matrix.ofSize]
  · intro row hrow
    simp only [utils.Matrix.ones, utils.Matrix.ofSize, List.map_replicate] at hrow
    rw [List.eq_of_mem_replicate hrow]
    simp [utils.Matrix.ones, utils.Matrix.ofSize]
  · intro i j hi hj
    simp [utils.Matrix.ones, utils.Matrix.ofSize, utils.Matrix.get, List.getElem?_replicate,
      hi, hj]

/-- The design matrix: the features themselves, or a leading column of ones and then the
features. -/
theorem designMatrix_spec (fit : Bool) {features : utils.Matrix} {r c : Nat}
    (hf : features.HasShape r c) :
    (models.designMatrix fit features).HasShape r (if fit then c + 1 else c) ∧
      ∀ i j, i < r → j < (if fit then c + 1 else c) →
        (models.designMatrix fit features).get i j =
          if fit then (if j = 0 then 1 else features.get i (j - 1)) else features.get i j := by
  cases fit with
  | false => exact ⟨hf, fun i j _ _ => rfl⟩
  | true =>
    simp only [models.designMatrix, if_true]
    rw [hf.1, hf.2.1]
    have h := fill_spec (fun i _ => i) (fun _ j => j + 1) (fun i j => features.get i j)
      r c r (c + 1) (utils.Matrix.ones r (c + 1)) (ones_spec r (c + 1)).1
      (fun i j hi hj => ⟨hi, Nat.succ_lt_succ hj⟩)
      (fun i j i2 j2 _ _ _ _ h1 h2 => ⟨h1, Nat.succ_injective h2⟩)
    beta_reduce at h
    refine ⟨h.1, ?_⟩
    intro i j hi hj
    by_cases hj0 : j = 0
    · subst hj0
      rw [h.2.2 i 0 (fun i2 j2 _ _ hh => by omega), (ones_spec r (c + 1)).2 i 0 hi hj]
      rfl
    · have := h.2.1 i (j - 1) hi (by omega)
      simp only at this
      rw [Nat.sub_add_cancel (Nat.pos_of_ne_zero hj0)] at this
      rw [this, if_neg hj0]

/-- The constructor from nested data accepts every one-row argument: `utils.Matrix.ofRow`
is what it returns. -/
theorem ofData_singleton (row : List ℚ) :
    utils.Matrix.ofData [row] = .ok (utils.Matrix.ofRow row) := by
  simp [utils.Matrix.ofData, utils.Matrix.ofRow]

/-- Below `rows()` the checked access `operator[]` does not throw, and the cells of the row it
returns are the cells `utils.Matrix.get` reads. -/
theorem row_of_lt (m : utils.Matrix) (i : Nat) (hi : i < m.rows_) :
    m.row i = .ok (m.data_.getD i []) ∧ ∀ j, (m.data_.getD i []).getD j 0 = m.get i j := by
  unfold utils.Matrix.row
  rw [if_neg (by omega)]
  exact ⟨rfl, fun _ => rfl⟩

/-! ## Gauss-Jordan elimination -/

/-- The augmented matrix is `[A | I]`. -/
theorem augment_spec {a : utils.Matrix} {n : Nat} (ha : a.HasShape n n) :
    a.augment.HasShape n (2 * n) ∧
      ∀ x y, x < n → y < n →
        a.augment.get x y = a.get x y ∧ a.augment.get x (y + n) = if x = y then 1 else 0 := by
  unfold utils.Matrix.augment
  rw [ha.1, ha.2.1]
  have key := foldl_range_inv
    (fun i A => A.HasShape n (2 * n) ∧ ∀ x y, x < i → y < n →
      A.get x y = a.get x y ∧ A.get x (y + n) = if x = y then 1 else 0)
    (fun augmented i => (List.range n).foldl (fun augmented j =>
      (augmented.set i j (a.get i j)).set i (j + n) (if i = j then 1 else 0)) augmented)
    n (utils.Matrix.ofSize n (2 * n))
    ⟨hasShape_ofSize _ _, fun _ _ h => absurd h (Nat.not_lt_zero _)⟩
    (by
      intro i A hi ⟨hs, hdone⟩
      have inner := foldl_range_inv
        (fun j B => B.HasShape n (2 * n) ∧ ∀ x y, y < n → (x < i ∨ (x = i ∧ y < j)) →
          B.get x y = a.get x y ∧ B.get x (y + n) = if x = y then 1 else 0)
        (fun augmented j =>
          (augmented.set i j (a.get i j)).set i (j + n) (if i = j then 1 else 0)) n A
        ⟨hs, fun x y hy h => hdone x y (by omega) hy⟩
        (by
          intro j B hj ⟨hbs, hbdone⟩
          have hs1 := hasShape_set hbs i j (a.get i j)
          refine ⟨hasShape_set hs1 _ _ _, ?_⟩
          intro x y hy hcase
          rw [get_set hs1 hi (by omega), get_set hs1 hi (by omega),
            get_set hbs hi (by omega), get_set hbs hi (by omega)]
          by_cases hxy : x = i ∧ y = j
          · obtain ⟨rfl, rfl⟩ := hxy
            refine ⟨?_, ?_⟩
            · rw [if_neg (by omega), if_pos ⟨rfl, rfl⟩]
            · rw [if_pos ⟨rfl, rfl⟩]
          · have hprev := hbdone x y hy (by omega)
            refine ⟨?_, ?_⟩
            · rw [if_neg (by omega), if_neg hxy]; exact hprev.1
            · rw [if_neg (by omega), if_neg (by omega)]; exact hprev.2)
      refine ⟨inner.1, ?_⟩
      intro x y hx hy
      exact inner.2 x y hy (by omega))
  exact key

/-- One pass of the elimination: the pivot row is divided by the pivot, and every other row
loses its multiple of the scaled pivot row. -/
theorem eliminate_spec {a A E : utils.Matrix} {n i : Nat} (hcols : a.cols_ = n)
    (hrows : a.rows_ = n) (hA : A.HasShape n (2 * n)) (hi : i < n)
    (h : a.eliminate A i = .ok E) :
    ¬ |A.get i i| < utils.Matrix.pivotTolerance ∧ E.HasShape n (2 * n) ∧
      ∀ x y, x < n → y < 2 * n →
        E.get x y = if x = i then A.get i y / A.get i i
          else A.get x y - A.get x i * (A.get i y / A.get i i) := by
  unfold utils.Matrix.eliminate at h
  simp only at h
  by_cases hp : |A.get i i| < utils.Matrix.pivotTolerance
  · rw [if_pos hp] at h; cases h
  rw [if_neg hp, hcols, hrows] at h
  refine ⟨hp, ?_⟩
  -- the scaling loop
  have hscale := foldl_range_inv
    (fun j S => S.HasShape n (2 * n) ∧ ∀ x y, S.get x y =
      if x = i ∧ y < j then A.get x y / A.get i i else A.get x y)
    (fun augmented j => augmented.set i j (augmented.get i j / A.get i i)) (2 * n) A
    ⟨hA, fun x y => by rw [if_neg (by omega)]⟩
    (by
      intro j S hj ⟨hs, hget⟩
      refine ⟨hasShape_set hs _ _ _, ?_⟩
      intro x y
      rw [get_set hs hi hj, hget, hget]
      by_cases hxy : x = i ∧ y = j
      · obtain ⟨rfl, rfl⟩ := hxy
        rw [if_pos ⟨rfl, rfl⟩, if_neg (by omega), if_pos (by omega)]
      · rw [if_neg hxy]
        by_cases h2 : x = i ∧ y < j
        · rw [if_pos h2, if_pos (by omega)]
        · rw [if_neg h2, if_neg (by omega)])
  generalize (List.range (2 * n)).foldl
    (fun augmented j => augmented.set i j (augmented.get i j / A.get i i)) A = S at h hscale
  obtain ⟨hS, hSget⟩ := hscale
  -- the elimination loop
  have helim := foldl_range_inv
    (fun k B => B.HasShape n (2 * n) ∧ ∀ x y, y < 2 * n → B.get x y =
      if x < k ∧ x ≠ i then S.get x y - S.get x i * S.get i y else S.get x y)
    (fun augmented k =>
      if k ≠ i then
        (List.range (2 * n)).foldl
          (fun augmented2 j =>
            augmented2.set k j (augmented2.get k j - augmented.get k i * augmented2.get i j))
          augmented
      else augmented) n S
    ⟨hS, fun x y _ => by rw [if_neg (by omega)]⟩
    (by
      intro k B hk ⟨hB, hBget⟩
      beta_reduce
      by_cases hki : k ≠ i
      · rw [if_pos hki]
        have inner := foldl_range_inv
          (fun j C => C.HasShape n (2 * n) ∧ ∀ x y, y < 2 * n → C.get x y =
            if x = k ∧ y < j then B.get k y - B.get k i * B.get i y else B.get x y)
          (fun augmented2 j =>
            augmented2.set k j (augmented2.get k j - B.get k i * augmented2.get i j))
          (2 * n) B
          ⟨hB, fun x y _ => by rw [if_neg (by omega)]⟩
          (by
            intro j C hj ⟨hC, hCget⟩
            refine ⟨hasShape_set hC _ _ _, ?_⟩
            intro x y hy
            rw [get_set hC hk hj, hCget k j hj, hCget i j hj, hCget x y hy]
            by_cases hxy : x = k ∧ y = j
            · obtain ⟨rfl, rfl⟩ := hxy
              rw [if_pos ⟨rfl, rfl⟩, if_neg (by omega), if_neg (by omega), if_pos (by omega)]
            · rw [if_neg hxy]
              by_cases h2 : x = k ∧ y < j
              · rw [if_pos h2, if_pos (by omega)]
              · rw [if_neg h2, if_neg (by omega)])
        refine ⟨inner.1, ?_⟩
        intro x y hy
        rw [inner.2 x y hy]
        by_cases hxk : x = k
        · subst hxk
          rw [if_pos ⟨rfl, hy⟩, if_pos ⟨Nat.lt_succ_self x, hki⟩, hBget x y hy,
            hBget x i (by omega), hBget i y hy, if_neg (by omega), if_neg (by omega),
            if_neg (by omega)]
        · rw [if_neg (by omega), hBget x y hy]
          by_cases h3 : x < k ∧ x ≠ i
          · rw [if_pos h3, if_pos (by omega)]
          · rw [if_neg h3, if_neg (by omega)]
      · rw [if_neg hki]
        refine ⟨hB, ?_⟩
        intro x y hy
        rw [hBget x y hy]
        have hki2 : k = i := by omega
        by_cases h3 : x < k ∧ x ≠ i
        · rw [if_pos h3, if_pos (by omega)]
        · rw [if_neg h3, if_neg (by omega)])
  cases h
  refine ⟨helim.1, ?_⟩
  intro x y hx hy
  rw [helim.2 x y hy]
  by_cases hxi : x = i
  · subst hxi
    rw [if_neg (by omega), if_pos rfl, hSget, if_pos ⟨rfl, hy⟩]
  · rw [if_pos ⟨hx, hxi⟩, if_neg hxi, hSget, hSget, hSget, if_neg (by omega), if_neg (by omega),
      if_pos ⟨rfl, hy⟩]

theorem pivotTolerance_pos : 0 < utils.Matrix.pivotTolerance := by
  unfold utils.Matrix.pivotTolerance; norm_num

/-- The invariant of the elimination loop of `inverse`: the left half is the right half times
`A`, and the first `i` columns of the left half are those of the identity. -/
theorem inverse_loop_inv {a : utils.Matrix} {n : Nat} (ha : a.HasShape n n) (i : Nat)
    (hin : i ≤ n) (A : utils.Matrix)
    (h : (List.range i).foldlM (fun augmented i => a.eliminate augmented i) a.augment = .ok A) :
    A.HasShape n (2 * n) ∧
      (∀ x y, x < n → y < n →
        A.get x y = ∑ k in Finset.range n, A.get x (k + n) * a.get k y) ∧
      (∀ x y, x < n → y < i → A.get x y = if x = y then 1 else 0) := by
  refine foldlM_range_inv
    (fun i A => A.HasShape n (2 * n) ∧
      (∀ x y, x < n → y < n →
        A.get x y = ∑ k in Finset.range n, A.get x (k + n) * a.get k y) ∧
      (∀ x y, x < n → y < i → A.get x y = if x = y then 1 else 0))
    (fun augmented i => a.eliminate augmented i) i a.augment ?_ ?_ A h
  · have haug := augment_spec ha
    refine ⟨haug.1, ?_, fun _ _ _ h => absurd h (Nat.not_lt_zero _)⟩
    intro x y hx hy
    rw [(haug.2 x y hx hy).1]
    rw [Finset.sum_congr rfl (fun k hk => by
      rw [(haug.2 x k hx (Finset.mem_range.mp hk)).2])]
    simp only [ite_mul, one_mul, zero_mul]
    rw [Finset.sum_ite_eq]
    simp [hx]
  · intro k A E hk ⟨hA, hleft, hid⟩ hE
    have hkn : k < n := by omega
    obtain ⟨hp, hEs, hEget⟩ := eliminate_spec ha.2.1 ha.1 hA hkn hE
    have hp0 : A.get k k ≠ 0 := by
      intro h0
      apply hp
      rw [h0, abs_zero]
      exact pivotTolerance_pos
    refine ⟨hEs, ?_, ?_⟩
    · intro x y hx hy
      rw [hEget x y hx (by omega)]
      rw [Finset.sum_congr rfl (fun j hj => by
        rw [hEget x (j + n) hx (by have := Finset.mem_range.mp hj; omega)])]
      by_cases hxk : x = k
      · subst hxk
        simp only [if_true]
        rw [hleft x y hx hy, Finset.sum_div]
        apply Finset.sum_congr rfl
        intro j _
        ring
      · simp only [if_neg hxk]
        rw [hleft x y hx hy, hleft k y hkn hy, Finset.sum_div, Finset.mul_sum,
          ← Finset.sum_sub_distrib]
        apply Finset.sum_congr rfl
        intro j _
        ring
    · intro x y hx hy
      rw [hEget x y hx (by omega)]
      rcases Nat.lt_succ_iff_lt_or_eq.mp hy with hlt | heq
      · have hky : k ≠ y := by omega
        rw [hid x y hx hlt, hid k y hkn hlt, if_neg hky]
        by_cases hxk : x = k
        · subst hxk
          rw [if_pos rfl, if_neg hky, zero_div]
        · rw [if_neg hxk]
          simp
      · subst heq
        by_cases hxk : x = y
        · subst hxk
          rw [if_pos rfl, if_pos rfl, div_self hp0]
        · rw [if_neg hxk, if_neg hxk, div_self hp0]
          ring

/-- Without a shape error `inverse` is the elimination loop followed by the extraction. -/
theorem inverse_eq {a : utils.Matrix} {n : Nat} (ha : a.HasShape n n) :
    a.inverse =
      match (List.range n).foldlM (fun augmented i => a.eliminate augmented i) a.augment with
      | .error e => .error e
      | .ok augmented =>
        .ok ((List.range n).foldl (fun inverse i =>
          (List.range n).foldl (fun inverse j =>
            inverse.set i j (augmented.get i (j + n))) inverse)
          (utils.Matrix.ofSize n n)) := by
  unfold utils.Matrix.inverse
  rw [if_neg (by rw [ha.1, ha.2.1]; simp), ha.1, ha.2.1]

/-- Gauss-Jordan is correct whenever it returns: the result is a left inverse. -/
theorem inverse_spec {a M : utils.Matrix} {n : Nat} (ha : a.HasShape n n)
    (h : a.inverse = .ok M) :
    M.HasShape n n ∧ M.toMat n n * a.toMat n n = 1 := by
  rw [inverse_eq ha] at h
  cases hloop : (List.range n).foldlM (fun augmented i => a.eliminate augmented i)
      a.augment with
  | error e => rw [hloop] at h; cases h
  | ok A =>
    rw [hloop] at h
    simp only [Except.ok.injEq] at h
    obtain ⟨hA, hleft, hid⟩ := inverse_loop_inv ha n (Nat.le_refl n) A hloop
    have hfill := fill_spec (fun i _ => i) (fun _ j => j) (fun i j => A.get i (j + n))
      n n n n (utils.Matrix.ofSize n n) (hasShape_ofSize n n)
      (fun i j hi hj => ⟨hi, hj⟩) (fun i j i2 j2 _ _ _ _ h1 h2 => ⟨h1, h2⟩)
    beta_reduce at hfill
    rw [h] at hfill
    refine ⟨hfill.1, ?_⟩
    funext x y
    rw [Matrix.mul_apply, Matrix.one_apply]
    have := hleft x.1 y.1 x.2 y.2
    rw [hid x.1 y.1 x.2 y.2, Finset.sum_range] at this
    have hxy : (x = y) = (x.1 = y.1) := by
      apply propext; exact Fin.ext_iff
    simp only [hxy]
    rw [this]
    apply Finset.sum_congr rfl
    intro k _
    show M.get x.1 k.1 * a.get k.1 y.1 = _
    rw [hfill.2.1 x.1 k.1 x.2 k.2]

/-- The only failure of `inverse` on a square matrix is the pivot test: some pass of the
elimination meets a pivot of magnitude below the tolerance. -/
theorem inverse_error {a : utils.Matrix} {n : Nat} (ha : a.HasShape n n) {e : Error}
    (h : a.inverse = .error e) :
    e = .runtime_error ∧ ∃ i A, i < n ∧
      (List.range i).foldlM (fun augmented i => a.eliminate augmented i) a.augment = .ok A ∧
      |A.get i i| < utils.Matrix.pivotTolerance := by
  rw [inverse_eq ha] at h
  cases hloop : (List.range n).foldlM (fun augmented i => a.eliminate augmented i)
      a.augment with
  | ok A => rw [hloop] at h; cases h
  | error e2 =>
    rw [hloop] at h
    simp only [Except.error.injEq] at h
    subst h
    obtain ⟨i, A, hi, hA, hfail⟩ := foldlM_range_error _ n _ _ hloop
    unfold utils.Matrix.eliminate at hfail
    simp only at hfail
    by_cases hp : |A.get i i| < utils.Matrix.pivotTolerance
    · rw [if_pos hp] at hfail
      simp only [Except.error.injEq] at hfail
      exact ⟨hfail.symm, i, A, hi, hA, hp⟩
    · rw [if_neg hp] at hfail; cases hfail

/-- A matrix of determinant zero is not inverted. -/
theorem inverse_singular {a : utils.Matrix} {n : Nat} (ha : a.HasShape n n)
    (hdet : (a.toMat n n).det = 0) : a.inverse = .error .runtime_error := by
  cases h : a.inverse with
  | error e => rw [(inverse_error ha h).1]
  | ok M =>
    exfalso
    have := (inverse_spec ha h).2
    have hd := congrArg Matrix.det this
    rw [Matrix.det_mul, hdet, mul_zero, Matrix.det_one] at hd
    exact zero_ne_one hd

/-! ## The determinant -/

/-- The minor built by `determinant` for column `j`: the matrix without row 0 and without
column `j`. -/
theorem minorAt_spec {a : utils.Matrix} {r c : Nat} (ha : a.HasShape r c) (j : Nat)
    (hj : j < c) :
    (a.minorAt j).HasShape (r - 1) (c - 1) ∧
      ∀ x y, x < r - 1 → y < c - 1 →
        (a.minorAt j).get x y = a.get (x + 1) (if y < j then y else y + 1) := by
  unfold utils.Matrix.minorAt
  rw [ha.1, ha.2.1, List.range'_eq_map_range, List.foldl_map]
  have key := foldl_range_inv
    (fun i A => A.HasShape (r - 1) (c - 1) ∧
      ∀ x y, x < i → y < c - 1 → A.get x y = a.get (x + 1) (if y < j then y else y + 1))
    (fun minor i =>
      ((List.range c).foldl (fun (st : utils.Matrix × Nat) l =>
        if l ≠ j then (st.1.set (1 + i - 1) st.2 (a.get (1 + i) l), st.2 + 1) else st)
        (minor, 0)).1)
    (r - 1) (utils.Matrix.ofSize (r - 1) (c - 1))
    ⟨hasShape_ofSize _ _, fun _ _ h => absurd h (Nat.not_lt_zero _)⟩
    (by
      intro i A hi ⟨hA, hdone⟩
      have inner := foldl_range_inv
        (fun l (st : utils.Matrix × Nat) => st.1.HasShape (r - 1) (c - 1) ∧
          st.2 = (if l ≤ j then l else l - 1) ∧
          ∀ x y, y < c - 1 → (x < i ∨ (x = i ∧ y < st.2)) →
            st.1.get x y = a.get (x + 1) (if y < j then y else y + 1))
        (fun (st : utils.Matrix × Nat) l =>
          if l ≠ j then (st.1.set (1 + i - 1) st.2 (a.get (1 + i) l), st.2 + 1) else st)
        c (A, 0)
        ⟨hA, by simp, fun x y hy h => hdone x y (by omega) hy⟩
        (by
          intro l st hl ⟨hs, hk, hcells⟩
          beta_reduce
          by_cases hlj : l ≠ j
          · rw [if_pos hlj]
            have hk2 : st.2 < c - 1 := by
              rw [hk]; split_ifs <;> omega
            have h1i : 1 + i - 1 = i := by omega
            refine ⟨hasShape_set hs _ _ _, ?_, ?_⟩
            · show st.2 + 1 = _
              rw [hk]; split_ifs <;> omega
            · intro x y hy hcase
              show (st.1.set (1 + i - 1) st.2 (a.get (1 + i) l)).get x y = _
              rw [h1i, get_set hs hi hk2]
              by_cases hxy : x = i ∧ y = st.2
              · obtain ⟨rfl, rfl⟩ := hxy
                rw [if_pos ⟨rfl, rfl⟩, Nat.add_comm 1 x]
                congr 1
                rw [hk]; split_ifs <;> omega
              · rw [if_neg hxy]
                apply hcells x y hy
                rcases hcase with h | ⟨h1, h2⟩
                · exact Or.inl h
                · right
                  refine ⟨h1, ?_⟩
                  have : y < st.2 + 1 := h2
                  omega
          · rw [if_neg hlj]
            refine ⟨hs, ?_, hcells⟩
            rw [hk]; split_ifs <;> omega)
      refine ⟨inner.1, ?_⟩
      intro x y hx hy
      apply inner.2.2 x y hy
      rcases Nat.lt_succ_iff_lt_or_eq.mp hx with h | h
      · exact Or.inl h
      · right
        refine ⟨h, ?_⟩
        rw [inner.2.1, if_neg (by omega)]
        omega)
  exact key

/-- The cofactor sum of `determinant` when the determinant of every minor is returned. -/
theorem cofactor_fold (g : Nat → Except Error ℚ) (coef d : Nat → ℚ) (n : Nat)
    (hg : ∀ j, j < n → g j = .ok (d j)) :
    (List.range n).foldlM (fun det j =>
      match g j with
      | Except.error e => (Except.error e : Except Error ℚ)
      | Except.ok dj => Except.ok (det + coef j * dj)) (0 : ℚ) =
      Except.ok (∑ j in Finset.range n, coef j * d j) := by
  induction n with
  | zero => rfl
  | succ n ih =>
    rw [foldlM_range_succ, ih (fun j hj => hg j (Nat.lt_succ_of_lt hj))]
    simp only
    rw [hg n (Nat.lt_succ_self n), Finset.sum_range_succ]

/-- The body of `determinant` on a square matrix. -/
theorem determinant_eq {a : utils.Matrix} {n : Nat} (ha : a.HasShape n n) :
    a.determinant =
      if n = 1 then .ok (a.get 0 0)
      else if n = 2 then .ok (a.get 0 0 * a.get 1 1 - a.get 0 1 * a.get 1 0)
      else (List.range n).foldlM (fun det j =>
        match (a.minorAt j).determinant with
        | Except.error e => (Except.error e : Except Error ℚ)
        | Except.ok d => Except.ok (det + (if j % 2 = 0 then 1 else -1) * a.get 0 j * d))
        (0 : ℚ) := by
  rw [utils.Matrix.determinant]
  rw [if_neg (by rw [ha.1, ha.2.1]; simp), ha.1, ha.2.1]
  by_cases h1 : n = 1
  · rw [if_pos h1, if_pos h1]
  rw [if_neg h1, if_neg h1]
  by_cases h2 : n = 2
  · rw [if_pos h2, if_pos h2]
  rw [if_neg h2, if_neg h2]
  have hmap : (List.range n).attach.map Subtype.val = List.range n := List.attach_map_subtype_val _
  conv_rhs => rw [← hmap, List.foldlM_map]

theorem sign_eq_pow (j : Nat) : (if j % 2 = 0 then (1 : ℚ) else -1) = (-1) ^ j := by
  rcases Nat.even_or_odd j with h | h
  · rw [if_pos (Nat.even_iff.mp h), h.neg_one_pow]
  · rw [if_neg (by rw [Nat.odd_iff.mp h]; simp), h.neg_one_pow]

/-- The minor of the code is the minor of the Laplace expansion. -/
theorem toMat_minorAt {a : utils.Matrix} {n : Nat} (ha : a.HasShape (n + 1) (n + 1))
    (j : Fin (n + 1)) :
    (a.minorAt j.1).toMat n n = (a.toMat (n + 1) (n + 1)).submatrix Fin.succ j.succAbove := by
  have h := (minorAt_spec ha j.1 j.2).2
  funext x y
  show (a.minorAt j.1).get x.1 y.1 = a.get (x.1 + 1) (j.succAbove y).1
  rw [h x.1 y.1 (by simp) (by simp)]
  congr 1
  by_cases hy : y.1 < j.1
  · rw [if_pos hy, Fin.succAbove_of_castSucc_lt _ _ (by simpa [Fin.lt_def] using hy)]
    rfl
  · rw [if_neg hy, Fin.succAbove_of_le_castSucc _ _ (by simpa [Fin.le_def] using hy)]
    rfl

/-- `determinant` returns the determinant. -/
theorem determinant_spec (n : Nat) : ∀ (a : utils.Matrix), a.HasShape n n → 1 ≤ n →
    a.determinant = .ok (a.toMat n n).det := by
  induction n with
  | zero => intro a _ h; omega
  | succ m ih =>
    intro a ha _
    rw [determinant_eq ha]
    by_cases h1 : m + 1 = 1
    · rw [if_pos h1]
      have hm : m = 0 := by omega
      subst hm
      rw [Matrix.det_fin_one]
      rfl
    rw [if_neg h1]
    by_cases h2 : m + 1 = 2
    · rw [if_pos h2]
      have hm : m = 1 := by omega
      subst hm
      rw [Matrix.det_fin_two]
      rfl
    rw [if_neg h2]
    have hminor : ∀ j, j < m + 1 → (a.minorAt j).determinant =
        .ok (if hj : j < m + 1 then ((a.toMat (m + 1) (m + 1)).submatrix Fin.succ
          (Fin.succAbove ⟨j, hj⟩)).det else 0) := by
      intro j hj
      rw [dif_pos hj, ← toMat_minorAt ha ⟨j, hj⟩]
      have hs := (minorAt_spec ha j hj).1
      exact ih _ hs (by omega)
    have hfold := cofactor_fold (fun j => (a.minorAt j).determinant)
      (fun j => (if j % 2 = 0 then 1 else -1) * a.get 0 j) _ (m + 1) hminor
    beta_reduce at hfold
    rw [hfold, Matrix.det_succ_row_zero, Finset.sum_range]
    congr 1
    apply Finset.sum_congr rfl
    intro j _
    rw [dif_pos j.2, sign_eq_pow]
    rfl

/-! ## Claims on the Matrix kernel -/

theorem hasShape_of_wf {a : utils.Matrix} (hwf : a.WF) (hsq : a.rows_ = a.cols_) :
    a.HasShape a.rows_ a.rows_ := ⟨rfl, hsq.symm, hwf⟩

/-- C1, as stated, fails: the permutation matrix `[[0, 1], [1, 0]]` is invertible (it is its
own inverse, its determinant is -1), and `inverse` rejects it as singular, its first pivot
being 0 and the elimination exchanging no rows. -/
theorem C1_invertible_rejected :
    examples.swap2.WF ∧ examples.swap2.rows_ = examples.swap2.cols_ ∧
      examples.swap2.mul examples.swap2 = .ok (utils.Matrix.identity 2) ∧
      (examples.swap2.toMat 2 2).det = -1 ∧
      examples.swap2.inverse = .error .runtime_error := by
  refine ⟨by decide, rfl, by decide!, ?_, by decide!⟩
  rw [Matrix.det_fin_two]
  decide!

/-- C1 (amended): for every square matrix `A` on which `A.inverse()` returns a matrix `M`,
that is, whose elimination meets no pivot of magnitude below `1e-10`, `M` is square of the
size of `A` and `M * A` is the identity matrix of that size. -/
theorem C1_inverse_mul_self (A M : utils.Matrix) (hwf : A.WF) (hsq : A.rows_ = A.cols_)
    (h : A.inverse = .ok M) :
    M.HasShape A.rows_ A.rows_ ∧ M.mul A = .ok (utils.Matrix.identity A.rows_) := by
  have hA := hasShape_of_wf hwf hsq
  obtain ⟨hM, hmul⟩ := inverse_spec hA h
  refine ⟨hM, ?_⟩
  obtain ⟨res, hres, hshape, hmat⟩ := mul_spec hM hA
  rw [hres]
  congr 1
  apply toMat_eq hshape (identity_spec _).1
  rw [hmat, hmul, (identity_spec _).2]

/-- C1 (amended) at `[[2, 1], [1, 1]]`: `inverse` returns `[[1, -1], [-1, 2]]`, whose product
with the matrix is the identity. -/
theorem C1_inverse_mul_self_witness :
    examples.invertible2.inverse = .ok examples.inverse2 ∧
      examples.inverse2.HasShape 2 2 ∧
      examples.inverse2.mul examples.invertible2 = .ok (utils.Matrix.identity 2) :=
  ⟨by decide!, C1_inverse_mul_self examples.invertible2 examples.inverse2 (by decide) rfl
    (by decide!)⟩

/-- C3: on every well-formed square matrix with `n ≥ 1` rows `determinant` returns (it is a
total function), and the value returned is the Leibniz determinant of the matrix; it is `a`
for the 1×1 matrix `[a]`, the closed form `a00 * a11 - a01 * a10` for a 2×2 matrix, and for
`n ≥ 3` the cofactor expansion along the first row, the sum over the columns `j` of
`(-1)^j * A[0][j] * determinant(minor j)`, where the minor `j` is the matrix without row 0
and without column `j`. -/
theorem C3_determinant_laplace (A : utils.Matrix) (hwf : A.WF) (hsq : A.rows_ = A.cols_)
    (hn : 1 ≤ A.rows_) :
    A.determinant = .ok (A.toMat A.rows_ A.rows_).det ∧
      (A.rows_ = 1 → A.determinant = .ok (A.get 0 0)) ∧
      (A.rows_ = 2 →
        A.determinant = .ok (A.get 0 0 * A.get 1 1 - A.get 0 1 * A.get 1 0)) ∧
      (∀ j, j < A.rows_ →
        (A.minorAt j).HasShape (A.rows_ - 1) (A.rows_ - 1) ∧
        ∀ x y, x < A.rows_ - 1 → y < A.rows_ - 1 →
          (A.minorAt j).get x y = A.get (x + 1) (if y < j then y else y + 1)) ∧
      (3 ≤ A.rows_ → ∃ d : Nat → ℚ,
        (∀ j, j < A.rows_ → (A.minorAt j).determinant = .ok (d j)) ∧
        A.determinant = .ok (∑ j in Finset.range A.rows_, (-1) ^ j * A.get 0 j * d j)) := by
  have hA := hasShape_of_wf hwf hsq
  refine ⟨determinant_spec _ A hA hn, ?_, ?_, fun j hj => minorAt_spec hA j hj, ?_⟩
  · intro h1
    rw [determinant_eq hA, if_pos h1]
  · intro h2
    rw [determinant_eq hA, if_neg (by omega), if_pos h2]
  · intro h3
    refine ⟨fun j => ((A.minorAt j).toMat (A.rows_ - 1) (A.rows_ - 1)).det, ?_, ?_⟩
    · intro j hj
      exact determinant_spec _ _ (minorAt_spec hA j hj).1 (by omega)
    · rw [determinant_eq hA, if_neg (by omega), if_neg (by omega)]
      have hfold := cofactor_fold (fun j => (A.minorAt j).determinant)
        (fun j => (if j % 2 = 0 then 1 else -1) * A.get 0 j)
        (fun j => ((A.minorAt j).toMat (A.rows_ - 1) (A.rows_ - 1)).det) A.rows_
        (fun j hj => determinant_spec _ _ (minorAt_spec hA j hj).1 (by omega))
      beta_reduce at hfold
      rw [hfold]
      congr 1
      apply Finset.sum_congr rfl
      intro j _
      rw [sign_eq_pow]

/-- C3 at a 3×3 matrix: `determinant` returns 18, the Leibniz determinant. -/
theorem C3_determinant_laplace_witness : examples.square3.determinant = .ok 18 := by
  rw [(C3_determinant_laplace examples.square3 (by decide) rfl (by decide)).1]
  show Except.ok (examples.square3.toMat 3 3).det = Except.ok 18
  rw [Matrix.det_fin_three]
  decide!

/-! ## Linear regression -/

/-- The column vector `y` of `LinearRegression::train`. -/
theorem targetColumn_spec (targets : List ℚ) :
    ((List.range targets.length).foldl (fun y i => y.set i 0 (targets.getD i 0))
        (utils.Matrix.ofSize targets.length 1)).HasShape targets.length 1 ∧
      ∀ i, i < targets.length →
        ((List.range targets.length).foldl (fun y i => y.set i 0 (targets.getD i 0))
          (utils.Matrix.ofSize targets.length 1)).get i 0 = targets.getD i 0 := by
  have key := foldl_range_inv
    (fun k y => y.HasShape targets.length 1 ∧ ∀ i, i < k → y.get i 0 = targets.getD i 0)
    (fun y i => y.set i 0 (targets.getD i 0)) targets.length
    (utils.Matrix.ofSize targets.length 1)
    ⟨hasShape_ofSize _ _, fun _ h => absurd h (Nat.not_lt_zero _)⟩
    (by
      intro k y hk ⟨hy, hdone⟩
      refine ⟨hasShape_set hy _ _ _, ?_⟩
      intro i hi
      rw [get_set hy hk (by omega)]
      by_cases hik : i = k
      · subst hik; rw [if_pos ⟨rfl, rfl⟩]
      · rw [if_neg (by omega)]; exact hdone i (by omega))
  exact key

/-- The copy of `theta` into `coefficients_` (LinearRegression.cpp 39-42): the resized vector
is overwritten by the first column of `theta`. -/
theorem coefficients_fill (old : List ℚ) (theta : utils.Matrix) (n : Nat) :
    (List.range n).foldl (fun c i => c.set i (theta.get i 0))
        ((old ++ List.replicate (n - old.length) 0).take n) =
      (List.range n).map (fun i => theta.get i 0) := by
  have hlen0 : ((old ++ List.replicate (n - old.length) 0).take n).length = n := by
    rw [List.length_take, List.length_append, List.length_replicate]; omega
  have key := foldl_range_inv
    (fun k (c : List ℚ) => c.length = n ∧ ∀ i, i < k → c.getD i 0 = theta.get i 0)
    (fun c i => c.set i (theta.get i 0)) n _
    ⟨hlen0, fun _ h => absurd h (Nat.not_lt_zero _)⟩
    (by
      intro k c hk ⟨hc, hdone⟩
      refine ⟨by rw [List.length_set]; exact hc, ?_⟩
      intro i hi
      by_cases hik : i = k
      · subst hik
        rw [List.getD_eq_getElem _ _ (by rw [List.length_set]; omega), List.getElem_set_self]
      · rw [List.getD_eq_getElem _ _ (by rw [List.length_set]; omega),
          List.getElem_set_ne (by omega), ← List.getD_eq_getElem _ 0 (by omega)]
        exact hdone i (by omega))
  apply List.ext_getElem
  · rw [key.1, List.length_map, List.length_range]
  · intro i h1 h2
    rw [List.getElem_map, List.getElem_range, ← List.getD_eq_getElem _ 0 h1]
    exact key.2 i (by rw [key.1] at h1; exact h1)

/-- The normal equations of `train`, step by step: `solve` fails exactly as the inversion of
`XᵀX` fails, and otherwise returns `(XᵀX)⁻¹ (Xᵀ y)`. -/
theorem solve_spec (self : models.LinearRegression) {features : utils.Matrix} {r w : Nat}
    (hX : (models.designMatrix self.fitIntercept_ features).HasShape r w) (targets : List ℚ)
    (hlen : targets.length = r) :
    ∃ G : utils.Matrix,
      G.HasShape w w ∧
      (models.designMatrix self.fitIntercept_ features).transpose.mul
        (models.designMatrix self.fitIntercept_ features) = .ok G ∧
      G.toMat w w =
        ((models.designMatrix self.fitIntercept_ features).toMat r w).transpose *
          (models.designMatrix self.fitIntercept_ features).toMat r w ∧
      (∀ e, G.inverse = .error e → self.solve features targets = .error e) ∧
      (∀ M, G.inverse = .ok M → ∃ theta : utils.Matrix,
        self.solve features targets = .ok theta ∧
        theta.HasShape w 1 ∧
        ∀ i : Fin w, theta.get i.1 0 =
          (M.toMat w w).mulVec
            (((models.designMatrix self.fitIntercept_ features).toMat r w).transpose.mulVec
              (fun k : Fin r => targets.getD k.1 0)) i) := by
  obtain ⟨hXT, hXTmat⟩ := transpose_spec hX
  obtain ⟨G, hG, hGs, hGmat⟩ := mul_spec hXT hX
  refine ⟨G, hGs, hG, by rw [hGmat, hXTmat], ?_, ?_⟩
  · intro e he
    unfold models.LinearRegression.solve
    simp only [hG, he, bind, Except.bind]
  · intro M hM
    obtain ⟨hMs, -⟩ := inverse_spec hGs hM
    have hy := targetColumn_spec targets
    rw [hlen] at hy
    obtain ⟨hys, hyget⟩ := hy
    obtain ⟨Xty, hXty, hXtys, hXtymat⟩ := mul_spec hXT hys
    obtain ⟨theta, htheta, hthetas, hthetamat⟩ := mul_spec hMs hXtys
    refine ⟨theta, ?_, hthetas, ?_⟩
    · unfold models.LinearRegression.solve
      simp only [hG, hM, bind, Except.bind, hlen, hXty, htheta, pure, Except.pure]
    · intro i
      have h1 := congrFun (congrFun hthetamat i) ⟨0, Nat.one_pos⟩
      have h2 : theta.toMat w 1 i ⟨0, Nat.one_pos⟩ = theta.get i.1 0 := rfl
      rw [← h2, h1, hXtymat, hXTmat]
      simp only [Matrix.mul_apply, Matrix.mulVec, Matrix.dotProduct]
      apply Finset.sum_congr rfl
      intro k _
      congr 1
      apply Finset.sum_congr rfl
      intro x _
      congr 1
      exact hyget x.1 x.2

theorem hasShape_designMatrix (fit : Bool) {features : utils.Matrix} (hwf : features.WF) :
    (models.designMatrix fit features).HasShape features.rows_
      (models.designMatrix fit features).cols_ := by
  have h := (designMatrix_spec fit (⟨rfl, rfl, hwf⟩ : features.HasShape _ _)).1
  exact ⟨h.1, rfl, h.2.2⟩

/-- Linearly dependent columns: `train` fails in the inversion and writes nothing. -/
theorem train_dependent (self : models.LinearRegression) {features : utils.Matrix}
    {r w : Nat} (hrows : features.rows_ = r)
    (hX : (models.designMatrix self.fitIntercept_ features).HasShape r w) (targets : List ℚ)
    (hlen : targets.length = r) (g : Fin w → ℚ) (hg : g ≠ 0)
    (hzero : ((models.designMatrix self.fitIntercept_ features).toMat r w).mulVec g = 0) :
    self.train features targets = (.error .runtime_error, self) := by
  obtain ⟨G, hGs, hG, hGmat, herr, -⟩ := solve_spec self hX targets hlen
  have hdet : (G.toMat w w).det = 0 := by
    apply Matrix.exists_mulVec_eq_zero_iff.mp
    refine ⟨g, hg, ?_⟩
    rw [hGmat, ← Matrix.mulVec_mulVec, hzero, Matrix.mulVec_zero]
  have hfail := herr _ (inverse_singular hGs hdet)
  unfold models.LinearRegression.train
  rw [if_neg (by rw [hrows, hlen]; simp), hfail]

/-! ## Claims on linear regression -/

/-- C6, as stated, fails for the decision tree: with 10 feature rows and 9 targets
`DecisionTree::train` raises nothing and returns false. -/
theorem C6_tree_train_returns_false :
    examples.tenRows.rows_ ≠ examples.nineTargets.length ∧
      (models.DecisionTree.train ⟨none, 5, 2, 0⟩ examples.noShuffle examples.tenRows
        examples.nineTargets).1 = .ok false ∧
      ¬ ∃ e, (models.DecisionTree.train ⟨none, 5, 2, 0⟩ examples.noShuffle examples.tenRows
        examples.nineTargets).1 = .error e := by
  refine ⟨by decide, by decide!, ?_⟩
  rintro ⟨e, he⟩
  have h : (models.DecisionTree.train ⟨none, 5, 2, 0⟩ examples.noShuffle examples.tenRows
      examples.nineTargets).1 = .ok false := by decide!
  rw [h] at he
  cases he

/-- C6 (amended): when `features.rows()` differs from `targets.size()`, `train` of
LinearRegression, of LogisticRegression and of KNNClassifier raises the argument error
(`std::invalid_argument`), and `train` of DecisionTree raises no error and returns false;
all four leave the model as it was. -/
theorem C6_train_rejects_mismatch (features : utils.Matrix) (targets : List ℚ)
    (linear : models.LinearRegression) (logistic : models.LogisticRegression)
    (libm : models.Libm) (knn : models.KNNClassifier) (tree : models.DecisionTree)
    (shuffle : models.Shuffle) (h : features.rows_ ≠ targets.length) :
    linear.train features targets = (.error .invalid_argument, linear) ∧
      logistic.train libm features targets = (.error .invalid_argument, logistic) ∧
      knn.train features targets = (.error .invalid_argument, knn) ∧
      tree.train shuffle features targets = (.ok false, tree) := by
  refine ⟨?_, ?_, ?_, ?_⟩
  · unfold models.LinearRegression.train
    rw [if_pos h]
  · unfold models.LogisticRegression.train
    rw [if_pos h]
  · unfold models.KNNClassifier.train
    rw [if_pos h]
  · unfold models.DecisionTree.train
    rw [if_pos (Or.inl h)]

/-- C6 (amended) at 10 feature rows and 9 targets. -/
theorem C6_train_rejects_mismatch_witness :
    models.LinearRegression.train ⟨[], true⟩ examples.tenRows examples.nineTargets =
        (.error .invalid_argument, ⟨[], true⟩) ∧
      models.LogisticRegression.train examples.constLibm ⟨[], 1 / 100, 1000, 1 / 10000, true⟩
        examples.tenRows examples.nineTargets =
        (.error .invalid_argument, ⟨[], 1 / 100, 1000, 1 / 10000, true⟩) ∧
      models.KNNClassifier.train ⟨5, utils.Matrix.ofSize 0 0, []⟩ examples.tenRows
        examples.nineTargets = (.error .invalid_argument, ⟨5, utils.Matrix.ofSize 0 0, []⟩) ∧
      models.DecisionTree.train ⟨none, 5, 2, 0⟩ examples.noShuffle examples.tenRows
        examples.nineTargets = (.ok false, ⟨none, 5, 2, 0⟩) :=
  C6_train_rejects_mismatch examples.tenRows examples.nineTargets _ _ _ _ _ _ (by decide)

/-- C7: `DecisionTree::train` returns false exactly when `features.rows()` differs from
`targets.size()` or `features.rows()` is 0; when it returns false the model (the tree and
the three settings) is what it was before the call; otherwise it returns true. It never
raises. -/
theorem C7_tree_train_guard (self : models.DecisionTree) (shuffle : models.Shuffle)
    (features : utils.Matrix) (targets : List ℚ) :
    ((self.train shuffle features targets).1 = .ok false ↔
        (features.rows_ ≠ targets.length ∨ features.rows_ = 0)) ∧
      ((self.train shuffle features targets).1 = .ok false →
        (self.train shuffle features targets).2 = self) ∧
      (¬ (features.rows_ ≠ targets.length ∨ features.rows_ = 0) →
        (self.train shuffle features targets).1 = .ok true) := by
  unfold models.DecisionTree.train
  by_cases h : features.rows_ ≠ targets.length ∨ features.rows_ = 0
  · rw [if_pos h]
    exact ⟨⟨fun _ => h, fun _ => rfl⟩, fun _ => rfl, fun hn => absurd h hn⟩
  · rw [if_neg h]
    refine ⟨⟨fun hf => ?_, fun hh => absurd hh h⟩, fun hf => ?_, fun _ => rfl⟩
    · simp at hf
    · simp at hf

/-- The accumulation of `std::accumulate` is the sum. -/
theorem mean_eq (targets : List ℚ) (hne : targets ≠ []) :
    models.DecisionTree.mean targets = some (targets.sum / targets.length) := by
  unfold models.DecisionTree.mean
  rw [if_neg (by simpa using hne)]
  congr 2
  have h : ∀ (l : List ℚ) (a : ℚ), l.foldl (fun acc t => acc + t) a = a + l.sum := by
    intro l
    induction l with
    | nil => intro a; simp
    | cons x l ih => intro a; rw [List.foldl_cons, ih, List.sum_cons]; ring
  rw [h, zero_add]

/-- A tree that is one leaf predicts the value of the leaf for every query row. -/
theorem predict_leaf (self : models.DecisionTree) (value : Option ℚ)
    (hroot : self.root_ = some (.leaf value)) (query : utils.Matrix) :
    self.predict query = .ok (List.replicate query.rows_ value) := by
  unfold models.DecisionTree.predict
  rw [hroot]
  induction query.rows_ with
  | zero => rfl
  | succ n ih =>
    rw [foldlM_range_succ, ih]
    simp only [models.DecisionTreeNode.walk]
    rw [List.replicate_succ']

/-- C8: a tree with `maxDepth = 0`, whatever `minSamplesSplit` and `maxFeatures`, trained on
a non-empty training set with matching counts, is a single leaf holding the arithmetic mean
of the training targets, and `predict` returns that mean for every row of every query
matrix, whatever the training and the query features. -/
theorem C8_depth_zero_predicts_mean (self : models.DecisionTree) (shuffle : models.Shuffle)
    (features : utils.Matrix) (targets : List ℚ) (hdepth : self.maxDepth_ = 0)
    (hcount : features.rows_ = targets.length) (hrows : features.rows_ ≠ 0) :
    (self.train shuffle features targets).1 = .ok true ∧
      (self.train shuffle features targets).2.root_ =
        some (.leaf (some (targets.sum / targets.length))) ∧
      ∀ query : utils.Matrix, (self.train shuffle features targets).2.predict query =
        .ok (List.replicate query.rows_ (some (targets.sum / targets.length))) := by
  have hne : targets.isEmpty = false := by
    cases targets with
    | nil => exact absurd hcount hrows
    | cons _ _ => rfl
  have hguard : ¬ (features.rows_ ≠ targets.length ∨ features.rows_ = 0) := by
    rintro (h | h)
    · exact h hcount
    · exact hrows h
  have hroot : (self.train shuffle features targets).2.root_ =
      some (.leaf (some (targets.sum / targets.length))) := by
    unfold models.DecisionTree.train
    rw [if_neg hguard]
    simp only
    rw [models.DecisionTree.buildTree, dif_pos (Or.inl (by
      show 0 ≥ models.DecisionTree.maxDepth_ _
      split_ifs <;> simp [hdepth]))]
    rw [hne, mean_eq targets (by intro h; rw [h] at hne; cases hne)]
    rfl
  refine ⟨?_, hroot, fun query => predict_leaf _ _ hroot query⟩
  unfold models.DecisionTree.train
  rw [if_neg hguard]

/-- C8 at four rows with the targets `0, 1, 0, 1`: the leaf holds their mean. -/
theorem C8_depth_zero_predicts_mean_witness :
    (models.DecisionTree.train ⟨none, 0, 2, 0⟩ examples.noShuffle examples.fourRows
        [0, 1, 0, 1]).1 = .ok true ∧
      (models.DecisionTree.train ⟨none, 0, 2, 0⟩ examples.noShuffle examples.fourRows
        [0, 1, 0, 1]).2.root_ = some (.leaf (some (([0, 1, 0, 1] : List ℚ).sum / 4))) ∧
      ∀ query : utils.Matrix,
        (models.DecisionTree.train ⟨none, 0, 2, 0⟩ examples.noShuffle examples.fourRows
          [0, 1, 0, 1]).2.predict query =
        .ok (List.replicate query.rows_ (some (([0, 1, 0, 1] : List ℚ).sum / 4))) :=
  C8_depth_zero_predicts_mean ⟨none, 0, 2, 0⟩ examples.noShuffle examples.fourRows [0, 1, 0, 1]
    rfl (by decide) (by decide)

/-! ## The Gini impurity -/

theorem bump_keys (m : List (ℚ × Nat)) (t : ℚ) :
    (models.DecisionTree.bump m t).map Prod.fst =
      if t ∈ m.map Prod.fst then m.map Prod.fst else m.map Prod.fst ++ [t] := by
  induction m with
  | nil => simp [models.DecisionTree.bump]
  | cons kc rest ih =>
    obtain ⟨k, c⟩ := kc
    unfold models.DecisionTree.bump
    by_cases hk : k = t
    · subst hk
      simp
    · rw [if_neg hk, List.map_cons, ih]
      have hk2 : ¬ t = k := fun h => hk h.symm
      by_cases ht : t ∈ rest.map Prod.fst
      · rw [if_pos ht, if_pos (by simp only [List.map_cons, List.mem_cons]; exact Or.inr ht)]
        rfl
      · rw [if_neg ht, if_neg (by
          simp only [List.map_cons, List.mem_cons]
          rintro (h | h)
          · exact hk2 h
          · exact ht h)]
        rfl

theorem bump_mem (m : List (ℚ × Nat)) (hnd : (m.map Prod.fst).Nodup) (t : ℚ) (kc : ℚ × Nat)
    (h : kc ∈ models.DecisionTree.bump m t) :
    (kc ∈ m ∧ kc.1 ≠ t) ∨
      (kc.1 = t ∧ ((∃ c, (t, c) ∈ m ∧ kc.2 = c + 1) ∨ (t ∉ m.map Prod.fst ∧ kc.2 = 1))) := by
  induction m with
  | nil =>
    simp only [models.DecisionTree.bump, List.mem_singleton] at h
    subst h
    exact Or.inr ⟨rfl, Or.inr ⟨by simp, rfl⟩⟩
  | cons kc2 rest ih =>
    obtain ⟨k, c⟩ := kc2
    rw [List.map_cons, List.nodup_cons] at hnd
    unfold models.DecisionTree.bump at h
    by_cases hk : k = t
    · subst hk
      rw [if_pos rfl, List.mem_cons] at h
      rcases h with h | h
      · subst h
        exact Or.inr ⟨rfl, Or.inl ⟨c, List.mem_cons_self _ _, rfl⟩⟩
      · by_cases hkc : kc.1 = k
        · exfalso
          apply hnd.1
          rw [← hkc]
          exact List.mem_map.mpr ⟨kc, h, rfl⟩
        · exact Or.inl ⟨List.mem_cons_of_mem _ h, hkc⟩
    · rw [if_neg hk, List.mem_cons] at h
      rcases h with h | h
      · subst h
        exact Or.inl ⟨List.mem_cons_self _ _, hk⟩
      · rcases ih hnd.2 h with ⟨h1, h2⟩ | ⟨h1, h2⟩
        · exact Or.inl ⟨List.mem_cons_of_mem _ h1, h2⟩
        · right
          refine ⟨h1, ?_⟩
          rcases h2 with ⟨c2, hc2, hc3⟩ | ⟨hn, hc⟩
          · exact Or.inl ⟨c2, List.mem_cons_of_mem _ hc2, hc3⟩
          · right
            refine ⟨?_, hc⟩
            simp only [List.map_cons, List.mem_cons]
            rintro (h | h)
            · exact hk h.symm
            · exact hn h

/-- The entries of the map after the counting loop: one entry for each distinct target,
holding the number of its occurrences. -/
theorem classCounts_spec (targets : List ℚ) :
    ((targets.foldl models.DecisionTree.bump []).map Prod.fst).Nodup ∧
      (∀ kc ∈ targets.foldl models.DecisionTree.bump [],
        kc.2 = targets.count kc.1 ∧ kc.1 ∈ targets) ∧
      ∀ k ∈ targets, k ∈ (targets.foldl models.DecisionTree.bump []).map Prod.fst := by
  induction targets using List.reverseRecOn with
  | nil => simp
  | append_singleton p t ih =>
    obtain ⟨hnd, hcount, hcover⟩ := ih
    rw [List.foldl_append, List.foldl_cons, List.foldl_nil]
    generalize p.foldl models.DecisionTree.bump [] = m at hnd hcount hcover
    refine ⟨?_, ?_, ?_⟩
    · rw [bump_keys]
      by_cases ht : t ∈ m.map Prod.fst
      · rw [if_pos ht]; exact hnd
      · rw [if_neg ht]
        exact List.Nodup.append hnd (List.nodup_singleton t) (by
          intro a ha hb
          rw [List.mem_singleton] at hb
          subst hb
          exact ht ha)
    · intro kc hkc
      rcases bump_mem m hnd t kc hkc with ⟨h1, h2⟩ | ⟨h1, h2⟩
      · obtain ⟨h3, h4⟩ := hcount kc h1
        refine ⟨?_, List.mem_append_left _ h4⟩
        rw [List.count_append, h3, List.count_singleton, if_neg (by
          simp only [beq_iff_eq]; exact fun h => h2 h.symm)]
        rfl
      · refine ⟨?_, by rw [h1]; simp⟩
        rw [h1, List.count_append, List.count_singleton, if_pos (by simp)]
        rcases h2 with ⟨c, hc, hc2⟩ | ⟨hn, hc⟩
        · rw [hc2]
          have := (hcount _ hc).1
          simp only at this
          rw [this]
        · rw [hc, List.count_eq_zero.mpr (fun hp => hn (hcover t hp))]
    · intro k hk
      rw [bump_keys]
      rcases List.mem_append.mp hk with h | h
      · by_cases ht : t ∈ m.map Prod.fst
        · rw [if_pos ht]; exact hcover k h
        · rw [if_neg ht]; exact List.mem_append_left _ (hcover k h)
      · rw [List.mem_singleton] at h
        subst h
        by_cases ht : k ∈ m.map Prod.fst
        · rw [if_pos ht]; exact ht
        · rw [if_neg ht]; simp

/-- The subtraction loop of `calculateGini`. -/
theorem gini_fold (n : ℚ) (m : List (ℚ × Nat)) (init : ℚ) :
    m.foldl (fun gini kc => gini - (kc.2 : ℚ) / n * ((kc.2 : ℚ) / n)) init =
      init - (m.map (fun kc => (kc.2 : ℚ) / n * ((kc.2 : ℚ) / n))).sum := by
  induction m generalizing init with
  | nil => simp
  | cons kc rest ih => rw [List.foldl_cons, ih, List.map_cons, List.sum_cons]; ring

/-- `calculateGini` is `1 - Σ_c p_c²` over the distinct target values `c`, where `p_c` is the
fraction of the targets equal to `c`; it is 0 on the empty vector. -/
theorem calculateGini_eq (targets : List ℚ) :
    models.DecisionTree.calculateGini targets =
      if targets = [] then 0
      else 1 - ∑ c in targets.toFinset,
        ((targets.count c : ℚ) / targets.length) * ((targets.count c : ℚ) / targets.length) := by
  unfold models.DecisionTree.calculateGini
  by_cases hnil : targets = []
  · subst hnil; rfl
  rw [if_neg hnil, if_neg (by simpa using hnil)]
  simp only
  rw [gini_fold]
  congr 1
  obtain ⟨hnd, hcount, hcover⟩ := classCounts_spec targets
  generalize targets.foldl models.DecisionTree.bump [] = m at hnd hcount hcover
  have h1 : m.map (fun kc => (kc.2 : ℚ) / targets.length * ((kc.2 : ℚ) / targets.length)) =
      (m.map Prod.fst).map (fun c =>
        ((targets.count c : ℚ) / targets.length) * ((targets.count c : ℚ) / targets.length)) := by
    rw [List.map_map]
    apply List.map_congr_left
    intro kc hkc
    simp only [Function.comp]
    rw [(hcount kc hkc).1]
  rw [h1, ← List.sum_toFinset _ hnd]
  apply Finset.sum_congr _ (fun _ _ => rfl)
  ext k
  simp only [List.mem_toFinset]
  constructor
  · intro hk
    obtain ⟨kc, hkc, rfl⟩ := List.mem_map.mp hk
    exact (hcount kc hkc).2
  · exact hcover k

/-- A loop of `push_back` builds the vector of the pushed values. -/
theorem foldl_push {α β : Type} (g : α → β) (l : List α) (init : List β) :
    l.foldl (fun acc x => acc ++ [g x]) init = init ++ l.map g := by
  induction l generalizing init with
  | nil => simp
  | cons x l ih => rw [List.foldl_cons, ih, List.map_cons, List.append_assoc]; rfl

theorem pairLE_total (a b : ℚ × ℚ) :
    models.DecisionTree.pairLE a b ∨ models.DecisionTree.pairLE b a := by
  unfold models.DecisionTree.pairLE
  rcases lt_trichotomy a.1 b.1 with h | h | h
  · exact Or.inl (Or.inl h)
  · rcases le_total a.2 b.2 with h2 | h2
    · exact Or.inl (Or.inr ⟨h, h2⟩)
    · exact Or.inr (Or.inr ⟨h.symm, h2⟩)
  · exact Or.inr (Or.inl h)

theorem pairLE_trans (a b c : ℚ × ℚ) (hab : models.DecisionTree.pairLE a b)
    (hbc : models.DecisionTree.pairLE b c) : models.DecisionTree.pairLE a c := by
  unfold models.DecisionTree.pairLE at *
  rcases hab with h1 | ⟨h1, h2⟩
  · rcases hbc with h3 | ⟨h3, _⟩
    · exact Or.inl (lt_trans h1 h3)
    · exact Or.inl (h3 ▸ h1)
  · rcases hbc with h3 | ⟨h3, h4⟩
    · exact Or.inl (h1 ▸ h3)
    · exact Or.inr ⟨h1.trans h3, le_trans h2 h4⟩

/-- The vector `featureTargetPairs` after `std::sort`: the (value, target) pairs of the rows,
in non-decreasing order. -/
theorem sortedPairs_spec (features : utils.Matrix) (targets : List ℚ) (f : Nat) :
    (models.DecisionTree.sortedPairs features targets f).Sorted models.DecisionTree.pairLE ∧
      (models.DecisionTree.sortedPairs features targets f).Perm
        ((List.range features.rows_).map (fun i => (features.get i f, targets.getD i 0))) := by
  unfold models.DecisionTree.sortedPairs
  rw [foldl_push, List.nil_append]
  haveI : IsTotal (ℚ × ℚ) models.DecisionTree.pairLE := ⟨pairLE_total⟩
  haveI : IsTrans (ℚ × ℚ) models.DecisionTree.pairLE := ⟨pairLE_trans⟩
  exact ⟨List.sorted_insertionSort _ _, List.perm_insertionSort _ _⟩

/-- In the sorted vector the values do not decrease. -/
theorem sorted_fst_le {S : List (ℚ × ℚ)} (hS : S.Sorted models.DecisionTree.pairLE)
    {i j : Nat} (hij : i ≤ j) (hj : j < S.length) :
    (S.getD i (0, 0)).1 ≤ (S.getD j (0, 0)).1 := by
  rw [List.getD_eq_getElem _ _ (by omega), List.getD_eq_getElem _ _ hj]
  rcases Nat.lt_or_eq_of_le hij with h | h
  · have := List.pairwise_iff_getElem.mp hS i j (by omega) hj h
    unfold models.DecisionTree.pairLE at this
    rcases this with h1 | ⟨h1, _⟩
    · exact le_of_lt h1
    · exact le_of_eq h1
  · subst h; exact le_refl _

/-- The running minimum with the strict test `key x < best`: the result is the first element
of the smallest key, or the initial value when no key is finite. -/
theorem argmin_fold {ι β : Type} (key : ι → WithTop ℚ) (mk : ι → β) (proj : β → WithTop ℚ)
    (hproj : ∀ x, proj (mk x) = key x) (init : β) (hinit : proj init = ⊤) (l : List ι) :
    (l.foldl (fun best x => if key x < proj best then mk x else best) init = init ∧
        ∀ x ∈ l, key x = ⊤) ∨
      ∃ l1 x l2, l = l1 ++ x :: l2 ∧
        l.foldl (fun best x => if key x < proj best then mk x else best) init = mk x ∧
        key x ≠ ⊤ ∧ (∀ y ∈ l1, key x < key y) ∧ ∀ y ∈ l2, key x ≤ key y := by
  induction l using List.reverseRecOn with
  | nil => exact Or.inl ⟨rfl, fun _ h => absurd h (List.not_mem_nil _)⟩
  | append_singleton l a ih =>
    rw [List.foldl_append, List.foldl_cons, List.foldl_nil]
    rcases ih with ⟨hres, hall⟩ | ⟨l1, x, l2, hl, hres, hx, hbefore, hafter⟩
    · rw [hres, hinit]
      by_cases ha : key a < ⊤
      · right
        rw [if_pos ha]
        refine ⟨l, a, [], rfl, rfl, ne_of_lt ha, ?_, fun _ h => absurd h (List.not_mem_nil _)⟩
        intro y hy
        rw [hall y hy]
        exact ha
      · left
        rw [if_neg ha]
        refine ⟨rfl, ?_⟩
        intro y hy
        rcases List.mem_append.mp hy with h | h
        · exact hall y h
        · rw [List.mem_singleton] at h
          subst h
          exact not_lt_top_iff.mp ha
    · right
      rw [hres, hproj]
      by_cases ha : key a < key x
      · rw [if_pos ha]
        refine ⟨l, a, [], rfl, rfl, ne_of_lt (lt_of_lt_of_le ha le_top), ?_,
          fun _ h => absurd h (List.not_mem_nil _)⟩
        intro y hy
        rw [hl] at hy
        rcases List.mem_append.mp hy with h | h
        · exact lt_trans ha (hbefore y h)
        · rcases List.mem_cons.mp h with h2 | h2
          · rw [h2]; exact ha
          · exact lt_of_lt_of_le ha (hafter y h2)
      · rw [if_neg ha]
        refine ⟨l1, x, l2 ++ [a], by rw [hl]; simp, rfl, hx, hbefore, ?_⟩
        intro y hy
        rcases List.mem_append.mp hy with h | h
        · exact hafter y h
        · rw [List.mem_singleton] at h
          subst h
          exact not_lt.mp ha

/-- `findBestSplit` keeps the running minimum of the quality over the positions of the sorted
pairs. -/
theorem findBestSplit_eq (features : utils.Matrix) (targets : List ℚ) (f : Nat) :
    models.DecisionTree.findBestSplit features targets f =
      (List.range' 1 ((models.DecisionTree.sortedPairs features targets f).length - 1)).foldl
        (fun (best : ℚ × WithTop ℚ) i =>
          if models.DecisionTree.qualityAt features.rows_
              (models.DecisionTree.sortedPairs features targets f) i < best.2 then
            (models.DecisionTree.thresholdAt
                (models.DecisionTree.sortedPairs features targets f) i,
              models.DecisionTree.qualityAt features.rows_
                (models.DecisionTree.sortedPairs features targets f) i)
          else best) (0, ⊤) := by
  unfold models.DecisionTree.findBestSplit
  simp only
  congr 1
  funext best i
  unfold models.DecisionTree.qualityAt models.DecisionTree.thresholdAt
  by_cases hc : ((models.DecisionTree.sortedPairs features targets f).getD i (0, 0)).1 ≠
      ((models.DecisionTree.sortedPairs features targets f).getD (i - 1) (0, 0)).1
  · rw [if_pos hc, if_pos hc]
  · rw [if_neg hc, if_neg hc, if_neg (not_top_lt)]

/-- The result of `findBestSplit`: nothing when no position is a boundary, and otherwise the
first boundary of the smallest quality. -/
theorem findBestSplit_spec (features : utils.Matrix) (targets : List ℚ) (f : Nat) :
    (models.DecisionTree.findBestSplit features targets f = (0, ⊤) ∧
        ∀ i, 1 ≤ i → i < (models.DecisionTree.sortedPairs features targets f).length →
          models.DecisionTree.qualityAt features.rows_
            (models.DecisionTree.sortedPairs features targets f) i = ⊤) ∨
      ∃ i0, 1 ≤ i0 ∧ i0 < (models.DecisionTree.sortedPairs features targets f).length ∧
        models.DecisionTree.findBestSplit features targets f =
          (models.DecisionTree.thresholdAt
              (models.DecisionTree.sortedPairs features targets f) i0,
            models.DecisionTree.qualityAt features.rows_
              (models.DecisionTree.sortedPairs features targets f) i0) ∧
        models.DecisionTree.qualityAt features.rows_
          (models.DecisionTree.sortedPairs features targets f) i0 ≠ ⊤ ∧
        ∀ i, 1 ≤ i → i < (models.DecisionTree.sortedPairs features targets f).length →
          models.DecisionTree.qualityAt features.rows_
              (models.DecisionTree.sortedPairs features targets f) i0 ≤
            models.DecisionTree.qualityAt features.rows_
              (models.DecisionTree.sortedPairs features targets f) i ∧
          (models.DecisionTree.qualityAt features.rows_
              (models.DecisionTree.sortedPairs features targets f) i =
            models.DecisionTree.qualityAt features.rows_
              (models.DecisionTree.sortedPairs features targets f) i0 → i0 ≤ i) := by
  rw [findBestSplit_eq]
  generalize models.DecisionTree.sortedPairs features targets f = S
  have hmem : ∀ i, i ∈ List.range' 1 (S.length - 1) ↔ 1 ≤ i ∧ i < S.length := by
    intro i
    rw [List.mem_range'_1]
    omega
  rcases argmin_fold (models.DecisionTree.qualityAt features.rows_ S)
      (fun i => (models.DecisionTree.thresholdAt S i,
        models.DecisionTree.qualityAt features.rows_ S i))
      Prod.snd (fun _ => rfl) (0, ⊤) rfl (List.range' 1 (S.length - 1)) with
    ⟨hres, hall⟩ | ⟨l1, x, l2, hl, hres, hx, hbefore, hafter⟩
  · left
    exact ⟨hres, fun i h1 h2 => hall i ((hmem i).mpr ⟨h1, h2⟩)⟩
  · right
    have hxmem : x ∈ List.range' 1 (S.length - 1) := by rw [hl]; simp
    have hsorted : (l1 ++ x :: l2).Pairwise (· < ·) := by
      rw [← hl]; exact List.pairwise_lt_range' 1 (S.length - 1)
    rw [List.pairwise_append] at hsorted
    obtain ⟨-, h2, h12⟩ := hsorted
    rw [List.pairwise_cons] at h2
    refine ⟨x, ((hmem x).mp hxmem).1, ((hmem x).mp hxmem).2, hres, hx, ?_⟩
    intro i hi1 hi2
    have hi : i ∈ l1 ++ x :: l2 := by rw [← hl]; exact (hmem i).mpr ⟨hi1, hi2⟩
    rcases List.mem_append.mp hi with h | h
    · have := hbefore i h
      exact ⟨le_of_lt this, fun heq => absurd heq (ne_of_gt this)⟩
    · rcases List.mem_cons.mp h with h3 | h3
      · subst h3
        exact ⟨le_refl _, fun _ => le_refl _⟩
      · exact ⟨hafter i h3, fun _ => le_of_lt (h2.1 i h3)⟩

/-- The values of the sorted pairs are the values of the feature column. -/
theorem mem_columnValues (features : utils.Matrix) (targets : List ℚ) (f : Nat) (v : ℚ) :
    v ∈ models.DecisionTree.columnValues features f ↔
      ∃ k, k < (models.DecisionTree.sortedPairs features targets f).length ∧
        ((models.DecisionTree.sortedPairs features targets f).getD k (0, 0)).1 = v := by
  obtain ⟨-, hperm⟩ := sortedPairs_spec features targets f
  have hmap : ((models.DecisionTree.sortedPairs features targets f).map Prod.fst).Perm
      (models.DecisionTree.columnValues features f) := by
    unfold models.DecisionTree.columnValues
    refine (hperm.map Prod.fst).trans ?_
    rw [List.map_map]
    exact List.Perm.refl _
  rw [← hmap.mem_iff, List.mem_map]
  constructor
  · rintro ⟨p, hp, rfl⟩
    obtain ⟨k, hk, rfl⟩ := List.mem_iff_getElem.mp hp
    exact ⟨k, hk, by rw [List.getD_eq_getElem _ _ hk]⟩
  · rintro ⟨k, hk, rfl⟩
    exact ⟨_, List.getElem_mem hk, by rw [List.getD_eq_getElem _ _ hk]⟩

/-- A boundary of the sorted pairs is a candidate of the specification: its two values are
consecutive distinct values of the column. -/
theorem boundary_is_candidate (features : utils.Matrix) (targets : List ℚ) (f : Nat) (i : Nat)
    (hi1 : 1 ≤ i) (hi2 : i < (models.DecisionTree.sortedPairs features targets f).length)
    (hq : models.DecisionTree.qualityAt features.rows_
      (models.DecisionTree.sortedPairs features targets f) i ≠ ⊤) :
    ∃ a b, a ∈ models.DecisionTree.columnValues features f ∧
      b ∈ models.DecisionTree.columnValues features f ∧ a < b ∧
      (∀ v ∈ models.DecisionTree.columnValues features f, ¬ (a < v ∧ v < b)) ∧
      models.DecisionTree.thresholdAt
        (models.DecisionTree.sortedPairs features targets f) i = (a + b) / 2 := by
  obtain ⟨hS, -⟩ := sortedPairs_spec features targets f
  have hmem := mem_columnValues features targets f
  generalize models.DecisionTree.sortedPairs features targets f = S at *
  have hcond : (S.getD i (0, 0)).1 ≠ (S.getD (i - 1) (0, 0)).1 := by
    intro h
    apply hq
    unfold models.DecisionTree.qualityAt
    rw [if_neg (by simpa using h)]
  refine ⟨(S.getD (i - 1) (0, 0)).1, (S.getD i (0, 0)).1, (hmem _).mpr ⟨i - 1, by omega, rfl⟩,
    (hmem _).mpr ⟨i, hi2, rfl⟩, ?_, ?_, ?_⟩
  · exact lt_of_le_of_ne (sorted_fst_le hS (by omega) hi2) (fun h => hcond h.symm)
  · intro v hv ⟨h1, h2⟩
    obtain ⟨k, hk, rfl⟩ := (hmem v).mp hv
    by_cases hki : k < i
    · exact absurd (sorted_fst_le hS (show k ≤ i - 1 by omega) (by omega)) (not_le.mpr h1)
    · exact absurd (sorted_fst_le hS (show i ≤ k by omega) hk) (not_le.mpr h2)
  · unfold models.DecisionTree.thresholdAt
    rw [add_comm]

/-- A feature whose column is constant over the rows gives no split. -/
theorem findBestSplit_constant (features : utils.Matrix) (targets : List ℚ) (f : Nat)
    (hconst : ∀ i j, i < features.rows_ → j < features.rows_ →
      features.get i f = features.get j f) :
    models.DecisionTree.findBestSplit features targets f = (0, ⊤) := by
  have hmem := mem_columnValues features targets f
  rcases findBestSplit_spec features targets f with ⟨h, -⟩ | ⟨i0, h1, h2, -, hq, -⟩
  · exact h
  · exfalso
    apply hq
    unfold models.DecisionTree.qualityAt
    rw [if_neg]
    rw [not_not]
    obtain ⟨x, hx, hx2⟩ := List.mem_map.mp ((hmem _).mpr ⟨i0, h2, rfl⟩)
    obtain ⟨y, hy, hy2⟩ := List.mem_map.mp ((hmem _).mpr ⟨i0 - 1, by omega, rfl⟩)
    rw [← hx2, ← hy2]
    exact hconst x y (List.mem_range.mp hx) (List.mem_range.mp hy)

/-- The search of `buildTree` keeps the running minimum over the candidate features. -/
theorem bestSplit_spec (features : utils.Matrix) (targets : List ℚ) (l : List Nat) :
    (models.DecisionTree.bestSplit features targets l = (⊤, 0, 0) ∧
        ∀ f ∈ l, (models.DecisionTree.findBestSplit features targets f).2 = ⊤) ∨
      ∃ l1 f0 l2, l = l1 ++ f0 :: l2 ∧
        models.DecisionTree.bestSplit features targets l =
          ((models.DecisionTree.findBestSplit features targets f0).2, f0,
            (models.DecisionTree.findBestSplit features targets f0).1) ∧
        (models.DecisionTree.findBestSplit features targets f0).2 ≠ ⊤ ∧
        (∀ f ∈ l1, (models.DecisionTree.findBestSplit features targets f0).2 <
          (models.DecisionTree.findBestSplit features targets f).2) ∧
        ∀ f ∈ l2, (models.DecisionTree.findBestSplit features targets f0).2 ≤
          (models.DecisionTree.findBestSplit features targets f).2 :=
  argmin_fold (fun f => (models.DecisionTree.findBestSplit features targets f).2)
    (fun f => ((models.DecisionTree.findBestSplit features targets f).2, f,
      (models.DecisionTree.findBestSplit features targets f).1))
    Prod.fst (fun _ => rfl) (⊤, 0, 0) rfl l

/-- The body of `buildTree` below the depth and size guard. -/
theorem buildTree_eq (self : models.DecisionTree) (shuffle : models.Shuffle)
    (path : List Bool) (features : utils.Matrix) (targets : List ℚ) (depth : Nat)
    (hguard : ¬ (depth ≥ self.maxDepth_ ∨ targets.length < self.minSamplesSplit_)) :
    self.buildTree shuffle path features targets depth =
      if (models.DecisionTree.bestSplit features targets
          (self.featureIndices shuffle path features)).1 = ⊤ then
        .leaf (models.DecisionTree.mean targets)
      else
        .node
          (models.DecisionTree.bestSplit features targets
            (self.featureIndices shuffle path features)).2.1
          (models.DecisionTree.bestSplit features targets
            (self.featureIndices shuffle path features)).2.2
          (self.buildTree shuffle (path ++ [false])
            (models.DecisionTree.splitData features targets
              (models.DecisionTree.bestSplit features targets
                (self.featureIndices shuffle path features)).2.1
              (models.DecisionTree.bestSplit features targets
                (self.featureIndices shuffle path features)).2.2).1
            (models.DecisionTree.splitData features targets
              (models.DecisionTree.bestSplit features targets
                (self.featureIndices shuffle path features)).2.1
              (models.DecisionTree.bestSplit features targets
                (self.featureIndices shuffle path features)).2.2).2.2.1 (depth + 1))
          (self.buildTree shuffle (path ++ [true])
            (models.DecisionTree.splitData features targets
              (models.DecisionTree.bestSplit features targets
                (self.featureIndices shuffle path features)).2.1
              (models.DecisionTree.bestSplit features targets
                (self.featureIndices shuffle path features)).2.2).2.1
            (models.DecisionTree.splitData features targets
              (models.DecisionTree.bestSplit features targets
                (self.featureIndices shuffle path features)).2.1
              (models.DecisionTree.bestSplit features targets
                (self.featureIndices shuffle path features)).2.2).2.2.2 (depth + 1)) := by
  rw [models.DecisionTree.buildTree, dif_neg hguard]

/-! ## Claims on the split search -/

/-- C9, evaluated where it fails: on the two rows `[1]`, `[2]` with the targets `5, 5` the
only candidate split (feature 0, threshold 3/2) has weighted Gini impurity 0, which is not
lower than the impurity 0 of the node: no split improves the Gini impurity. The test under
the comment "If no improvement in Gini, create leaf node" (DecisionTree.cpp 92-93) is
`bestGini == infinity`, which only notices that no split exists, and `buildTree` (depth 0
below `maxDepth = 1`, two targets with `minSamplesSplit = 2`) returns an internal node. -/
theorem C9_split_without_gain :
    examples.twoRows.rows_ = ([5, 5] : List ℚ).length ∧
      (∀ f t, models.DecisionTree.IsCandidate examples.twoRows f t →
        ¬ models.DecisionTree.weightedGini examples.twoRows [5, 5] f t <
          models.DecisionTree.calculateGini [5, 5]) ∧
      models.DecisionTree.buildTree ⟨none, 1, 2, 1⟩ examples.noShuffle [] examples.twoRows
        [5, 5] 0 = .node 0 (3 / 2) (.leaf (some 5)) (.leaf (some 5)) := by
  refine ⟨rfl, ?_, by decide!⟩
  rintro f t ⟨hf, a, b, ha, hb, hab, -, rfl⟩
  have hf0 : f = 0 := by
    have : f < 1 := hf
    omega
  subst hf0
  have hcol : models.DecisionTree.columnValues examples.twoRows 0 = [1, 2] := by decide!
  rw [hcol] at ha hb
  simp only [List.mem_cons, List.mem_singleton, List.not_mem_nil, or_false] at ha hb
  have hgini : models.DecisionTree.calculateGini [5, 5] = 0 := by decide!
  rw [hgini]
  rcases ha with rfl | rfl <;> rcases hb with rfl | rfl
  · exact absurd hab (lt_irrefl _)
  · have : models.DecisionTree.weightedGini examples.twoRows [5, 5] 0 ((1 + 2) / 2) = 0 := by
      decide!
    rw [this]
    exact lt_irrefl _
  · exact absurd hab (by norm_num)
  · exact absurd hab (lt_irrefl _)

/-- The third leaf test of `buildTree` as the code has it: when no searched feature takes two
distinct values over the rows of the node, `bestGini` stays infinite and `buildTree` returns
a leaf. -/
theorem buildTree_leaf_without_candidate (self : models.DecisionTree)
    (shuffle : models.Shuffle) (path : List Bool) (features : utils.Matrix) (targets : List ℚ) (depth : Nat)
    (_hcount : features.rows_ = targets.length)
    (hconst : ∀ f ∈ self.featureIndices shuffle path features, ∀ i j,
      i < features.rows_ → j < features.rows_ → features.get i f = features.get j f) :
    ∃ value, self.buildTree shuffle path features targets depth = .leaf value := by
  by_cases hguard : depth ≥ self.maxDepth_ ∨ targets.length < self.minSamplesSplit_
  · rw [models.DecisionTree.buildTree, dif_pos hguard]
    exact ⟨_, rfl⟩
  · rw [buildTree_eq self shuffle path features targets depth hguard]
    rcases bestSplit_spec features targets (self.featureIndices shuffle path features) with
      ⟨hres, -⟩ | ⟨l1, f0, l2, hl, -, hne, -, -⟩
    · rw [hres, if_pos rfl]
      exact ⟨_, rfl⟩
    · exfalso
      apply hne
      rw [findBestSplit_constant features targets f0 (hconst f0 (by rw [hl]; simp))]

/-- Two rows with the same feature value 7 and the targets `0, 1` give a leaf. -/
theorem buildTree_leaf_without_candidate_example :
    ∃ value, models.DecisionTree.buildTree ⟨none, 3, 2, 1⟩ examples.noShuffle []
      ⟨2, 1, [[7], [7]]⟩ [0, 1] 0 = .leaf value :=
  buildTree_leaf_without_candidate ⟨none, 3, 2, 1⟩ examples.noShuffle [] ⟨2, 1, [[7], [7]]⟩
    [0, 1] 0 rfl (by
      intro f hf i j hi hj
      have hf0 : f = 0 := by
        have : f ∈ [0] := hf
        simpa using this
      subst hf0
      have hi2 : i < 2 := hi
      have hj2 : j < 2 := hj
      interval_cases i <;> interval_cases j <;> rfl)

theorem sortedPairs_length (features : utils.Matrix) (targets : List ℚ) (f : Nat) :
    (models.DecisionTree.sortedPairs features targets f).length = features.rows_ := by
  rw [(sortedPairs_spec features targets f).2.length_eq, List.length_map, List.length_range]

/-- Fewer than two rows give no split, whatever the feature. -/
theorem findBestSplit_small (features : utils.Matrix) (targets : List ℚ) (f : Nat)
    (hrows : features.rows_ ≤ 1) :
    models.DecisionTree.findBestSplit features targets f = (0, ⊤) := by
  rcases findBestSplit_spec features targets f with ⟨h, -⟩ | ⟨i0, h1, h2, -, -, -⟩
  · exact h
  · rw [sortedPairs_length] at h2
    omega

/-- On fewer than two feature rows `buildTree` returns a leaf, and the leaf holds the mean of
the targets when there is a target. -/
theorem buildTree_small (self : models.DecisionTree) (shuffle : models.Shuffle)
    (path : List Bool) (features : utils.Matrix) (targets : List ℚ) (depth : Nat)
    (hrows : features.rows_ ≤ 1) :
    ∃ value, self.buildTree shuffle path features targets depth = .leaf value ∧
      (targets ≠ [] → value = some (targets.sum / targets.length)) := by
  by_cases hguard : depth ≥ self.maxDepth_ ∨ targets.length < self.minSamplesSplit_
  · rw [models.DecisionTree.buildTree, dif_pos hguard]
    refine ⟨_, rfl, fun hne => ?_⟩
    rw [mean_eq targets hne]
    cases targets with
    | nil => exact absurd rfl hne
    | cons _ _ => rfl
  · rw [buildTree_eq self shuffle path features targets depth hguard]
    rcases bestSplit_spec features targets (self.featureIndices shuffle path features) with
      ⟨hres, -⟩ | ⟨l1, f0, l2, -, -, hne, -, -⟩
    · rw [hres, if_pos rfl]
      exact ⟨_, rfl, fun hne => mean_eq targets hne⟩
    · rw [findBestSplit_small features targets f0 hrows] at hne
      exact absurd rfl hne

/-- The split of the data: each side gets the targets of its rows, in row order, and a feature
matrix of at most one row. -/
theorem splitData_spec (features : utils.Matrix) (targets : List ℚ) (f : Nat) (t : ℚ) :
    (models.DecisionTree.splitData features targets f t).2.2.1 =
        models.DecisionTree.leftOf features targets f t ∧
      (models.DecisionTree.splitData features targets f t).2.2.2 =
        models.DecisionTree.rightOf features targets f t ∧
      (models.DecisionTree.splitData features targets f t).1.rows_ ≤ 1 ∧
      (models.DecisionTree.splitData features targets f t).2.1.rows_ ≤ 1 := by
  unfold models.DecisionTree.splitData models.DecisionTree.leftOf models.DecisionTree.rightOf
  refine foldl_range_inv
    (fun k (st : utils.Matrix × utils.Matrix × List ℚ × List ℚ) =>
      st.2.2.1 = ((List.range k).filter (fun i => features.get i f ≤ t)).map
          (fun i => targets.getD i 0) ∧
        st.2.2.2 = ((List.range k).filter (fun i => ¬ features.get i f ≤ t)).map
          (fun i => targets.getD i 0) ∧
        st.1.rows_ ≤ 1 ∧ st.2.1.rows_ ≤ 1)
    _ features.rows_ _ ⟨rfl, rfl, Nat.zero_le _, Nat.zero_le _⟩ ?_
  intro k st _ ⟨h1, h2, h3, h4⟩
  rw [List.range_succ, List.filter_append, List.filter_append, List.map_append, List.map_append]
  by_cases hk : features.get k f ≤ t
  · rw [if_pos hk]
    refine ⟨?_, ?_, Nat.le_refl 1, h4⟩
    · simp only [h1, List.filter_cons, List.filter_nil, hk, decide_True, if_true,
        List.map_cons, List.map_nil]
    · simp only [h2, List.filter_cons, List.filter_nil, hk, not_true_eq_false, decide_False,
        List.map_nil, List.append_nil]
      simp
  · rw [if_neg hk]
    refine ⟨?_, ?_, h3, Nat.le_refl 1⟩
    · simp only [h1, List.filter_cons, List.filter_nil, hk, decide_False, List.map_nil,
        List.append_nil]
      simp
    · simp only [h2, List.filter_cons, List.filter_nil, hk, not_false_eq_true, decide_True,
        if_true, List.map_cons, List.map_nil]

/-- The tree `buildTree` returns on a non-empty target vector: a leaf of the mean of the
targets, or one split whose two children are the leaves of the means of the two sides, both
sides non-empty. -/
theorem buildTree_shape (self : models.DecisionTree) (shuffle : models.Shuffle)
    (path : List Bool) (features : utils.Matrix) (targets : List ℚ) (depth : Nat)
    (hne : targets ≠ []) :
    self.buildTree shuffle path features targets depth =
        .leaf (some (targets.sum / targets.length)) ∨
      ∃ f t, f ∈ self.featureIndices shuffle path features ∧
        models.DecisionTree.leftOf features targets f t ≠ [] ∧
        models.DecisionTree.rightOf features targets f t ≠ [] ∧
        self.buildTree shuffle path features targets depth =
          .node f t
            (.leaf (some ((models.DecisionTree.leftOf features targets f t).sum /
              (models.DecisionTree.leftOf features targets f t).length)))
            (.leaf (some ((models.DecisionTree.rightOf features targets f t).sum /
              (models.DecisionTree.rightOf features targets f t).length))) := by
  by_cases hguard : depth ≥ self.maxDepth_ ∨ targets.length < self.minSamplesSplit_
  · left
    rw [models.DecisionTree.buildTree, dif_pos hguard, mean_eq targets hne]
    cases targets with
    | nil => exact absurd rfl hne
    | cons _ _ => rfl
  rw [buildTree_eq self shuffle path features targets depth hguard]
  rcases bestSplit_spec features targets (self.featureIndices shuffle path features) with
    ⟨hres, -⟩ | ⟨l1, f0, l2, hl, hres, hfin, -, -⟩
  · left
    rw [hres, if_pos rfl, mean_eq targets hne]
  right
  rcases findBestSplit_spec features targets f0 with ⟨h0, -⟩ | ⟨i0, hi1, hi2, hr, hq, -⟩
  · rw [h0] at hfin
    exact absurd rfl hfin
  obtain ⟨a, b, ha, hb, hab, -, hthr⟩ :=
    boundary_is_candidate features targets f0 i0 hi1 hi2 hq
  rw [hres, hr]
  simp only
  rw [if_neg hq, hthr]
  obtain ⟨hL, hR, hLrows, hRrows⟩ := splitData_spec features targets f0 ((a + b) / 2)
  have hLne : models.DecisionTree.leftOf features targets f0 ((a + b) / 2) ≠ [] := by
    obtain ⟨i, hi, hia⟩ := List.mem_map.mp ha
    intro hnil
    have hmem : targets.getD i 0 ∈
        models.DecisionTree.leftOf features targets f0 ((a + b) / 2) := by
      unfold models.DecisionTree.leftOf
      refine List.mem_map.mpr ⟨i, List.mem_filter.mpr ⟨hi, ?_⟩, rfl⟩
      rw [decide_eq_true_iff, hia]
      linarith
    rw [hnil] at hmem
    exact absurd hmem (List.not_mem_nil _)
  have hRne : models.DecisionTree.rightOf features targets f0 ((a + b) / 2) ≠ [] := by
    obtain ⟨i, hi, hib⟩ := List.mem_map.mp hb
    intro hnil
    have hmem : targets.getD i 0 ∈
        models.DecisionTree.rightOf features targets f0 ((a + b) / 2) := by
      unfold models.DecisionTree.rightOf
      refine List.mem_map.mpr ⟨i, List.mem_filter.mpr ⟨hi, ?_⟩, rfl⟩
      rw [decide_eq_true_iff, hib]
      intro hle
      linarith
    rw [hnil] at hmem
    exact absurd hmem (List.not_mem_nil _)
  refine ⟨f0, (a + b) / 2, by rw [hl]; simp, hLne, hRne, ?_⟩
  obtain ⟨vL, hvL, hvL2⟩ := buildTree_small self shuffle (path ++ [false]) _
    (models.DecisionTree.splitData features targets f0 ((a + b) / 2)).2.2.1 (depth + 1) hLrows
  obtain ⟨vR, hvR, hvR2⟩ := buildTree_small self shuffle (path ++ [true]) _
    (models.DecisionTree.splitData features targets f0 ((a + b) / 2)).2.2.2 (depth + 1) hRrows
  rw [hvL, hvR, hvL2 (by rw [hL]; exact hLne), hvR2 (by rw [hR]; exact hRne), hL, hR]

/-! ## Claims on the trained tree -/

/-- `predict` returns, row by row, what the walk from the root returns. -/
theorem predict_eq_map (self : models.DecisionTree) (tree : models.DecisionTreeNode)
    (hroot : self.root_ = some tree) (features : utils.Matrix) (g : Nat → Option ℚ)
    (h : ∀ i, i < features.rows_ → tree.walk (features.data_.getD i []) = .ok (g i)) :
    self.predict features = .ok ((List.range features.rows_).map g) := by
  unfold models.DecisionTree.predict
  rw [hroot]
  simp only
  have key : ∀ n, n ≤ features.rows_ →
      (List.range n).foldlM (fun predictions i =>
        match tree.walk (features.data_.getD i []) with
        | Except.error e => (Except.error e : Except Error (List (Option ℚ)))
        | Except.ok value => Except.ok (predictions ++ [value])) [] =
        Except.ok ((List.range n).map g) := by
    intro n
    induction n with
    | zero => intro _; rfl
    | succ n ih =>
      intro hn
      rw [foldlM_range_succ, ih (by omega)]
      simp only
      rw [h n (by omega), List.range_succ, List.map_append]
      rfl
  exact key features.rows_ (Nat.le_refl _)

/-- The targets in row order are the target vector. -/
theorem map_getD_range (targets : List ℚ) :
    (List.range targets.length).map (fun i => targets.getD i 0) = targets := by
  apply List.ext_getElem
  · rw [List.length_map, List.length_range]
  · intro i h1 h2
    rw [List.getElem_map, List.getElem_range, List.getD_eq_getElem _ _ h2]

/-- On a tree that is one leaf every row is routed to the leaf. -/
theorem reaching_leaf (value : Option ℚ) (features : utils.Matrix) (targets : List ℚ)
    (hcount : features.rows_ = targets.length) :
    models.DecisionTree.reaching (.leaf value) features targets [] = targets := by
  unfold models.DecisionTree.reaching
  simp only [models.DecisionTreeNode.route, decide_True, List.filter_true]
  rw [hcount]
  exact map_getD_range targets

/-- On a tree that is one split the rows routed to the left leaf are the rows on the left of
the split, and the rows routed to the right leaf are the rows on its right. -/
theorem reaching_split (f : Nat) (t : ℚ) (vL vR : Option ℚ) (features : utils.Matrix)
    (targets : List ℚ) :
    models.DecisionTree.reaching (.node f t (.leaf vL) (.leaf vR)) features targets [false] =
        models.DecisionTree.leftOf features targets f t ∧
      models.DecisionTree.reaching (.node f t (.leaf vL) (.leaf vR)) features targets [true] =
        models.DecisionTree.rightOf features targets f t := by
  unfold models.DecisionTree.reaching models.DecisionTree.leftOf models.DecisionTree.rightOf
  constructor
  · congr 1
    apply List.filter_congr
    intro i _
    simp only [models.DecisionTreeNode.route, utils.Matrix.get]
    by_cases h : (features.data_.getD i []).getD f 0 ≤ t <;> simp [h]
  · congr 1
    apply List.filter_congr
    intro i _
    simp only [models.DecisionTreeNode.route, utils.Matrix.get]
    by_cases h : (features.data_.getD i []).getD f 0 ≤ t <;> simp [h]

/-- C11: for every decision tree trained successfully with all features searched, every leaf
of the tree is reached by at least one training row and its value is the arithmetic mean of
the targets of the training rows that reach it under the prediction traversal (left when the
value of the row at the feature of the node is `≤` the threshold, else right); and `predict`
on the training rows returns, for each row, the mean target of the training rows routed to
the same leaf. -/
theorem C11_leaf_is_mean_of_reaching_targets (self : models.DecisionTree)
    (shuffle : models.Shuffle) (features : utils.Matrix) (targets : List ℚ)
    (hwf : features.WF) (hcount : features.rows_ = targets.length)
    (hrows : features.rows_ ≠ 0)
    (hall : self.maxFeatures_ = 0 ∨ features.cols_ ≤ self.maxFeatures_) :
    ∃ tree, (self.train shuffle features targets).1 = .ok true ∧
      (self.train shuffle features targets).2.root_ = some tree ∧
      (∀ path value, tree.leafAt path = some value →
        models.DecisionTree.reaching tree features targets path ≠ [] ∧
        value = some ((models.DecisionTree.reaching tree features targets path).sum /
          (models.DecisionTree.reaching tree features targets path).length)) ∧
      (self.train shuffle features targets).2.predict features =
        .ok ((List.range features.rows_).map (fun i =>
          some ((models.DecisionTree.reaching tree features targets
              (tree.route (features.data_.getD i []))).sum /
            (models.DecisionTree.reaching tree features targets
              (tree.route (features.data_.getD i []))).length))) := by
  have hguard : ¬ (features.rows_ ≠ targets.length ∨ features.rows_ = 0) := by
    rintro (h | h)
    · exact h hcount
    · exact hrows h
  have hne : targets ≠ [] := by
    intro h
    rw [h] at hcount
    exact hrows hcount
  -- the model that builds the tree
  obtain ⟨self2, hself2, hidx⟩ : ∃ self2 : models.DecisionTree,
      self.train shuffle features targets =
        (.ok true, ⟨some (self2.buildTree shuffle [] features targets 0), self2.maxDepth_,
          self2.minSamplesSplit_, self2.maxFeatures_⟩) ∧
      self2.featureIndices shuffle [] features = List.range features.cols_ := by
    refine ⟨if self.maxFeatures_ = 0 then { self with maxFeatures_ := features.cols_ }
      else self, ?_, ?_⟩
    · unfold models.DecisionTree.train
      rw [if_neg hguard]
    · unfold models.DecisionTree.featureIndices
      by_cases h0 : self.maxFeatures_ = 0
      · rw [if_pos h0, if_neg (Nat.lt_irrefl _)]
      · rw [if_neg h0, if_neg (by
          rcases hall with h | h
          · exact absurd h h0
          · omega)]
  rw [hself2]
  have hshape := buildTree_shape self2 shuffle [] features targets 0 hne
  rw [hidx] at hshape
  generalize self2.buildTree shuffle [] features targets 0 = tree at hshape ⊢
  refine ⟨tree, rfl, rfl, ?_⟩
  rcases hshape with hleaf | ⟨f, t, hf, hL, hR, hnode⟩
  · -- the tree is one leaf
    subst hleaf
    have hreach := reaching_leaf (some (targets.sum / targets.length)) features targets hcount
    refine ⟨?_, ?_⟩
    · intro path value hv
      cases path with
      | nil =>
        simp only [models.DecisionTreeNode.leafAt, Option.some.injEq] at hv
        rw [hreach]
        exact ⟨hne, hv.symm⟩
      | cons b rest => simp [models.DecisionTreeNode.leafAt] at hv
    · rw [predict_eq_map ⟨some (.leaf (some (targets.sum / targets.length))), self2.maxDepth_,
        self2.minSamplesSplit_, self2.maxFeatures_⟩ _ rfl features
        (fun _ => some (targets.sum / targets.length)) (fun i _ => rfl)]
      congr 1
      apply List.map_congr_left
      intro i _
      simp only [models.DecisionTreeNode.route]
      rw [hreach]
  · -- the tree is one split
    obtain ⟨vL, hvL⟩ : ∃ vL, vL = some ((models.DecisionTree.leftOf features targets f t).sum /
      (models.DecisionTree.leftOf features targets f t).length) := ⟨_, rfl⟩
    obtain ⟨vR, hvR⟩ : ∃ vR, vR = some ((models.DecisionTree.rightOf features targets f t).sum /
      (models.DecisionTree.rightOf features targets f t).length) := ⟨_, rfl⟩
    rw [← hvL, ← hvR] at hnode
    subst hnode
    obtain ⟨hrouteL, hrouteR⟩ := reaching_split f t vL vR features targets
    have hfc : f < features.cols_ := List.mem_range.mp hf
    have hrowlen : ∀ i, i < features.rows_ → (features.data_.getD i []).length =
        features.cols_ := by
      intro i hi
      have hil : i < features.data_.length := by rw [hwf.1]; exact hi
      rw [List.getD_eq_getElem _ _ hil]
      exact hwf.2 _ (List.getElem_mem _)
    refine ⟨?_, ?_⟩
    · intro path value hv
      cases path with
      | nil => simp [models.DecisionTreeNode.leafAt] at hv
      | cons b rest =>
        cases rest with
        | cons c rest2 => cases b <;> simp [models.DecisionTreeNode.leafAt] at hv
        | nil =>
          cases b with
          | false =>
            simp only [models.DecisionTreeNode.leafAt, Option.some.injEq] at hv
            rw [hrouteL, ← hvL]
            exact ⟨hL, hv.symm⟩
          | true =>
            simp only [models.DecisionTreeNode.leafAt, Option.some.injEq] at hv
            rw [hrouteR, ← hvR]
            exact ⟨hR, hv.symm⟩
    · rw [predict_eq_map ⟨some (.node f t (.leaf vL) (.leaf vR)), self2.maxDepth_,
        self2.minSamplesSplit_, self2.maxFeatures_⟩ _ rfl features
        (fun i => if features.get i f ≤ t then vL else vR) (by
          intro i hi
          have hlt : f < (features.data_.getD i []).length := by
            rw [hrowlen i hi]; exact hfc
          have hsome : (features.data_.getD i [])[f]? = some (features.get i f) := by
            rw [List.getElem?_eq_getElem hlt]
            exact congrArg some (List.getD_eq_getElem _ 0 hlt).symm
          simp only [models.DecisionTreeNode.walk, hsome]
          by_cases h : features.get i f ≤ t
          · rw [if_pos h, if_pos h]
          · rw [if_neg h, if_neg h])]
      congr 1
      apply List.map_congr_left
      intro i _
      have hget : (features.data_.getD i []).getD f 0 = features.get i f := rfl
      by_cases h : features.get i f ≤ t
      · have hroute : (models.DecisionTreeNode.node f t (.leaf vL) (.leaf vR)).route
            (features.data_.getD i []) = [false] := by
          simp only [models.DecisionTreeNode.route, hget, if_pos h]
        rw [hroute, hrouteL, if_pos h, hvL]
      · have hroute : (models.DecisionTreeNode.node f t (.leaf vL) (.leaf vR)).route
            (features.data_.getD i []) = [true] := by
          simp only [models.DecisionTreeNode.route, hget, if_neg h]
        rw [hroute, hrouteR, if_neg h, hvR]

/-- C11 at the rows `1, 2, 3, 4` with the targets `0, 1, 0, 1`. -/
theorem C11_leaf_is_mean_of_reaching_targets_witness :
    ∃ tree, (models.DecisionTree.train ⟨none, 3, 2, 0⟩ examples.noShuffle examples.fourRows
        [0, 1, 0, 1]).1 = .ok true ∧
      (models.DecisionTree.train ⟨none, 3, 2, 0⟩ examples.noShuffle examples.fourRows
        [0, 1, 0, 1]).2.root_ = some tree ∧
      (∀ path value, tree.leafAt path = some value →
        models.DecisionTree.reaching tree examples.fourRows [0, 1, 0, 1] path ≠ [] ∧
        value = some ((models.DecisionTree.reaching tree examples.fourRows [0, 1, 0, 1]
            path).sum /
          (models.DecisionTree.reaching tree examples.fourRows [0, 1, 0, 1] path).length)) ∧
      (models.DecisionTree.train ⟨none, 3, 2, 0⟩ examples.noShuffle examples.fourRows
          [0, 1, 0, 1]).2.predict examples.fourRows =
        .ok ((List.range examples.fourRows.rows_).map (fun i =>
          some ((models.DecisionTree.reaching tree examples.fourRows [0, 1, 0, 1]
              (tree.route (examples.fourRows.data_.getD i []))).sum /
            (models.DecisionTree.reaching tree examples.fourRows [0, 1, 0, 1]
              (tree.route (examples.fourRows.data_.getD i []))).length))) :=
  C11_leaf_is_mean_of_reaching_targets ⟨none, 3, 2, 0⟩ examples.noShuffle examples.fourRows
    [0, 1, 0, 1] (by decide) rfl (by decide) (Or.inl rfl)

/-- C12, evaluated where it fails: with `minSamplesSplit = 0` and `depth = 0 < maxDepth = 1`
the guard of lines 59-65 is not taken on an empty target vector, the search finds no split,
and the leaf value of line 94 is the quotient `0.0 / 0` of the empty sum by
`targets.size() = 0`, which is no number, not 0. The sibling leaf path (the same call with
`minSamplesSplit = 1`) has the emptiness check and returns the leaf of value 0. -/
theorem C12_empty_targets_divide_by_zero :
    models.DecisionTree.buildTree ⟨none, 1, 0, 1⟩ examples.noShuffle []
        (utils.Matrix.ofSize 0 1) [] 0 = .leaf none ∧
      models.DecisionTree.buildTree ⟨none, 1, 1, 1⟩ examples.noShuffle []
        (utils.Matrix.ofSize 0 1) [] 0 = .leaf (some 0) := by
  constructor <;> decide!

/-- The tree `buildTree` returns at depth `depth` is no higher than `maxDepth - depth`. -/
theorem buildTree_height (self : models.DecisionTree) (shuffle : models.Shuffle) (n : Nat) :
    ∀ (path : List Bool) (features : utils.Matrix) (targets : List ℚ) (depth : Nat),
      self.maxDepth_ - depth ≤ n →
      (self.buildTree shuffle path features targets depth).height ≤
        self.maxDepth_ - depth := by
  induction n with
  | zero =>
    intro path features targets depth hn
    rw [models.DecisionTree.buildTree, dif_pos (Or.inl (by omega))]
    exact Nat.zero_le _
  | succ n ih =>
    intro path features targets depth hn
    by_cases hguard : depth ≥ self.maxDepth_ ∨ targets.length < self.minSamplesSplit_
    · rw [models.DecisionTree.buildTree, dif_pos hguard]
      exact Nat.zero_le _
    · rw [buildTree_eq self shuffle path features targets depth hguard]
      have hdepth : depth < self.maxDepth_ := by
        by_contra h
        exact hguard (Or.inl (by omega))
      by_cases htop : (models.DecisionTree.bestSplit features targets
          (self.featureIndices shuffle path features)).1 = ⊤
      · rw [if_pos htop]
        exact Nat.zero_le _
      · rw [if_neg htop]
        simp only [models.DecisionTreeNode.height]
        have h1 := ih (path ++ [false])
          (models.DecisionTree.splitData features targets
            (models.DecisionTree.bestSplit features targets
              (self.featureIndices shuffle path features)).2.1
            (models.DecisionTree.bestSplit features targets
              (self.featureIndices shuffle path features)).2.2).1
          (models.DecisionTree.splitData features targets
            (models.DecisionTree.bestSplit features targets
              (self.featureIndices shuffle path features)).2.1
            (models.DecisionTree.bestSplit features targets
              (self.featureIndices shuffle path features)).2.2).2.2.1 (depth + 1) (by omega)
        have h2 := ih (path ++ [true])
          (models.DecisionTree.splitData features targets
            (models.DecisionTree.bestSplit features targets
              (self.featureIndices shuffle path features)).2.1
            (models.DecisionTree.bestSplit features targets
              (self.featureIndices shuffle path features)).2.2).2.1
          (models.DecisionTree.splitData features targets
            (models.DecisionTree.bestSplit features targets
              (self.featureIndices shuffle path features)).2.1
            (models.DecisionTree.bestSplit features targets
              (self.featureIndices shuffle path features)).2.2).2.2.2 (depth + 1) (by omega)
        have hmax := max_le h1 h2
        omega

/-- C13: `buildTree` is a total function (it terminates on every input), the tree it returns
at depth `depth` has height at most `maxDepth - depth`, at `depth ≥ maxDepth` it returns a
leaf, and the tree a successful `train` stores has height at most `maxDepth`. -/
theorem C13_tree_height_bounded (self : models.DecisionTree) (shuffle : models.Shuffle)
    (path : List Bool) (features : utils.Matrix) (targets : List ℚ) (depth : Nat) :
    (self.buildTree shuffle path features targets depth).height ≤ self.maxDepth_ - depth ∧
      (self.maxDepth_ ≤ depth →
        ∃ value, self.buildTree shuffle path features targets depth = .leaf value) ∧
      ((self.train shuffle features targets).1 = .ok true →
        ∃ tree, (self.train shuffle features targets).2.root_ = some tree ∧
          tree.height ≤ self.maxDepth_) := by
  refine ⟨buildTree_height self shuffle _ path features targets depth (Nat.le_refl _), ?_, ?_⟩
  · intro h
    rw [models.DecisionTree.buildTree, dif_pos (Or.inl h)]
    exact ⟨_, rfl⟩
  · unfold models.DecisionTree.train
    by_cases hguard : features.rows_ ≠ targets.length ∨ features.rows_ = 0
    · rw [if_pos hguard]
      intro h
      simp at h
    · rw [if_neg hguard]
      intro _
      refine ⟨_, rfl, ?_⟩
      have := buildTree_height
        (if self.maxFeatures_ = 0 then { self with maxFeatures_ := features.cols_ } else self)
        shuffle _ [] features targets 0 (Nat.le_refl _)
      have hd : (if self.maxFeatures_ = 0 then
          ({ self with maxFeatures_ := features.cols_ } : models.DecisionTree)
          else self).maxDepth_ = self.maxDepth_ := by
        split_ifs <;> rfl
      rw [hd] at this
      exact this

/-- C14, evaluated where it fails: a model constructed with `maxFeatures = 0` and trained on
one column keeps `maxFeatures_ = 1`; retrained on the two columns `[[0, 1], [0, 2]]` with the
targets `0, 1` it searches one column only (column 0 when the shuffle leaves the indices in
order) and stores a leaf, while a fresh model with the same `maxDepth` and
`minSamplesSplit` searches both columns and stores the split on column 1. -/
theorem C14_retrain_keeps_first_feature_count :
    (models.DecisionTree.train ⟨none, 1, 2, 0⟩ examples.noShuffle examples.twoRows
        [0, 1]).1 = .ok true ∧
      (models.DecisionTree.train ⟨none, 1, 2, 0⟩ examples.noShuffle examples.twoRows
        [0, 1]).2.maxFeatures_ = 1 ∧
      models.DecisionTree.featureIndices
        (models.DecisionTree.train ⟨none, 1, 2, 0⟩ examples.noShuffle examples.twoRows
          [0, 1]).2 examples.noShuffle [] examples.twoColumns = [0] ∧
      models.DecisionTree.train
        (models.DecisionTree.train ⟨none, 1, 2, 0⟩ examples.noShuffle examples.twoRows
          [0, 1]).2 examples.noShuffle examples.twoColumns [0, 1] =
        (.ok true, ⟨some (.leaf (some (1 / 2))), 1, 2, 1⟩) ∧
      models.DecisionTree.train ⟨none, 1, 2, 0⟩ examples.noShuffle examples.twoColumns
        [0, 1] =
        (.ok true, ⟨some (.node 1 (3 / 2) (.leaf (some 0)) (.leaf (some 1))), 1, 2, 2⟩) := by
  refine ⟨by decide!, by decide!, by decide!, by decide!, by decide!⟩

/-! ## K nearest neighbours -/

/-- A counted loop that can throw and whose every pass returns. -/
theorem foldlM_range_ok {α : Type} (f : α → Nat → Except Error α) (g : α → Nat → α) (n : Nat)
    (init : α) (h : ∀ a i, i < n → f a i = .ok (g a i)) :
    (List.range n).foldlM f init = .ok ((List.range n).foldl g init) := by
  induction n with
  | zero => rfl
  | succ n ih =>
    rw [foldlM_range_succ, ih (fun a i hi => h a i (Nat.lt_succ_of_lt hi))]
    simp only
    rw [h _ n (Nat.lt_succ_self n), List.range_succ, List.foldl_append]
    rfl

/-- A counted loop whose first pass throws. -/
theorem foldlM_range_first_error {α : Type} (f : α → Nat → Except Error α) (n : Nat)
    (init : α) (e : Error) (hn : 0 < n) (h : f init 0 = .error e) :
    (List.range n).foldlM f init = .error e := by
  induction n with
  | zero => omega
  | succ n ih =>
    rw [foldlM_range_succ]
    by_cases h0 : n = 0
    · subst h0
      exact h
    · rw [ih (Nat.pos_of_ne_zero h0)]

/-- The squared distance of `euclideanDistance`. -/
theorem euclideanDistance_eq (libm : models.Libm) (a b : List ℚ)
    (hlen : a.length = b.length) :
    models.KNNClassifier.euclideanDistance libm a b =
      .ok (libm.sqrt (∑ i in Finset.range a.length,
        (a.getD i 0 - b.getD i 0) * (a.getD i 0 - b.getD i 0))) := by
  unfold models.KNNClassifier.euclideanDistance
  rw [if_neg (by simpa using hlen)]
  simp only
  rw [foldl_add_range]

/-- The squared distance is 0 exactly between identical rows. -/
theorem sum_sq_eq_zero_iff (a b : List ℚ) (hlen : a.length = b.length) :
    (∑ i in Finset.range a.length,
      (a.getD i 0 - b.getD i 0) * (a.getD i 0 - b.getD i 0)) = 0 ↔ a = b := by
  constructor
  · intro h
    rw [Finset.sum_eq_zero_iff_of_nonneg (fun _ _ => mul_self_nonneg _)] at h
    apply List.ext_getElem hlen
    intro i h1 h2
    have := h i (Finset.mem_range.mpr h1)
    rw [mul_self_eq_zero, sub_eq_zero, List.getD_eq_getElem _ _ h1,
      List.getD_eq_getElem _ _ h2] at this
    exact this
  · intro h
    subst h
    simp

theorem sum_sq_nonneg (a b : List ℚ) :
    0 ≤ ∑ i in Finset.range a.length,
      (a.getD i 0 - b.getD i 0) * (a.getD i 0 - b.getD i 0) :=
  Finset.sum_nonneg (fun _ _ => mul_self_nonneg _)

/-- The rows of a well-formed matrix have `cols_` cells. -/
theorem row_length {m : utils.Matrix} (hwf : m.WF) {i : Nat} (hi : i < m.rows_) :
    (m.data_.getD i []).length = m.cols_ := by
  have hil : i < m.data_.length := by rw [hwf.1]; exact hi
  rw [List.getD_eq_getElem _ _ hil]
  exact hwf.2 _ (List.getElem_mem _)

/-- The vector `distances` for a query row of the training width: one pair (distance, target)
for every stored row, in the order of the rows. -/
theorem distances_spec (libm : models.Libm) (self : models.KNNClassifier) (query : List ℚ)
    (hwf : self.trainFeatures_.WF)
    (hcount : self.trainFeatures_.rows_ = self.trainTargets_.length)
    (hq : query.length = self.trainFeatures_.cols_) :
    self.distances libm query =
      .ok ((List.range self.trainFeatures_.rows_).map (fun j =>
        (libm.sqrt (∑ i in Finset.range query.length,
          (query.getD i 0 - (self.trainFeatures_.data_.getD j []).getD i 0) *
            (query.getD i 0 - (self.trainFeatures_.data_.getD j []).getD i 0)),
          self.trainTargets_.getD j 0))) := by
  unfold models.KNNClassifier.distances
  rw [foldlM_range_ok _ (fun distances j => distances ++
    [(libm.sqrt (∑ i in Finset.range query.length,
        (query.getD i 0 - (self.trainFeatures_.data_.getD j []).getD i 0) *
          (query.getD i 0 - (self.trainFeatures_.data_.getD j []).getD i 0)),
      self.trainTargets_.getD j 0)])]
  · rw [foldl_push, List.nil_append]
  · intro acc j hj
    rw [euclideanDistance_eq libm query _ (by rw [hq, row_length hwf hj])]
    simp only
    have hjt : j < self.trainTargets_.length := by rw [← hcount]; exact hj
    rw [List.getElem?_eq_getElem hjt, List.getD_eq_getElem _ _ hjt]

/-- A query row of another width than the stored rows: the first distance throws. -/
theorem distances_mismatch (libm : models.Libm) (self : models.KNNClassifier)
    (query : List ℚ) (hwf : self.trainFeatures_.WF) (hrows : 0 < self.trainFeatures_.rows_)
    (hq : query.length ≠ self.trainFeatures_.cols_) :
    self.distances libm query = .error .invalid_argument := by
  unfold models.KNNClassifier.distances
  apply foldlM_range_first_error _ _ _ _ hrows
  unfold models.KNNClassifier.euclideanDistance
  rw [if_pos (by rw [row_length hwf hrows]; exact hq)]

/-- `predict` returns, row by row, what the loop body returns. -/
theorem knn_predict_eq_map (libm : models.Libm) (self : models.KNNClassifier)
    (features : utils.Matrix) (g : Nat → ℚ)
    (h : ∀ i, i < features.rows_ → self.predictRow libm (features.data_.getD i []) =
      .ok (g i)) :
    self.predict libm features = .ok ((List.range features.rows_).map g) := by
  unfold models.KNNClassifier.predict
  rw [foldlM_range_ok _ (fun predictions i => predictions.set i (g i))]
  · congr 1
    have key := foldl_range_inv
      (fun k (l : List ℚ) => l.length = features.rows_ ∧ ∀ i, i < k → l.getD i 0 = g i)
      (fun predictions i => predictions.set i (g i)) features.rows_
      (List.replicate features.rows_ 0)
      ⟨List.length_replicate _ _, fun _ h => absurd h (Nat.not_lt_zero _)⟩
      (by
        intro k l hk ⟨hl, hdone⟩
        refine ⟨by rw [List.length_set]; exact hl, ?_⟩
        intro i hi
        by_cases hik : i = k
        · subst hik
          rw [List.getD_eq_getElem _ _ (by rw [List.length_set]; omega), List.getElem_set_self]
        · rw [List.getD_eq_getElem _ _ (by rw [List.length_set]; omega),
            List.getElem_set_ne (by omega), ← List.getD_eq_getElem _ 0 (by omega)]
          exact hdone i (by omega))
    apply List.ext_getElem
    · rw [key.1, List.length_map, List.length_range]
    · intro i h1 h2
      rw [List.getElem_map, List.getElem_range, ← List.getD_eq_getElem _ 0 h1]
      exact key.2 i (by rw [key.1] at h1; exact h1)
  · intro acc i hi
    rw [h i hi]

/-! ## The vote tally -/

/-- The keys of the map after `++classVotes[target]`: ascending, the old keys and `target`. -/
theorem vote_keys (m : List (ℚ × Int)) (t : ℚ)
    (hs : (m.map Prod.fst).Pairwise (· < ·)) :
    ((models.KNNClassifier.vote m t).map Prod.fst).Pairwise (· < ·) ∧
      ∀ k, k ∈ (models.KNNClassifier.vote m t).map Prod.fst ↔ k = t ∨ k ∈ m.map Prod.fst := by
  induction m with
  | nil => simp [models.KNNClassifier.vote]
  | cons kc rest ih =>
    obtain ⟨key, count⟩ := kc
    rw [List.map_cons, List.pairwise_cons] at hs
    obtain ⟨hhead, htail⟩ := hs
    unfold models.KNNClassifier.vote
    by_cases h1 : t < key
    · rw [if_pos h1]
      refine ⟨?_, ?_⟩
      · simp only [List.map_cons, List.pairwise_cons, List.mem_cons]
        refine ⟨?_, hhead, htail⟩
        rintro a (ha | ha)
        · rw [ha]; exact h1
        · exact lt_trans h1 (hhead a ha)
      · intro k
        simp only [List.map_cons, List.mem_cons]
    · rw [if_neg h1]
      by_cases h2 : key = t
      · rw [if_pos h2]
        refine ⟨?_, ?_⟩
        · simp only [List.map_cons, List.pairwise_cons]
          exact ⟨hhead, htail⟩
        · intro k
          simp only [List.map_cons, List.mem_cons]
          constructor
          · intro h; exact Or.inr h
          · rintro (h | h)
            · exact Or.inl (h.trans h2.symm)
            · exact h
      · rw [if_neg h2]
        obtain ⟨ih1, ih2⟩ := ih htail
        have hlt : key < t := lt_of_le_of_ne (not_lt.mp h1) h2
        refine ⟨?_, ?_⟩
        · simp only [List.map_cons, List.pairwise_cons]
          refine ⟨?_, ih1⟩
          intro a ha
          rcases (ih2 a).mp ha with h | h
          · rw [h]; exact hlt
          · exact hhead a h
        · intro k
          simp only [List.map_cons, List.mem_cons]
          rw [ih2 k]
          tauto

/-- The entries of the map after `++classVotes[target]`. -/
theorem vote_mem (m : List (ℚ × Int)) (t : ℚ) (hs : (m.map Prod.fst).Pairwise (· < ·))
    (kc : ℚ × Int) (h : kc ∈ models.KNNClassifier.vote m t) :
    (kc ∈ m ∧ kc.1 ≠ t) ∨
      (kc.1 = t ∧ ((∃ c, (t, c) ∈ m ∧ kc.2 = c + 1) ∨ (t ∉ m.map Prod.fst ∧ kc.2 = 1))) := by
  induction m with
  | nil =>
    simp only [models.KNNClassifier.vote, List.mem_singleton] at h
    subst h
    exact Or.inr ⟨rfl, Or.inr ⟨by simp, rfl⟩⟩
  | cons kc2 rest ih =>
    obtain ⟨key, count⟩ := kc2
    rw [List.map_cons, List.pairwise_cons] at hs
    obtain ⟨hhead, htail⟩ := hs
    unfold models.KNNClassifier.vote at h
    by_cases h1 : t < key
    · rw [if_pos h1, List.mem_cons] at h
      rcases h with h | h
      · subst h
        refine Or.inr ⟨rfl, Or.inr ⟨?_, rfl⟩⟩
        simp only [List.map_cons, List.mem_cons]
        rintro (h3 | h3)
        · exact absurd h1 (by rw [h3]; exact lt_irrefl _)
        · exact absurd (lt_trans h1 (hhead _ h3)) (lt_irrefl _)
      · refine Or.inl ⟨h, ?_⟩
        intro heq
        rcases List.mem_cons.mp h with h3 | h3
        · rw [h3] at heq
          exact absurd h1 (by rw [← heq]; exact lt_irrefl _)
        · have := hhead kc.1 (List.mem_map.mpr ⟨kc, h3, rfl⟩)
          rw [heq] at this
          exact absurd (lt_trans h1 this) (lt_irrefl _)
    · rw [if_neg h1] at h
      by_cases h2 : key = t
      · subst h2
        rw [if_pos rfl, List.mem_cons] at h
        rcases h with h | h
        · subst h
          exact Or.inr ⟨rfl, Or.inl ⟨count, List.mem_cons_self _ _, rfl⟩⟩
        · refine Or.inl ⟨List.mem_cons_of_mem _ h, ?_⟩
          intro heq
          have := hhead kc.1 (List.mem_map.mpr ⟨kc, h, rfl⟩)
          rw [heq] at this
          exact absurd this (lt_irrefl _)
      · rw [if_neg h2, List.mem_cons] at h
        rcases h with h | h
        · subst h
          exact Or.inl ⟨List.mem_cons_self _ _, h2⟩
        · rcases ih htail h with ⟨h3, h4⟩ | ⟨h3, h4⟩
          · exact Or.inl ⟨List.mem_cons_of_mem _ h3, h4⟩
          · right
            refine ⟨h3, ?_⟩
            rcases h4 with ⟨c, hc, hc2⟩ | ⟨hn, hc⟩
            · exact Or.inl ⟨c, List.mem_cons_of_mem _ hc, hc2⟩
            · right
              refine ⟨?_, hc⟩
              simp only [List.map_cons, List.mem_cons]
              rintro (h5 | h5)
              · exact h2 h5.symm
              · exact hn h5

/-- The map after the tally of a list of targets: ascending keys, one entry for each distinct
target, holding the number of its occurrences. -/
theorem votes_spec (targets : List ℚ) :
    ((targets.foldl models.KNNClassifier.vote []).map Prod.fst).Pairwise (· < ·) ∧
      (∀ kc ∈ targets.foldl models.KNNClassifier.vote [],
        kc.2 = (targets.count kc.1 : Int) ∧ kc.1 ∈ targets) ∧
      ∀ k ∈ targets, k ∈ (targets.foldl models.KNNClassifier.vote []).map Prod.fst := by
  induction targets using List.reverseRecOn with
  | nil => simp
  | append_singleton p t ih =>
    obtain ⟨hs, hcount, hcover⟩ := ih
    rw [List.foldl_append, List.foldl_cons, List.foldl_nil]
    generalize p.foldl models.KNNClassifier.vote [] = m at hs hcount hcover
    obtain ⟨hk1, hk2⟩ := vote_keys m t hs
    refine ⟨hk1, ?_, ?_⟩
    · intro kc hkc
      rcases vote_mem m t hs kc hkc with ⟨h1, h2⟩ | ⟨h1, h2⟩
      · obtain ⟨h3, h4⟩ := hcount kc h1
        refine ⟨?_, List.mem_append_left _ h4⟩
        rw [List.count_append, h3, List.count_singleton, if_neg (by
          simp only [beq_iff_eq]; exact fun h => h2 h.symm)]
        simp
      · refine ⟨?_, by rw [h1]; simp⟩
        rw [h1, List.count_append, List.count_singleton, if_pos (by simp)]
        rcases h2 with ⟨c, hc, hc2⟩ | ⟨hn, hc⟩
        · rw [hc2]
          have := (hcount _ hc).1
          simp only at this
          rw [this]
          simp
        · rw [hc, List.count_eq_zero.mpr (fun hp => hn (hcover t hp))]
          simp
    · intro k hk
      rw [hk2]
      rcases List.mem_append.mp hk with h | h
      · exact Or.inr (hcover k h)
      · rw [List.mem_singleton] at h
        exact Or.inl h

/-- The tally loop over the positions `0 .. k_ - 1` is the tally of the first `k_` targets. -/
theorem tally_eq (nearest : List (ℚ × ℚ)) :
    models.KNNClassifier.tally nearest.length nearest =
      (nearest.map Prod.snd).foldl models.KNNClassifier.vote [] := by
  unfold models.KNNClassifier.tally
  have key := foldl_range_inv
    (fun k (votes : List (ℚ × Int)) =>
      votes = ((nearest.take k).map Prod.snd).foldl models.KNNClassifier.vote [])
    (fun classVotes j => models.KNNClassifier.vote classVotes (nearest.getD j (0, 0)).2)
    nearest.length [] (by simp)
    (by
      intro k votes hk hv
      show models.KNNClassifier.vote votes (nearest.getD k (0, 0)).2 = _
      rw [hv, List.take_succ, List.map_append, List.foldl_append,
        List.getElem?_eq_getElem hk, List.getD_eq_getElem _ _ hk]
      simp)
  rw [key, List.take_length]

/-- The call of `std::max_element` on a non-empty map: an entry that no earlier entry equals
or beats and no later entry beats. -/
theorem maxElement_spec (m : List (ℚ × Int)) (hne : m ≠ []) :
    ∃ e l1 l2, models.KNNClassifier.maxElement m = some e ∧ m = l1 ++ e :: l2 ∧
      (∀ x ∈ l1, x.2 < e.2) ∧ ∀ x ∈ l2, x.2 ≤ e.2 := by
  cases m with
  | nil => exact absurd rfl hne
  | cons first rest =>
    show ∃ e l1 l2,
      some (rest.foldl (fun largest it => if largest.2 < it.2 then it else largest) first) =
          some e ∧ first :: rest = l1 ++ e :: l2 ∧ (∀ x ∈ l1, x.2 < e.2) ∧ ∀ x ∈ l2, x.2 ≤ e.2
    clear hne
    induction rest using List.reverseRecOn with
    | nil =>
      exact ⟨first, [], [], rfl, rfl, fun _ h => absurd h (List.not_mem_nil _),
        fun _ h => absurd h (List.not_mem_nil _)⟩
    | append_singleton rest a ih =>
      obtain ⟨e, l1, l2, he, hm, hbefore, hafter⟩ := ih
      rw [List.foldl_append, List.foldl_cons, List.foldl_nil]
      simp only [Option.some.injEq] at he
      rw [he]
      by_cases ha : e.2 < a.2
      · rw [if_pos ha]
        refine ⟨a, first :: rest, [], rfl, by simp, ?_, fun _ h => absurd h (List.not_mem_nil _)⟩
        intro x hx
        rw [hm] at hx
        rcases List.mem_append.mp hx with h | h
        · exact lt_trans (hbefore x h) ha
        · rcases List.mem_cons.mp h with h2 | h2
          · rw [h2]; exact ha
          · exact lt_of_le_of_lt (hafter x h2) ha
      · rw [if_neg ha]
        refine ⟨e, l1, l2 ++ [a], rfl, ?_, hbefore, ?_⟩
        · rw [← List.cons_append, hm]; simp
        · intro x hx
          rcases List.mem_append.mp hx with h | h
          · exact hafter x h
          · rw [List.mem_singleton] at h
            rw [h]
            exact not_lt.mp ha

/-- The value `predict` returns for a tally of at least one target: a target of the largest
number of occurrences, the smallest one among those. -/
theorem majority_spec (targets : List ℚ) (hne : targets ≠ []) :
    ∃ e, models.KNNClassifier.maxElement (targets.foldl models.KNNClassifier.vote []) = some e ∧
      e.1 ∈ targets ∧ (∀ w, targets.count w ≤ targets.count e.1) ∧
      ∀ w, targets.count w = targets.count e.1 → e.1 ≤ w := by
  obtain ⟨hs, hcount, hcover⟩ := votes_spec targets
  have hmne : targets.foldl models.KNNClassifier.vote [] ≠ [] := by
    intro h
    cases targets with
    | nil => exact hne rfl
    | cons t rest =>
      have := hcover t (List.mem_cons_self _ _)
      rw [h] at this
      exact absurd this (List.not_mem_nil _)
  obtain ⟨e, l1, l2, he, hm, hbefore, hafter⟩ := maxElement_spec _ hmne
  generalize targets.foldl models.KNNClassifier.vote [] = m at *
  have hemem : e ∈ m := by rw [hm]; simp
  obtain ⟨hec, het⟩ := hcount e hemem
  have hpos : 0 < targets.count e.1 := List.count_pos_iff.mpr het
  refine ⟨e, he, het, ?_, ?_⟩
  · intro w
    by_cases hw : w ∈ targets
    · obtain ⟨x, hx, hxw⟩ := List.mem_map.mp (hcover w hw)
      have hxc := (hcount x hx).1
      rw [hxw] at hxc
      have hle : x.2 ≤ e.2 := by
        rw [hm] at hx
        rcases List.mem_append.mp hx with h | h
        · exact le_of_lt (hbefore x h)
        · rcases List.mem_cons.mp h with h2 | h2
          · rw [h2]
          · exact hafter x h2
      rw [hxc, hec] at hle
      exact_mod_cast hle
    · rw [List.count_eq_zero.mpr hw]
      exact Nat.zero_le _
  · intro w hw
    have hwmem : w ∈ targets := List.count_pos_iff.mp (by rw [hw]; exact hpos)
    obtain ⟨x, hx, hxw⟩ := List.mem_map.mp (hcover w hwmem)
    have hxc := (hcount x hx).1
    rw [hxw, hw, ← hec] at hxc
    rw [hm] at hx hs
    rw [List.map_append, List.map_cons, List.pairwise_append, List.pairwise_cons] at hs
    rcases List.mem_append.mp hx with h | h
    · exact absurd hxc (ne_of_lt (hbefore x h))
    · rcases List.mem_cons.mp h with h2 | h2
      · rw [← hxw, h2]
      · rw [← hxw]
        exact le_of_lt (hs.2.1.1 x.1 (List.mem_map.mpr ⟨x, h2, rfl⟩))

/-! ## `KNNClassifier::predict` -/

/-- The body of the loop of `predict` on a query row of the training width, with
`1 ≤ k_ ≤` stored rows: the vector of distances, its `k_` smallest pairs, and the value
returned, which is among the targets of those pairs with the largest number of occurrences,
the smallest such. -/
theorem predictRow_spec (libm : models.Libm) (self : models.KNNClassifier) (query : List ℚ)
    (hwf : self.trainFeatures_.WF)
    (hcount : self.trainFeatures_.rows_ = self.trainTargets_.length)
    (hk1 : 1 ≤ self.k_) (hk2 : self.k_ ≤ self.trainFeatures_.rows_)
    (hq : query.length = self.trainFeatures_.cols_) :
    ∃ distances nearest value,
      self.distances libm query = .ok distances ∧
      distances.length = self.trainFeatures_.rows_ ∧
      models.KNNClassifier.nearest self.k_ distances = .ok nearest ∧
      nearest.length = self.k_ ∧
      self.predictRow libm query = .ok value ∧
      value ∈ nearest.map Prod.snd ∧
      (∀ w, (nearest.map Prod.snd).count w ≤ (nearest.map Prod.snd).count value) ∧
      ∀ w, (nearest.map Prod.snd).count w = (nearest.map Prod.snd).count value → value ≤ w := by
  have hd := distances_spec libm self query hwf hcount hq
  obtain ⟨dists, hdists⟩ : ∃ dists, dists = (List.range self.trainFeatures_.rows_).map (fun j =>
        (libm.sqrt (∑ i in Finset.range query.length,
          (query.getD i 0 - (self.trainFeatures_.data_.getD j []).getD i 0) *
            (query.getD i 0 - (self.trainFeatures_.data_.getD j []).getD i 0)),
          self.trainTargets_.getD j 0)) := ⟨_, rfl⟩
  rw [← hdists] at hd
  have hlen : dists.length = self.trainFeatures_.rows_ := by
    rw [hdists, List.length_map, List.length_range]
  obtain ⟨N, hN⟩ : ∃ N, N = (List.insertionSort models.DecisionTree.pairLE dists).take self.k_ :=
    ⟨_, rfl⟩
  have hnear : models.KNNClassifier.nearest self.k_ dists = .ok N := by
    unfold models.KNNClassifier.nearest
    rw [if_neg (by rw [hlen]; omega), hN]
  have hNlen : N.length = self.k_ := by
    rw [hN, List.length_take, List.length_insertionSort, hlen]
    exact Nat.min_eq_left hk2
  have htally := tally_eq N
  rw [hNlen] at htally
  have hne : N.map Prod.snd ≠ [] := by
    intro h
    have := congrArg List.length h
    rw [List.length_map, hNlen] at this
    simp only [List.length_nil] at this
    omega
  obtain ⟨e, he, hmem, hmax, hfirst⟩ := majority_spec (N.map Prod.snd) hne
  refine ⟨dists, N, e.1, hd, hlen, hnear, hNlen, ?_, hmem, hmax, hfirst⟩
  unfold models.KNNClassifier.predictRow
  rw [hd]
  simp only
  rw [hnear]
  simp only
  rw [htally, he]

/-- The outcome of `predict` on a query matrix of the training width, with `1 ≤ k_ ≤` stored
rows: one value for every query row, the one the loop body returns. -/
theorem knn_predict_ok (libm : models.Libm) (self : models.KNNClassifier)
    (features : utils.Matrix) (hwf : self.trainFeatures_.WF)
    (hcount : self.trainFeatures_.rows_ = self.trainTargets_.length)
    (hk1 : 1 ≤ self.k_) (hk2 : self.k_ ≤ self.trainFeatures_.rows_)
    (hqwf : features.WF) (hcols : features.cols_ = self.trainFeatures_.cols_) :
    ∃ predictions, self.predict libm features = .ok predictions ∧
      predictions.length = features.rows_ ∧
      ∀ i, i < features.rows_ →
        self.predictRow libm (features.data_.getD i []) = .ok (predictions.getD i 0) := by
  have hrow : ∀ i, i < features.rows_ →
      self.predictRow libm (features.data_.getD i []) =
        .ok (match self.predictRow libm (features.data_.getD i []) with
          | .ok v => v
          | .error _ => 0) := by
    intro i hi
    obtain ⟨_, _, value, _, _, _, _, hv, _⟩ := predictRow_spec libm self
      (features.data_.getD i []) hwf hcount hk1 hk2 (by rw [row_length hqwf hi, hcols])
    rw [hv]
  refine ⟨_, knn_predict_eq_map libm self features _ hrow, ?_, ?_⟩
  · rw [List.length_map, List.length_range]
  · intro i hi
    have hget : ∀ (g : Nat → ℚ), ((List.range features.rows_).map g).getD i 0 = g i := by
      intro g
      rw [List.getD_eq_getElem _ _ (by rw [List.length_map, List.length_range]; exact hi),
        List.getElem_map, List.getElem_range]
    rw [hget]
    exact hrow i hi

/-- The head of a sorted vector of pairs precedes every entry. -/
theorem head_insertionSort_le (l : List (ℚ × ℚ)) (p : ℚ × ℚ) (hp : p ∈ l) :
    ∃ head, (List.insertionSort models.DecisionTree.pairLE l).take 1 = [head] ∧ head ∈ l ∧
      models.DecisionTree.pairLE head p := by
  haveI : IsTotal (ℚ × ℚ) models.DecisionTree.pairLE := ⟨pairLE_total⟩
  haveI : IsTrans (ℚ × ℚ) models.DecisionTree.pairLE := ⟨pairLE_trans⟩
  have hs : (List.insertionSort models.DecisionTree.pairLE l).Sorted
      models.DecisionTree.pairLE := List.sorted_insertionSort _ _
  have hperm := List.perm_insertionSort models.DecisionTree.pairLE l
  have hp2 : p ∈ List.insertionSort models.DecisionTree.pairLE l := hperm.mem_iff.mpr hp
  generalize List.insertionSort models.DecisionTree.pairLE l = S at hs hperm hp2
  cases S with
  | nil => exact absurd hp2 (List.not_mem_nil _)
  | cons head tail =>
    refine ⟨head, rfl, hperm.mem_iff.mp (List.mem_cons_self _ _), ?_⟩
    rcases List.mem_cons.mp hp2 with h | h
    · rw [h]
      rcases pairLE_total head head with h2 | h2 <;> exact h2
    · exact (List.pairwise_cons.mp hs).1 p h

/-- C15, as stated, fails: with `k = 1` and two stored rows both
identical to the query row, of targets 1 and 0 in this order, `predict` returns 0, which is
not the target of the stored row 0. -/
theorem C15_duplicate_rows_smallest_target_wins :
    examples.twinRows.data_.getD 0 [] = examples.oneRow.data_.getD 0 [] ∧
      ([1, 0] : List ℚ).getD 0 0 = 1 ∧
      models.KNNClassifier.predict examples.unitLibm ⟨1, examples.twinRows, [1, 0]⟩
        examples.oneRow = .ok [0] := by
  decide!

/-- C15 (amended): with `k = 1`, a well-formed training set with matching counts and a
square root that is larger at every positive number than at 0, `predict` returns for a query
row `i` the target of a stored row `j` identical to it, when no stored row identical to the
query row has a smaller target. -/
theorem C15_nearest_duplicate_target (libm : models.Libm) (self : models.KNNClassifier)
    (features : utils.Matrix) (i j : Nat)
    (hsqrt : ∀ x, 0 < x → libm.sqrt 0 < libm.sqrt x)
    (hk : self.k_ = 1) (hwf : self.trainFeatures_.WF)
    (hcount : self.trainFeatures_.rows_ = self.trainTargets_.length)
    (hqwf : features.WF) (hi : i < features.rows_) (hj : j < self.trainFeatures_.rows_)
    (hdup : self.trainFeatures_.data_.getD j [] = features.data_.getD i [])
    (hmin : ∀ j2, j2 < self.trainFeatures_.rows_ →
      self.trainFeatures_.data_.getD j2 [] = features.data_.getD i [] →
      self.trainTargets_.getD j 0 ≤ self.trainTargets_.getD j2 0) :
    ∃ predictions, self.predict libm features = .ok predictions ∧
      predictions.length = features.rows_ ∧
      predictions.getD i 0 = self.trainTargets_.getD j 0 := by
  have hcols : features.cols_ = self.trainFeatures_.cols_ := by
    rw [← row_length hqwf hi, ← row_length hwf hj, hdup]
  have hk1 : 1 ≤ self.k_ := by omega
  have hk2 : self.k_ ≤ self.trainFeatures_.rows_ := by omega
  obtain ⟨predictions, hp, hplen, hrows⟩ :=
    knn_predict_ok libm self features hwf hcount hk1 hk2 hqwf hcols
  refine ⟨predictions, hp, hplen, ?_⟩
  have hq : (features.data_.getD i []).length = self.trainFeatures_.cols_ := by
    rw [row_length hqwf hi, hcols]
  obtain ⟨dists, N, value, hd, _, hnear, _, hv, hmem, _, _⟩ :=
    predictRow_spec libm self (features.data_.getD i []) hwf hcount hk1 hk2 hq
  have hvi := hrows i hi
  rw [hv] at hvi
  injection hvi with hvi
  rw [← hvi]
  rw [distances_spec libm self _ hwf hcount hq] at hd
  injection hd with hd
  have hzero : (∑ c in Finset.range (features.data_.getD i []).length,
      ((features.data_.getD i []).getD c 0 - (self.trainFeatures_.data_.getD j []).getD c 0) *
        ((features.data_.getD i []).getD c 0 -
          (self.trainFeatures_.data_.getD j []).getD c 0)) = 0 :=
    (sum_sq_eq_zero_iff _ _ (by rw [hdup])).mpr hdup.symm
  have hin : (libm.sqrt 0, self.trainTargets_.getD j 0) ∈ dists := by
    rw [← hd]
    refine List.mem_map.mpr ⟨j, List.mem_range.mpr hj, ?_⟩
    rw [hzero]
  obtain ⟨head, hhead, hheadmem, hle⟩ := head_insertionSort_le dists _ hin
  unfold models.KNNClassifier.nearest at hnear
  rw [if_neg (by
    have : dists.length = self.trainFeatures_.rows_ := by
      rw [← hd, List.length_map, List.length_range]
    omega), hk, hhead] at hnear
  injection hnear with hnear
  rw [← hnear] at hmem
  simp only [List.map_cons, List.map_nil, List.mem_singleton] at hmem
  rw [hmem]
  rw [← hd] at hheadmem
  obtain ⟨j2, hj2, hj2eq⟩ := List.mem_map.mp hheadmem
  rw [List.mem_range] at hj2
  rw [← hj2eq] at hle ⊢
  simp only
  unfold models.DecisionTree.pairLE at hle
  simp only at hle
  have hlen2 : (features.data_.getD i []).length =
      (self.trainFeatures_.data_.getD j2 []).length := by
    rw [hq, row_length hwf hj2]
  have hsame : features.data_.getD i [] = self.trainFeatures_.data_.getD j2 [] := by
    by_contra hne
    have hpos : 0 < ∑ c in Finset.range (features.data_.getD i []).length,
        ((features.data_.getD i []).getD c 0 -
          (self.trainFeatures_.data_.getD j2 []).getD c 0) *
          ((features.data_.getD i []).getD c 0 -
            (self.trainFeatures_.data_.getD j2 []).getD c 0) :=
      lt_of_le_of_ne (sum_sq_nonneg _ _)
        (fun h => hne ((sum_sq_eq_zero_iff _ _ hlen2).mp h.symm))
    have hlt := hsqrt _ hpos
    rcases hle with h | ⟨h, _⟩
    · exact absurd (lt_trans h hlt) (lt_irrefl _)
    · rw [h] at hlt
      exact absurd hlt (lt_irrefl _)
  have hge := hmin j2 hj2 hsame.symm
  rcases hle with h | ⟨_, h⟩
  · rw [(sum_sq_eq_zero_iff _ _ hlen2).mpr hsame] at h
    exact absurd h (lt_irrefl _)
  · exact le_antisymm h hge

/-- C15 (amended) at two identical stored rows of
targets 0 and 1, `k = 1`, and the query row equal to them. -/
theorem C15_nearest_duplicate_target_witness :
    ∃ predictions,
      models.KNNClassifier.predict examples.unitLibm ⟨1, examples.twinRows, [0, 1]⟩
        examples.oneRow = .ok predictions ∧
      predictions.length = examples.oneRow.rows_ ∧
      predictions.getD 0 0 = ([0, 1] : List ℚ).getD 0 0 :=
  C15_nearest_duplicate_target examples.unitLibm ⟨1, examples.twinRows, [0, 1]⟩
    examples.oneRow 0 0 (fun x hx => hx) rfl (by decide) rfl (by decide) (by decide)
    (by decide) rfl (by
      intro j2 hj2 _
      have h2 : j2 = 0 ∨ j2 = 1 := by
        have : j2 < 2 := hj2
        omega
      rcases h2 with h | h <;> subst h <;> decide!)

/-- C16: on a well-formed training set with matching counts, `1 ≤ k ≤` stored rows and
a well-formed query matrix of the training width, `predict` returns one value for every query
row; the value is a target among the `k` selected nearest pairs, no value occurs more often
among their targets, and every value that occurs as often is not smaller: the value depends
on the targets of the selected pairs only. -/
theorem C16_majority_vote_smallest_tie (libm : models.Libm) (self : models.KNNClassifier)
    (features : utils.Matrix) (hwf : self.trainFeatures_.WF)
    (hcount : self.trainFeatures_.rows_ = self.trainTargets_.length)
    (hk1 : 1 ≤ self.k_) (hk2 : self.k_ ≤ self.trainFeatures_.rows_)
    (hqwf : features.WF) (hcols : features.cols_ = self.trainFeatures_.cols_) :
    ∃ predictions, self.predict libm features = .ok predictions ∧
      predictions.length = features.rows_ ∧
      ∀ i, i < features.rows_ → ∃ distances nearest,
        self.distances libm (features.data_.getD i []) = .ok distances ∧
        models.KNNClassifier.nearest self.k_ distances = .ok nearest ∧
        nearest.length = self.k_ ∧
        predictions.getD i 0 ∈ nearest.map Prod.snd ∧
        (∀ w, (nearest.map Prod.snd).count w ≤
          (nearest.map Prod.snd).count (predictions.getD i 0)) ∧
        ∀ w, (nearest.map Prod.snd).count w =
          (nearest.map Prod.snd).count (predictions.getD i 0) → predictions.getD i 0 ≤ w := by
  obtain ⟨predictions, hp, hplen, hrows⟩ :=
    knn_predict_ok libm self features hwf hcount hk1 hk2 hqwf hcols
  refine ⟨predictions, hp, hplen, ?_⟩
  intro i hi
  obtain ⟨dists, N, value, hd, _, hnear, hNlen, hv, hmem, hmax, hfirst⟩ :=
    predictRow_spec libm self (features.data_.getD i []) hwf hcount hk1 hk2
      (by rw [row_length hqwf hi, hcols])
  have hvi := hrows i hi
  rw [hv] at hvi
  injection hvi with hvi
  rw [← hvi]
  exact ⟨dists, N, hd, hnear, hNlen, hmem, hmax, hfirst⟩

/-- C16 at four stored rows 1, 2, 3, 4 of targets 0, 1, 0, 1,
`k = 2` and the query rows 1, 2, 3, 4. -/
theorem C16_majority_vote_smallest_tie_witness :
    ∃ predictions,
      models.KNNClassifier.predict examples.unitLibm ⟨2, examples.fourRows, [0, 1, 0, 1]⟩
        examples.fourRows = .ok predictions ∧
      predictions.length = examples.fourRows.rows_ ∧
      ∀ i, i < examples.fourRows.rows_ → ∃ distances nearest,
        models.KNNClassifier.distances examples.unitLibm
          ⟨2, examples.fourRows, [0, 1, 0, 1]⟩ (examples.fourRows.data_.getD i []) =
            .ok distances ∧
        models.KNNClassifier.nearest 2 distances = .ok nearest ∧
        nearest.length = 2 ∧
        predictions.getD i 0 ∈ nearest.map Prod.snd ∧
        (∀ w, (nearest.map Prod.snd).count w ≤
          (nearest.map Prod.snd).count (predictions.getD i 0)) ∧
        ∀ w, (nearest.map Prod.snd).count w =
          (nearest.map Prod.snd).count (predictions.getD i 0) → predictions.getD i 0 ≤ w :=
  C16_majority_vote_smallest_tie examples.unitLibm ⟨2, examples.fourRows, [0, 1, 0, 1]⟩
    examples.fourRows (by decide) rfl (by decide) (by decide) (by decide) rfl

/-- C17: on a well-formed training set of at least one row, a well-formed query matrix
of at least one row and of another number of columns makes `predict` throw
`std::invalid_argument`; no vector of predictions is returned. -/
theorem C17_predict_rejects_width_mismatch (libm : models.Libm) (self : models.KNNClassifier)
    (features : utils.Matrix) (hwf : self.trainFeatures_.WF)
    (hrows : 0 < self.trainFeatures_.rows_) (hqwf : features.WF)
    (hqrows : 0 < features.rows_) (hcols : features.cols_ ≠ self.trainFeatures_.cols_) :
    self.predict libm features = .error .invalid_argument := by
  unfold models.KNNClassifier.predict
  apply foldlM_range_first_error _ _ _ _ hqrows
  unfold models.KNNClassifier.predictRow
  rw [distances_mismatch libm self _ hwf hrows (by rw [row_length hqwf hqrows]; exact hcols)]

/-- C17 at two stored rows of one column and a query of two
columns. -/
theorem C17_predict_rejects_width_mismatch_witness :
    models.KNNClassifier.predict examples.unitLibm ⟨1, examples.twinRows, [0, 1]⟩
      examples.twoColumns = .error .invalid_argument :=
  C17_predict_rejects_width_mismatch examples.unitLibm ⟨1, examples.twinRows, [0, 1]⟩
    examples.twoColumns (by decide) (by decide) (by decide) (by decide) (by decide)

/-- One call of `KNNClassifier::train`. -/
theorem knn_train_eq (self : models.KNNClassifier) (features : utils.Matrix)
    (targets : List ℚ) :
    self.train features targets =
      if features.rows_ = targets.length then (.ok true, ⟨self.k_, features, targets⟩)
      else (.error .invalid_argument, self) := by
  unfold models.KNNClassifier.train
  by_cases h : features.rows_ = targets.length
  · rw [if_pos h, if_neg (not_not.mpr h)]
  · rw [if_neg h, if_pos h]

/-- C18: after any sequence of calls of `train`, `k` is what it was and the stored
features and targets are the arguments of the last call of the sequence with as many rows as
targets, or what was stored before when there is no such call; one call with matching counts
returns true and stores its two arguments, one call with other counts throws
`std::invalid_argument` and leaves the model as it was. -/
theorem C18_cache_is_last_successful_call (self : models.KNNClassifier)
    (calls : List (utils.Matrix × List ℚ)) :
    (self.trainAll calls).k_ = self.k_ ∧
      ((self.trainAll calls).trainFeatures_, (self.trainAll calls).trainTargets_) =
        ((calls.filter (fun call => decide (call.1.rows_ = call.2.length))).getLast?).getD
          (self.trainFeatures_, self.trainTargets_) ∧
      ∀ (features : utils.Matrix) (targets : List ℚ),
        self.train features targets =
          if features.rows_ = targets.length then (.ok true, ⟨self.k_, features, targets⟩)
          else (.error .invalid_argument, self) := by
  refine ⟨?_, ?_, knn_train_eq self⟩
  · induction calls using List.reverseRecOn with
    | nil => rfl
    | append_singleton calls call ih =>
      unfold models.KNNClassifier.trainAll at ih ⊢
      rw [List.foldl_append, List.foldl_cons, List.foldl_nil, knn_train_eq]
      by_cases h : call.1.rows_ = call.2.length
      · rw [if_pos h]
        exact ih
      · rw [if_neg h]
        exact ih
  · induction calls using List.reverseRecOn with
    | nil => rfl
    | append_singleton calls call ih =>
      rw [List.filter_append]
      unfold models.KNNClassifier.trainAll at ih ⊢
      rw [List.foldl_append, List.foldl_cons, List.foldl_nil, knn_train_eq]
      by_cases h : call.1.rows_ = call.2.length
      · rw [if_pos h]
        simp [List.filter_cons, h]
      · rw [if_neg h]
        simp only [List.filter_cons, h, decide_False, List.filter_nil, List.append_nil,
          Bool.false_eq_true, if_false]
        exact ih

/-! ## `LogisticRegression` -/

/-- A counted loop that rewrites the cell `j` of a vector from its old value in pass `j`. -/
theorem foldl_set_update (F : ℚ → Nat → ℚ) (n : Nat) (g : List ℚ) (hg : g.length = n) :
    (List.range n).foldl (fun l j => l.set j (F (l.getD j 0) j)) g =
      (List.range n).map (fun j => F (g.getD j 0) j) := by
  have key := foldl_range_inv
    (fun k (l : List ℚ) => l.length = n ∧
      ∀ j, j < n → l.getD j 0 = if j < k then F (g.getD j 0) j else g.getD j 0)
    (fun l j => l.set j (F (l.getD j 0) j)) n g
    ⟨hg, fun j _ => by rw [if_neg (Nat.not_lt_zero _)]⟩
    (by
      intro k l hk ⟨hl, hdone⟩
      refine ⟨by rw [List.length_set]; exact hl, ?_⟩
      intro j hj
      by_cases hjk : j = k
      · subst hjk
        rw [List.getD_eq_getElem _ _ (by rw [List.length_set]; omega), List.getElem_set_self,
          if_pos (Nat.lt_succ_self j), hdone j hj, if_neg (Nat.lt_irrefl j)]
      · rw [List.getD_eq_getElem _ _ (by rw [List.length_set]; omega),
          List.getElem_set_ne (by omega), ← List.getD_eq_getElem _ 0 (by omega), hdone j hj]
        by_cases h2 : j < k
        · rw [if_pos h2, if_pos (by omega)]
        · rw [if_neg h2, if_neg (by omega)])
  apply List.ext_getElem
  · rw [key.1, List.length_map, List.length_range]
  · intro i h1 h2
    have hi : i < n := by rw [key.1] at h1; exact h1
    rw [List.getElem_map, List.getElem_range, ← List.getD_eq_getElem _ 0 h1, key.2 i hi,
      if_pos hi]

/-- The shape and the cells of the design matrix, in the words of the gradient step. -/
theorem designMatrix_augmented (fit : Bool) {features : utils.Matrix} (hwf : features.WF) :
    (models.designMatrix fit features).rows_ = features.rows_ ∧
      (models.designMatrix fit features).cols_ =
        models.LogisticRegression.width fit features ∧
      (models.designMatrix fit features).WF ∧
      ∀ i k, i < features.rows_ → k < models.LogisticRegression.width fit features →
        (models.designMatrix fit features).get i k =
          models.LogisticRegression.augmentedRow fit features i k := by
  obtain ⟨⟨h1, h2, h3⟩, h4⟩ :=
    designMatrix_spec fit (⟨rfl, rfl, hwf⟩ : features.HasShape features.rows_ features.cols_)
  exact ⟨h1, h2, h3, h4⟩

/-- A counted loop whose last pass throws, the passes before it returning. -/
theorem foldlM_range_last_error {α : Type} (f : α → Nat → Except Error α) (g : α → Nat → α)
    (n : Nat) (init : α) (e : Error) (h : ∀ a i, i < n → f a i = .ok (g a i))
    (hlast : ∀ a, f a n = .error e) :
    (List.range (n + 1)).foldlM f init = .error e := by
  rw [foldlM_range_succ, foldlM_range_ok f g n init h]
  exact hlast _

/-- `LogisticRegression::predict` on features of the width of the coefficients: one
prediction for every row, the sigmoid of the product of the augmented row with the
coefficients. -/
theorem logistic_predict_spec (libm : models.Libm) (self : models.LogisticRegression)
    (features : utils.Matrix) (hwf : features.WF)
    (hlen : self.coefficients_.length =
      models.LogisticRegression.width self.fitIntercept_ features) :
    self.predict libm features =
      .ok ((List.range features.rows_).map
        (models.LogisticRegression.rowPrediction libm self.fitIntercept_ features
          self.coefficients_)) := by
  obtain ⟨hr, hc, _, hget⟩ := designMatrix_augmented self.fitIntercept_ hwf
  unfold models.LogisticRegression.predict
  simp only
  rw [hr, hc, foldlM_range_ok _ (fun predictions i => predictions.set i
    (models.LogisticRegression.rowPrediction libm self.fitIntercept_ features
      self.coefficients_ i))]
  · rw [foldl_set_update (fun _ i => models.LogisticRegression.rowPrediction libm
      self.fitIntercept_ features self.coefficients_ i) _ _ (List.length_replicate _ _)]
  · intro predictions i hi
    rw [foldlM_range_ok _ (fun z j =>
      z + (models.designMatrix self.fitIntercept_ features).get i j *
        self.coefficients_.getD j 0), foldl_add_range]
    · unfold models.LogisticRegression.rowPrediction
      rw [Finset.sum_congr rfl (fun k hk => by rw [hget i k hi (Finset.mem_range.mp hk)])]
      rfl
    · intro z j hj
      have hlt : j < self.coefficients_.length := by omega
      simp only [List.getElem?_eq_getElem hlt, List.getD_eq_getElem _ _ hlt]

/-- `LogisticRegression::predict` on a matrix of at least one row that is one column short of
the coefficients it reads: the read past the end of `coefficients_`. -/
theorem logistic_predict_undefined (libm : models.Libm) (self : models.LogisticRegression)
    (features : utils.Matrix) (hwf : features.WF) (hrows : 0 < features.rows_)
    (hlen : self.coefficients_.length + 1 =
      models.LogisticRegression.width self.fitIntercept_ features) :
    self.predict libm features = .error .undefined := by
  obtain ⟨hr, hc, _, _⟩ := designMatrix_augmented self.fitIntercept_ hwf
  unfold models.LogisticRegression.predict
  simp only
  rw [hr, hc, ← hlen]
  apply foldlM_range_first_error _ _ _ _ hrows
  rw [foldlM_range_last_error _ (fun z j =>
    z + (models.designMatrix self.fitIntercept_ features).get 0 j *
      self.coefficients_.getD j 0) _ _ Error.undefined]
  · rfl
  · intro z j hj
    simp only [List.getElem?_eq_getElem hj, List.getD_eq_getElem _ _ hj]
  · intro z
    simp only [List.getElem?_eq_none (le_refl _)]

/-- The gradient loops of `train`: cell `j` is the sum over the rows of the error times the
cell `j` of the row of `X`. -/
theorem gradient_spec (error : Nat → ℚ) (X : utils.Matrix) (r c : Nat) :
    (List.range r).foldl (fun gradient i =>
      (List.range c).foldl (fun gradient j =>
        gradient.set j (gradient.getD j 0 + error i * X.get i j)) gradient)
      (List.replicate c 0) =
      (List.range c).map (fun j => ∑ i in Finset.range r, error i * X.get i j) := by
  have key := foldl_range_inv
    (fun k (g : List ℚ) =>
      g = (List.range c).map (fun j => ∑ i in Finset.range k, error i * X.get i j))
    (fun gradient i =>
      (List.range c).foldl (fun gradient j =>
        gradient.set j (gradient.getD j 0 + error i * X.get i j)) gradient)
    r (List.replicate c 0)
    (by
      apply List.ext_getElem
      · rw [List.length_replicate, List.length_map, List.length_range]
      · intro i h1 h2
        simp)
    (by
      intro k g hk hg
      show (List.range c).foldl (fun gradient j =>
        gradient.set j (gradient.getD j 0 + error k * X.get k j)) g = _
      rw [foldl_set_update (fun old j => old + error k * X.get k j) c g
        (by rw [hg, List.length_map, List.length_range])]
      apply List.map_congr_left
      intro j hj
      rw [List.mem_range] at hj
      rw [hg, List.getD_eq_getElem _ _ (by rw [List.length_map, List.length_range]; exact hj),
        List.getElem_map, List.getElem_range, Finset.sum_range_succ])
  exact key

/-- The vector one gradient step returns has the width of the coefficients. -/
theorem gradientStep_length (libm : models.Libm) (fit : Bool) (lr : ℚ)
    (features : utils.Matrix) (targets theta : List ℚ) :
    (models.LogisticRegression.gradientStep libm fit lr features targets theta).length =
      models.LogisticRegression.width fit features := by
  unfold models.LogisticRegression.gradientStep
  rw [List.length_map, List.length_range]

/-- The cell `k` of a vector written cell by cell. -/
theorem getD_map_range (g : Nat → ℚ) (n k : Nat) (hk : k < n) :
    ((List.range n).map g).getD k 0 = g k := by
  rw [List.getD_eq_getElem _ _ (by rw [List.length_map, List.length_range]; exact hk),
    List.getElem_map, List.getElem_range]

/-- The gradient step of the code is the gradient step of the specification: on well-formed
features and coefficients of the post-intercept width, the body of the loop up to the write
of the coefficients succeeds, with or without an intercept, and stores
`theta[j] - learningRate * (sum over i of (prediction i - target i) * x̃[i][j]) / n_samples`
for every `j`, all predictions being those under the coefficients before the step. -/
theorem logistic_update_spec (libm : models.Libm) (self : models.LogisticRegression)
    (features : utils.Matrix) (targets : List ℚ) (hwf : features.WF)
    (hlen : self.coefficients_.length =
      models.LogisticRegression.width self.fitIntercept_ features) :
    self.update libm (models.designMatrix self.fitIntercept_ features) features targets =
      .ok (self.withCoefficients (models.LogisticRegression.gradientStep libm
        self.fitIntercept_ self.learningRate_ features targets self.coefficients_)) := by
  obtain ⟨hr, hc, _, hget⟩ := designMatrix_augmented self.fitIntercept_ hwf
  have hstep : (List.range (models.designMatrix self.fitIntercept_ features).cols_).foldl
      (fun c j => c.set j (c.getD j 0 - self.learningRate_ *
        ((List.range (models.designMatrix self.fitIntercept_ features).rows_).foldl
          (fun gradient i =>
            (List.range (models.designMatrix self.fitIntercept_ features).cols_).foldl
              (fun gradient j => gradient.set j (gradient.getD j 0 +
                (((List.range features.rows_).map
                  (models.LogisticRegression.rowPrediction libm self.fitIntercept_ features
                    self.coefficients_)).getD i 0 - targets.getD i 0) *
                  (models.designMatrix self.fitIntercept_ features).get i j)) gradient)
          (List.replicate (models.designMatrix self.fitIntercept_ features).cols_ 0)).getD j 0 /
            (models.designMatrix self.fitIntercept_ features).rows_))
      self.coefficients_ =
      models.LogisticRegression.gradientStep libm self.fitIntercept_ self.learningRate_
        features targets self.coefficients_ := by
    rw [gradient_spec (fun i => ((List.range features.rows_).map
      (models.LogisticRegression.rowPrediction libm self.fitIntercept_ features
        self.coefficients_)).getD i 0 - targets.getD i 0),
      foldl_set_update (fun old j => old - self.learningRate_ *
        ((List.range (models.designMatrix self.fitIntercept_ features).cols_).map
          (fun j => ∑ i in Finset.range (models.designMatrix self.fitIntercept_ features).rows_,
            (((List.range features.rows_).map
              (models.LogisticRegression.rowPrediction libm self.fitIntercept_ features
                self.coefficients_)).getD i 0 - targets.getD i 0) *
              (models.designMatrix self.fitIntercept_ features).get i j)).getD j 0 /
          (models.designMatrix self.fitIntercept_ features).rows_) _ _ (by rw [hlen, hc])]
    unfold models.LogisticRegression.gradientStep
    rw [hc, hr]
    apply List.map_congr_left
    intro j hj
    rw [List.mem_range] at hj
    rw [getD_map_range _ _ _ hj]
    congr 3
    apply Finset.sum_congr rfl
    intro i hi
    rw [Finset.mem_range] at hi
    rw [hget i j hi hj, getD_map_range _ _ _ hi]
  rw [models.LogisticRegression.update, logistic_predict_spec libm self features hwf hlen]
  show Except.bind _ _ = _
  unfold models.LogisticRegression.withCoefficients
  simp only [Except.bind]
  rw [hstep]
  rfl

/-- One iteration of the loop of `train`, as the code has it: the write of the coefficients,
then the cost of the written model on `X`, then the end of the loop when the cost is below
the tolerance and the remaining iterations from the written model otherwise. -/
theorem iterate_unfold (libm : models.Libm) (self : models.LogisticRegression)
    (X features : utils.Matrix) (targets : List ℚ) (n : Nat) :
    models.LogisticRegression.iterate libm X features targets (n + 1) self =
      Except.bind (self.update libm X features targets) (fun updated =>
        Except.bind (updated.computeCost libm X targets) (fun cost =>
          if cost < updated.tolerance_ then .ok updated
          else models.LogisticRegression.iterate libm X features targets n updated)) := by
  rw [models.LogisticRegression.iterate]
  rfl

/-- One iteration of the loop of `train`: the coefficients after it are those of the gradient
step, and the loop goes on from them unless the cost is below the tolerance. -/
theorem iterate_succ (libm : models.Libm) (self : models.LogisticRegression)
    (features : utils.Matrix) (targets : List ℚ) (n : Nat) (hwf : features.WF)
    (hlen : self.coefficients_.length =
      models.LogisticRegression.width self.fitIntercept_ features) :
    models.LogisticRegression.iterate libm (models.designMatrix self.fitIntercept_ features)
        features targets (n + 1) self =
      Except.bind
        ((self.withCoefficients (models.LogisticRegression.gradientStep libm
          self.fitIntercept_ self.learningRate_ features targets
          self.coefficients_)).computeCost libm
            (models.designMatrix self.fitIntercept_ features) targets)
        (fun cost =>
          if cost < self.tolerance_ then
            .ok (self.withCoefficients (models.LogisticRegression.gradientStep libm
              self.fitIntercept_ self.learningRate_ features targets self.coefficients_))
          else
            models.LogisticRegression.iterate libm
              (models.designMatrix self.fitIntercept_ features) features targets n
              (self.withCoefficients (models.LogisticRegression.gradientStep libm
                self.fitIntercept_ self.learningRate_ features targets
                self.coefficients_))) := by
  rw [iterate_unfold, logistic_update_spec libm self features targets hwf hlen]
  rfl

/-- `computeCost` on the design matrix of a model that fits an intercept: `predict` puts one
more column before it and reads one coefficient past the end of the vector. -/
theorem computeCost_undefined (libm : models.Libm) (self : models.LogisticRegression)
    (features : utils.Matrix) (targets : List ℚ) (hwf : features.WF)
    (hrows : 0 < features.rows_) (hfit : self.fitIntercept_ = true)
    (hlen : self.coefficients_.length =
      models.LogisticRegression.width self.fitIntercept_ features) :
    self.computeCost libm (models.designMatrix self.fitIntercept_ features) targets =
      .error .undefined := by
  obtain ⟨hr, hc, hXwf, _⟩ := designMatrix_augmented self.fitIntercept_ hwf
  unfold models.LogisticRegression.computeCost
  rw [logistic_predict_undefined libm self _ hXwf (by rw [hr]; exact hrows) (by
    rw [hlen]
    unfold models.LogisticRegression.width
    rw [hfit, if_pos rfl, if_pos rfl, ← hfit, hc]
    unfold models.LogisticRegression.width
    rw [hfit, if_pos rfl])]
  rfl

/-- The write of a cell leaves the column count. -/
theorem set_cols (m : utils.Matrix) (i j : Nat) (v : ℚ) : (m.set i j v).cols_ = m.cols_ := rfl

/-- The column count of the design matrix, for any stored rows. -/
theorem designMatrix_cols (fit : Bool) (features : utils.Matrix) :
    (models.designMatrix fit features).cols_ =
      models.LogisticRegression.width fit features := by
  unfold models.LogisticRegression.width
  cases fit with
  | false => rfl
  | true =>
    simp only [models.designMatrix, if_true]
    exact foldl_range_inv (fun _ (X : utils.Matrix) => X.cols_ = features.cols_ + 1)
      _ features.rows_ _ rfl (by
        intro k X _ hX
        exact foldl_range_inv (fun _ (Y : utils.Matrix) => Y.cols_ = features.cols_ + 1)
          _ features.cols_ X hX (by
            intro j Y _ hY
            rw [set_cols]
            exact hY))

/-- `train` with matching counts: the loop started from the zero vector. -/
theorem logistic_train_eq (libm : models.Libm) (self : models.LogisticRegression)
    (features : utils.Matrix) (targets : List ℚ) (hcount : features.rows_ = targets.length) :
    (∀ m, models.LogisticRegression.iterate libm
        (models.designMatrix self.fitIntercept_ features) features targets self.maxIterations_
        (self.withCoefficients (List.replicate
          (models.LogisticRegression.width self.fitIntercept_ features) 0)) = .ok m →
      self.train libm features targets = (.ok true, m)) ∧
    (∀ e, models.LogisticRegression.iterate libm
        (models.designMatrix self.fitIntercept_ features) features targets self.maxIterations_
        (self.withCoefficients (List.replicate
          (models.LogisticRegression.width self.fitIntercept_ features) 0)) = .error e →
      (self.train libm features targets).1 = .error e) := by
  constructor
  · intro m hm
    unfold models.LogisticRegression.train
    rw [if_neg (not_not.mpr hcount)]
    simp only
    rw [designMatrix_cols]
    unfold models.LogisticRegression.withCoefficients at hm
    rw [hm]
  · intro e he
    unfold models.LogisticRegression.train
    rw [if_neg (not_not.mpr hcount)]
    simp only
    rw [designMatrix_cols]
    unfold models.LogisticRegression.withCoefficients at he
    rw [he]

/-- C19: `train` with matching counts runs its loop from the zero vector of the
post-intercept width (`features.cols() + 1` with an intercept, `features.cols()` without) and
returns true with the model the loop returns, or fails as the loop fails; with
`maxIterations = 0` it returns true and `getParameters()` is that zero vector; every
iteration of the loop first writes the coefficients, then asks for the cost of the written
model; and on well-formed features of at least one row the write that starts from
coefficients `theta` of that width succeeds, with or without an intercept, changes no other
member, and stores one coefficient for every column of the augmented row `x̃`, the one of
index `j` being
`theta[j] - learningRate * (sum over i of (1/(1 + exp(-(x̃_i·theta))) - y_i) * x̃_ij) / n_samples`
with every prediction computed from `theta`, the coefficients before the iteration. -/
theorem C19_zero_start_and_gradient_step (libm : models.Libm)
    (self : models.LogisticRegression) (features : utils.Matrix) (targets : List ℚ)
    (hcount : features.rows_ = targets.length) :
    (∀ m, models.LogisticRegression.iterate libm
        (models.designMatrix self.fitIntercept_ features) features targets self.maxIterations_
        (self.withCoefficients (List.replicate
          (if self.fitIntercept_ then features.cols_ + 1 else features.cols_) 0)) = .ok m →
      self.train libm features targets = (.ok true, m)) ∧
    (∀ e, models.LogisticRegression.iterate libm
        (models.designMatrix self.fitIntercept_ features) features targets self.maxIterations_
        (self.withCoefficients (List.replicate
          (if self.fitIntercept_ then features.cols_ + 1 else features.cols_) 0)) = .error e →
      (self.train libm features targets).1 = .error e) ∧
    (self.maxIterations_ = 0 →
      (self.train libm features targets).1 = .ok true ∧
      (self.train libm features targets).2.getParameters =
        List.replicate (if self.fitIntercept_ then features.cols_ + 1 else features.cols_) 0) ∧
    (∀ (n : Nat) (model : models.LogisticRegression),
      models.LogisticRegression.iterate libm (models.designMatrix self.fitIntercept_ features)
          features targets (n + 1) model =
        Except.bind
          (model.update libm (models.designMatrix self.fitIntercept_ features) features targets)
          (fun updated =>
            Except.bind
              (updated.computeCost libm (models.designMatrix self.fitIntercept_ features)
                targets)
              (fun cost =>
                if cost < updated.tolerance_ then .ok updated
                else models.LogisticRegression.iterate libm
                  (models.designMatrix self.fitIntercept_ features) features targets n
                  updated))) ∧
    (features.WF → 0 < features.rows_ → ∀ theta : List ℚ,
      theta.length = (if self.fitIntercept_ then features.cols_ + 1 else features.cols_) →
      ∃ updated : models.LogisticRegression,
        (self.withCoefficients theta).update libm
            (models.designMatrix self.fitIntercept_ features) features targets = .ok updated ∧
        updated.learningRate_ = self.learningRate_ ∧
        updated.maxIterations_ = self.maxIterations_ ∧
        updated.tolerance_ = self.tolerance_ ∧
        updated.fitIntercept_ = self.fitIntercept_ ∧
        updated.coefficients_.length =
          (if self.fitIntercept_ then features.cols_ + 1 else features.cols_) ∧
        ∀ j, j < (if self.fitIntercept_ then features.cols_ + 1 else features.cols_) →
          updated.coefficients_.getD j 0 =
            theta.getD j 0 - self.learningRate_ *
              (∑ i in Finset.range features.rows_,
                (1 / (1 + libm.exp
                    (-(∑ k in Finset.range
                        (if self.fitIntercept_ then features.cols_ + 1 else features.cols_),
                      models.LogisticRegression.augmentedRow self.fitIntercept_ features i k *
                        theta.getD k 0))) -
                  targets.getD i 0) *
                  models.LogisticRegression.augmentedRow self.fitIntercept_ features i j) /
              features.rows_) := by
  obtain ⟨hok, herr⟩ := logistic_train_eq libm self features targets hcount
  refine ⟨hok, herr, ?_, ?_, ?_⟩
  · intro hzero
    rw [hzero] at hok
    have h := hok _ rfl
    rw [h]
    exact ⟨rfl, rfl⟩
  · intro n model
    exact iterate_unfold libm model _ features targets n
  · intro hwf _ theta htheta
    refine ⟨_,
      logistic_update_spec libm (self.withCoefficients theta) features targets hwf htheta,
      rfl, rfl, rfl, rfl, gradientStep_length _ _ _ _ _ _, ?_⟩
    intro j hj
    exact getD_map_range _ _ j hj

/-- C19 at one row `[1]` of target 1, with an intercept, the learning rate 1/100 and one
iteration. -/
theorem C19_zero_start_and_gradient_step_witness :
    (∀ m, models.LogisticRegression.iterate examples.constLibm
        (models.designMatrix true examples.oneRow) examples.oneRow [1] 1
        (models.LogisticRegression.withCoefficients ⟨[], 1 / 100, 1, 1 / 10000, true⟩
          (List.replicate (if true then examples.oneRow.cols_ + 1 else examples.oneRow.cols_)
            0)) = .ok m →
      models.LogisticRegression.train examples.constLibm ⟨[], 1 / 100, 1, 1 / 10000, true⟩
        examples.oneRow [1] = (.ok true, m)) ∧
    (∀ e, models.LogisticRegression.iterate examples.constLibm
        (models.designMatrix true examples.oneRow) examples.oneRow [1] 1
        (models.LogisticRegression.withCoefficients ⟨[], 1 / 100, 1, 1 / 10000, true⟩
          (List.replicate (if true then examples.oneRow.cols_ + 1 else examples.oneRow.cols_)
            0)) = .error e →
      (models.LogisticRegression.train examples.constLibm ⟨[], 1 / 100, 1, 1 / 10000, true⟩
        examples.oneRow [1]).1 = .error e) ∧
    ((1 : Nat) = 0 →
      (models.LogisticRegression.train examples.constLibm ⟨[], 1 / 100, 1, 1 / 10000, true⟩
        examples.oneRow [1]).1 = .ok true ∧
      (models.LogisticRegression.train examples.constLibm ⟨[], 1 / 100, 1, 1 / 10000, true⟩
        examples.oneRow [1]).2.getParameters =
        List.replicate (if true then examples.oneRow.cols_ + 1 else examples.oneRow.cols_)
          0) ∧
    (∀ (n : Nat) (model : models.LogisticRegression),
      models.LogisticRegression.iterate examples.constLibm
          (models.designMatrix true examples.oneRow) examples.oneRow [1] (n + 1) model =
        Except.bind
          (model.update examples.constLibm (models.designMatrix true examples.oneRow)
            examples.oneRow [1])
          (fun updated =>
            Except.bind
              (updated.computeCost examples.constLibm
                (models.designMatrix true examples.oneRow) [1])
              (fun cost =>
                if cost < updated.tolerance_ then .ok updated
                else models.LogisticRegression.iterate examples.constLibm
                  (models.designMatrix true examples.oneRow) examples.oneRow [1] n
                  updated))) ∧
    (examples.oneRow.WF → 0 < examples.oneRow.rows_ → ∀ theta : List ℚ,
      theta.length = (if true then examples.oneRow.cols_ + 1 else examples.oneRow.cols_) →
      ∃ updated : models.LogisticRegression,
        models.LogisticRegression.update examples.constLibm
            (models.LogisticRegression.withCoefficients ⟨[], 1 / 100, 1, 1 / 10000, true⟩
              theta)
            (models.designMatrix true examples.oneRow) examples.oneRow [1] = .ok updated ∧
        updated.learningRate_ = 1 / 100 ∧
        updated.maxIterations_ = 1 ∧
        updated.tolerance_ = 1 / 10000 ∧
        updated.fitIntercept_ = true ∧
        updated.coefficients_.length =
          (if true then examples.oneRow.cols_ + 1 else examples.oneRow.cols_) ∧
        ∀ j, j < (if true then examples.oneRow.cols_ + 1 else examples.oneRow.cols_) →
          updated.coefficients_.getD j 0 =
            theta.getD j 0 - 1 / 100 *
              (∑ i in Finset.range examples.oneRow.rows_,
                (1 / (1 + examples.constLibm.exp
                    (-(∑ k in Finset.range
                        (if true then examples.oneRow.cols_ + 1 else examples.oneRow.cols_),
                      models.LogisticRegression.augmentedRow true examples.oneRow i k *
                        theta.getD k 0))) -
                  ([1] : List ℚ).getD i 0) *
                  models.LogisticRegression.augmentedRow true examples.oneRow i j) /
              examples.oneRow.rows_) :=
  C19_zero_start_and_gradient_step examples.constLibm ⟨[], 1 / 100, 1, 1 / 10000, true⟩
    examples.oneRow [1] rfl

/-- C20, evaluated where it fails: with an intercept fitted, at least one iteration and well-formed
features of at least one row with matching counts, the cost is asked for the matrix that
already has the column of ones; `predict` inside `computeCost` puts one more column before
it and reads `coefficients_` one past its end, so `train` ends in undefined behaviour and
the number compared with the tolerance is not the mean log-loss on the training set. -/
theorem C20_cost_reads_past_coefficients (libm : models.Libm)
    (self : models.LogisticRegression) (features : utils.Matrix) (targets : List ℚ)
    (hwf : features.WF) (hcount : features.rows_ = targets.length)
    (hrows : 0 < features.rows_) (hfit : self.fitIntercept_ = true)
    (hiter : 0 < self.maxIterations_) :
    (self.train libm features targets).1 = .error .undefined := by
  apply (logistic_train_eq libm self features targets hcount).2
  obtain ⟨n, hn⟩ : ∃ n, self.maxIterations_ = n + 1 := ⟨self.maxIterations_ - 1, by omega⟩
  rw [hn]
  have hstep := iterate_succ libm (self.withCoefficients (List.replicate
    (models.LogisticRegression.width self.fitIntercept_ features) 0)) features targets n hwf
    (List.length_replicate _ _)
  have hcost := computeCost_undefined libm
    (self.withCoefficients (models.LogisticRegression.gradientStep libm self.fitIntercept_
      self.learningRate_ features targets (List.replicate
        (models.LogisticRegression.width self.fitIntercept_ features) 0)))
    features targets hwf hrows hfit (gradientStep_length _ _ _ _ _ _)
  refine hstep.trans ?_
  have hbind : ∀ (r : Except Error ℚ) (f : ℚ → Except Error models.LogisticRegression),
      r = .error .undefined → Except.bind r f = .error .undefined := by
    intro r f hr
    rw [hr]
    rfl
  exact hbind _ _ hcost

/-- C20, where it fails, at one row `[1]` of target 1, an intercept, one
iteration. -/
theorem C20_cost_reads_past_coefficients_witness :
    (models.LogisticRegression.train examples.constLibm ⟨[], 1 / 100, 1, 1 / 10000, true⟩
      examples.oneRow [1]).1 = .error .undefined :=
  C20_cost_reads_past_coefficients examples.constLibm ⟨[], 1 / 100, 1, 1 / 10000, true⟩
    examples.oneRow [1] (by decide) rfl (by decide) rfl (by decide)

/-! ## The element-wise operations of `Matrix` -/

/-- A result matrix written cell by cell from values that do not depend on it. -/
theorem pointwise_spec (val : Nat → Nat → ℚ) (r c : Nat) :
    ((List.range r).foldl (fun result i =>
      (List.range c).foldl (fun result j => result.set i j (val i j)) result)
      (utils.Matrix.ofSize r c)).HasShape r c ∧
    ∀ i j, i < r → j < c →
      ((List.range r).foldl (fun result i =>
        (List.range c).foldl (fun result j => result.set i j (val i j)) result)
        (utils.Matrix.ofSize r c)).get i j = val i j := by
  have h := fill_spec (fun i _ => i) (fun _ j => j) val r c r c (utils.Matrix.ofSize r c)
    (hasShape_ofSize r c) (fun i j hi hj => ⟨hi, hj⟩)
    (fun i j i2 j2 _ _ _ _ h1 h2 => ⟨h1, h2⟩)
  exact ⟨h.1, h.2.1⟩

/-- A matrix rewritten in place, every cell from its own old value. -/
theorem update_spec (F : ℚ → Nat → Nat → ℚ) {m : utils.Matrix} {r c : Nat}
    (hm : m.HasShape r c) :
    ((List.range r).foldl (fun self i =>
      (List.range c).foldl (fun self j => self.set i j (F (self.get i j) i j)) self)
      m).HasShape r c ∧
    ∀ i j, i < r → j < c →
      ((List.range r).foldl (fun self i =>
        (List.range c).foldl (fun self j => self.set i j (F (self.get i j) i j)) self)
        m).get i j = F (m.get i j) i j := by
  have key := foldl_range_inv
    (fun k (a : utils.Matrix) => a.HasShape r c ∧ ∀ x y, x < r → y < c →
      a.get x y = if x < k then F (m.get x y) x y else m.get x y)
    (fun self i =>
      (List.range c).foldl (fun self j => self.set i j (F (self.get i j) i j)) self)
    r m ⟨hm, fun x y _ _ => by rw [if_neg (Nat.not_lt_zero _)]⟩
    (by
      intro k a hk ⟨ha, hget⟩
      have inner := foldl_range_inv
        (fun l (b : utils.Matrix) => b.HasShape r c ∧ ∀ x y, x < r → y < c →
          b.get x y = if x < k ∨ (x = k ∧ y < l) then F (m.get x y) x y else m.get x y)
        (fun self j => self.set k j (F (self.get k j) k j)) c a
        ⟨ha, fun x y hx hy => by
          rw [hget x y hx hy]
          by_cases h : x < k
          · rw [if_pos h, if_pos (Or.inl h)]
          · rw [if_neg h, if_neg (by rintro (h2 | ⟨_, h2⟩); exact h h2; omega)]⟩
        (by
          intro l b hl ⟨hb, hbget⟩
          refine ⟨hasShape_set hb _ _ _, ?_⟩
          intro x y hx hy
          rw [get_set hb hk hl]
          by_cases hxy : x = k ∧ y = l
          · obtain ⟨hx2, hy2⟩ := hxy
            subst hx2 hy2
            rw [if_pos ⟨rfl, rfl⟩, hbget x y hx hy,
              if_neg (by rintro (h2 | ⟨_, h2⟩) <;> omega),
              if_pos (Or.inr ⟨rfl, Nat.lt_succ_self y⟩)]
          · rw [if_neg hxy, hbget x y hx hy]
            by_cases h : x < k ∨ (x = k ∧ y < l)
            · rw [if_pos h, if_pos (by
                rcases h with h | ⟨h1, h2⟩
                · exact Or.inl h
                · exact Or.inr ⟨h1, by omega⟩)]
            · rw [if_neg h, if_neg (by
                rintro (h2 | ⟨h2, h3⟩)
                · exact h (Or.inl h2)
                · by_cases h4 : y = l
                  · exact hxy ⟨h2, h4⟩
                  · exact h (Or.inr ⟨h2, by omega⟩))])
      refine ⟨inner.1, ?_⟩
      intro x y hx hy
      rw [inner.2 x y hx hy]
      by_cases h : x < k + 1
      · rw [if_pos h, if_pos (by
          by_cases h2 : x < k
          · exact Or.inl h2
          · exact Or.inr ⟨by omega, hy⟩)]
      · rw [if_neg h, if_neg (by rintro (h2 | ⟨h2, _⟩) <;> omega)])
  refine ⟨key.1, ?_⟩
  intro i j hi hj
  rw [key.2 i j hi hj, if_pos hi]

/-- The outcome of `validateDimensions`. -/
theorem validateDimensions_eq (a b : utils.Matrix) :
    (a.rows_ = b.rows_ ∧ a.cols_ = b.cols_ → a.validateDimensions b = .ok ()) ∧
      (a.rows_ ≠ b.rows_ ∨ a.cols_ ≠ b.cols_ →
        a.validateDimensions b = .error .invalid_argument) := by
  unfold utils.Matrix.validateDimensions
  constructor
  · rintro ⟨h1, h2⟩
    rw [if_neg (by rintro (h | h); exact h h1; exact h h2)]
  · intro h
    rw [if_pos h]

/-- `operator+` on two matrices of one shape. -/
theorem add_spec {a b : utils.Matrix} (hr : a.rows_ = b.rows_) (hc : a.cols_ = b.cols_) :
    ∃ res, a.add b = .ok res ∧ res.HasShape a.rows_ a.cols_ ∧
      ∀ i j, i < a.rows_ → j < a.cols_ → res.get i j = a.get i j + b.get i j := by
  unfold utils.Matrix.add
  rw [(validateDimensions_eq a b).1 ⟨hr, hc⟩]
  exact ⟨_, rfl, pointwise_spec (fun i j => a.get i j + b.get i j) a.rows_ a.cols_⟩

/-- `operator-` on two matrices of one shape. -/
theorem sub_spec {a b : utils.Matrix} (hr : a.rows_ = b.rows_) (hc : a.cols_ = b.cols_) :
    ∃ res, a.sub b = .ok res ∧ res.HasShape a.rows_ a.cols_ ∧
      ∀ i j, i < a.rows_ → j < a.cols_ → res.get i j = a.get i j - b.get i j := by
  unfold utils.Matrix.sub
  rw [(validateDimensions_eq a b).1 ⟨hr, hc⟩]
  exact ⟨_, rfl, pointwise_spec (fun i j => a.get i j - b.get i j) a.rows_ a.cols_⟩

/-- `operator+` and `operator-` on matrices of two shapes. -/
theorem add_sub_mismatch {a b : utils.Matrix} (h : a.rows_ ≠ b.rows_ ∨ a.cols_ ≠ b.cols_) :
    a.add b = .error .invalid_argument ∧ a.sub b = .error .invalid_argument := by
  unfold utils.Matrix.add utils.Matrix.sub
  rw [(validateDimensions_eq a b).2 h]
  exact ⟨rfl, rfl⟩

/-- `operator*(double)`. -/
theorem scale_spec (a : utils.Matrix) (scalar : ℚ) :
    (a.scale scalar).HasShape a.rows_ a.cols_ ∧
      ∀ i j, i < a.rows_ → j < a.cols_ → (a.scale scalar).get i j = a.get i j * scalar :=
  pointwise_spec (fun i j => a.get i j * scalar) a.rows_ a.cols_

/-- `operator+=` on two matrices of one shape. -/
theorem addAssign_spec {a b : utils.Matrix} (ha : a.WF) (hr : a.rows_ = b.rows_)
    (hc : a.cols_ = b.cols_) :
    (a.addAssign b).1 = .ok () ∧ (a.addAssign b).2.HasShape a.rows_ a.cols_ ∧
      ∀ i j, i < a.rows_ → j < a.cols_ →
        (a.addAssign b).2.get i j = a.get i j + b.get i j := by
  unfold utils.Matrix.addAssign
  rw [(validateDimensions_eq a b).1 ⟨hr, hc⟩]
  exact ⟨rfl, update_spec (fun old i j => old + b.get i j) ⟨rfl, rfl, ha⟩⟩

/-- `operator-=` on two matrices of one shape. -/
theorem subAssign_spec {a b : utils.Matrix} (ha : a.WF) (hr : a.rows_ = b.rows_)
    (hc : a.cols_ = b.cols_) :
    (a.subAssign b).1 = .ok () ∧ (a.subAssign b).2.HasShape a.rows_ a.cols_ ∧
      ∀ i j, i < a.rows_ → j < a.cols_ →
        (a.subAssign b).2.get i j = a.get i j - b.get i j := by
  unfold utils.Matrix.subAssign
  rw [(validateDimensions_eq a b).1 ⟨hr, hc⟩]
  exact ⟨rfl, update_spec (fun old i j => old - b.get i j) ⟨rfl, rfl, ha⟩⟩

/-- `operator+=` and `operator-=` on matrices of two shapes: the throw, the object as it
was. -/
theorem assign_mismatch {a b : utils.Matrix} (h : a.rows_ ≠ b.rows_ ∨ a.cols_ ≠ b.cols_) :
    a.addAssign b = (.error .invalid_argument, a) ∧
      a.subAssign b = (.error .invalid_argument, a) := by
  unfold utils.Matrix.addAssign utils.Matrix.subAssign
  rw [(validateDimensions_eq a b).2 h]
  exact ⟨rfl, rfl⟩

/-- `operator*=`. -/
theorem scaleAssign_spec {a : utils.Matrix} (ha : a.WF) (scalar : ℚ) :
    (a.scaleAssign scalar).HasShape a.rows_ a.cols_ ∧
      ∀ i j, i < a.rows_ → j < a.cols_ →
        (a.scaleAssign scalar).get i j = a.get i j * scalar :=
  update_spec (fun old _ _ => old * scalar) ⟨rfl, rfl, ha⟩

/-- The cells of the transposed matrix. -/
theorem transpose_get {a : utils.Matrix} {r c : Nat} (ha : a.HasShape r c) (i j : Nat)
    (hi : i < r) (hj : j < c) : a.transpose.get j i = a.get i j := by
  have h := congrFun (congrFun (transpose_spec ha).2 ⟨j, hj⟩) ⟨i, hi⟩
  exact h

/-- The cells of the product. -/
theorem mul_get {a b : utils.Matrix} {r k c : Nat} (ha : a.HasShape r k)
    (hb : b.HasShape k c) :
    ∃ res, a.mul b = .ok res ∧ res.HasShape r c ∧
      ∀ i j, i < r → j < c → res.get i j = ∑ l in Finset.range k, a.get i l * b.get l j := by
  obtain ⟨res, hres, hshape, hmat⟩ := mul_spec ha hb
  refine ⟨res, hres, hshape, ?_⟩
  intro i j hi hj
  have h := congrFun (congrFun hmat ⟨i, hi⟩) ⟨j, hj⟩
  rw [Finset.sum_range]
  exact h

/-- The cells of the identity matrix. -/
theorem identity_get (n i j : Nat) (hi : i < n) (hj : j < n) :
    (utils.Matrix.identity n).get i j = if i = j then 1 else 0 := by
  have h := congrFun (congrFun (identity_spec n).2 ⟨i, hi⟩) ⟨j, hj⟩
  rw [Matrix.one_apply] at h
  simp only [Fin.mk.injEq] at h
  exact h

/-- `determinant` returns a number on every well-formed square matrix. -/
theorem determinant_ok {a : utils.Matrix} (hwf : a.WF) (hsq : a.rows_ = a.cols_) :
    ∃ d, a.determinant = .ok d := by
  by_cases hn : 1 ≤ a.rows_
  · exact ⟨_, determinant_spec a.rows_ a ⟨rfl, hsq.symm, hwf⟩ hn⟩
  · have h0 : a.rows_ = 0 := by omega
    have ha : a.HasShape 0 0 := ⟨h0, by rw [← hsq, h0], hwf⟩
    rw [determinant_eq ha]
    exact ⟨0, rfl⟩

/-- C23: for all well-formed matrices `A` and `B` of one shape, `A + B` is a matrix of the
shape of `A` and `(A + B) - B` is `A`, shape and cells. -/
theorem C23_add_then_sub_is_identity (A B : utils.Matrix) (hA : A.WF)
    (hr : A.rows_ = B.rows_) (hc : A.cols_ = B.cols_) :
    ∃ S, A.add B = .ok S ∧ S.HasShape A.rows_ A.cols_ ∧ S.sub B = .ok A := by
  obtain ⟨S, hS, hshape, hget⟩ := add_spec hr hc
  refine ⟨S, hS, hshape, ?_⟩
  obtain ⟨D, hD, hDshape, hDget⟩ :=
    @sub_spec S B (hshape.1.trans hr) (hshape.2.1.trans hc)
  rw [hD]
  congr 1
  rw [hshape.1, hshape.2.1] at hDshape hDget
  apply eq_of_get hDshape ⟨rfl, rfl, hA⟩
  intro i j hi hj
  rw [hDget i j hi hj, hget i j hi hj]
  ring

/-- C23 at `[[2, 1], [1, 1]]` and `[[1, -1], [-1, 2]]`. -/
theorem C23_add_then_sub_is_identity_witness :
    ∃ S, examples.invertible2.add examples.inverse2 = .ok S ∧
      S.HasShape examples.invertible2.rows_ examples.invertible2.cols_ ∧
      S.sub examples.inverse2 = .ok examples.invertible2 :=
  C23_add_then_sub_is_identity examples.invertible2 examples.inverse2 (by decide) rfl rfl

/-- C24: for every well-formed matrix `A` of `r` rows and `c` columns, zero counts included,
`A.transpose()` is a well-formed matrix of `c` rows and `r` columns whose cell `[j][i]` is
`A[i][j]`, and `A.transpose().transpose()` is `A`, shape and cells. -/
theorem C24_transpose_involution (A : utils.Matrix) (hA : A.WF) :
    A.transpose.HasShape A.cols_ A.rows_ ∧
      (∀ i j, i < A.rows_ → j < A.cols_ → A.transpose.get j i = A.get i j) ∧
      A.transpose.transpose = A := by
  have hshape : A.HasShape A.rows_ A.cols_ := ⟨rfl, rfl, hA⟩
  have ht := transpose_spec hshape
  refine ⟨ht.1, fun i j hi hj => transpose_get hshape i j hi hj, ?_⟩
  have htt := transpose_spec ht.1
  apply toMat_eq htt.1 hshape
  rw [htt.2, ht.2, Matrix.transpose_transpose]

/-- C24 at a matrix of 3 rows and no column, and at `[[1, 2], [2, 4]]`. -/
theorem C24_transpose_involution_witness :
    (utils.Matrix.ofSize 3 0).transpose.HasShape 0 3 ∧
      (∀ i j, i < (utils.Matrix.ofSize 3 0).rows_ → j < (utils.Matrix.ofSize 3 0).cols_ →
        (utils.Matrix.ofSize 3 0).transpose.get j i = (utils.Matrix.ofSize 3 0).get i j) ∧
      (utils.Matrix.ofSize 3 0).transpose.transpose = utils.Matrix.ofSize 3 0 :=
  C24_transpose_involution (utils.Matrix.ofSize 3 0) (by decide)

/-- C25: for every well-formed matrix `A` of `n` rows and `m` columns, `identity(n) * A`
and `A * identity(m)` return `A`, shape and cells; `identity(k)` is the well-formed matrix
of `k` rows and `k` columns with 1 on the diagonal and 0 elsewhere. -/
theorem C25_identity_is_neutral (A : utils.Matrix) (hA : A.WF) :
    (utils.Matrix.identity A.rows_).mul A = .ok A ∧
      A.mul (utils.Matrix.identity A.cols_) = .ok A ∧
      ∀ k, (utils.Matrix.identity k).HasShape k k ∧
        ∀ i j, i < k → j < k → (utils.Matrix.identity k).get i j = if i = j then 1 else 0 := by
  have hshape : A.HasShape A.rows_ A.cols_ := ⟨rfl, rfl, hA⟩
  refine ⟨?_, ?_, fun k => ⟨(identity_spec k).1, identity_get k⟩⟩
  · obtain ⟨res, hres, hrs, hmat⟩ := mul_spec (identity_spec A.rows_).1 hshape
    rw [hres]
    congr 1
    apply toMat_eq hrs hshape
    rw [hmat, (identity_spec A.rows_).2, Matrix.one_mul]
  · obtain ⟨res, hres, hrs, hmat⟩ := mul_spec hshape (identity_spec A.cols_).1
    rw [hres]
    congr 1
    apply toMat_eq hrs hshape
    rw [hmat, (identity_spec A.cols_).2, Matrix.mul_one]

/-- C25 at the matrix `[[0, 1], [0, 2]]`. -/
theorem C25_identity_is_neutral_witness :
    (utils.Matrix.identity examples.twoColumns.rows_).mul examples.twoColumns =
        .ok examples.twoColumns ∧
      examples.twoColumns.mul (utils.Matrix.identity examples.twoColumns.cols_) =
        .ok examples.twoColumns ∧
      ∀ k, (utils.Matrix.identity k).HasShape k k ∧
        ∀ i j, i < k → j < k → (utils.Matrix.identity k).get i j = if i = j then 1 else 0 :=
  C25_identity_is_neutral examples.twoColumns (by decide)

/-- C26: on well-formed matrices `A` and `B`: `A + B` and `A - B` throw
`std::invalid_argument` when the shapes differ and return a matrix of the shape of `A` when
they agree; `A * B` throws `std::invalid_argument` when `A.cols() ≠ B.rows()` and otherwise
returns the matrix of `A.rows()` rows and `B.cols()` columns with the cells
`Σ_k A[i][k] · B[k][j]`; `determinant` and `inverse` throw `std::invalid_argument` when `A`
is not square, and on a square `A` `determinant` returns a number and `inverse` returns a
matrix or throws the `std::runtime_error` of the pivot test. -/
theorem C26_shape_errors (A B : utils.Matrix) (hA : A.WF) (hB : B.WF) :
    ((A.rows_ ≠ B.rows_ ∨ A.cols_ ≠ B.cols_) →
      A.add B = .error .invalid_argument ∧ A.sub B = .error .invalid_argument) ∧
    ((A.rows_ = B.rows_ ∧ A.cols_ = B.cols_) →
      ∃ S D, A.add B = .ok S ∧ A.sub B = .ok D ∧ S.HasShape A.rows_ A.cols_ ∧
        D.HasShape A.rows_ A.cols_) ∧
    (A.cols_ ≠ B.rows_ → A.mul B = .error .invalid_argument) ∧
    (A.cols_ = B.rows_ →
      ∃ P, A.mul B = .ok P ∧ P.HasShape A.rows_ B.cols_ ∧
        ∀ i j, i < A.rows_ → j < B.cols_ →
          P.get i j = ∑ k in Finset.range A.cols_, A.get i k * B.get k j) ∧
    (A.rows_ ≠ A.cols_ →
      A.determinant = .error .invalid_argument ∧ A.inverse = .error .invalid_argument) ∧
    (A.rows_ = A.cols_ →
      (∃ d, A.determinant = .ok d) ∧
      ((∃ M, A.inverse = .ok M) ∨ A.inverse = .error .runtime_error)) := by
  refine ⟨add_sub_mismatch, ?_, ?_, ?_, ?_, ?_⟩
  · rintro ⟨hr, hc⟩
    obtain ⟨S, hS, hSs, _⟩ := add_spec hr hc
    obtain ⟨D, hD, hDs, _⟩ := sub_spec hr hc
    exact ⟨S, D, hS, hD, hSs, hDs⟩
  · intro h
    unfold utils.Matrix.mul
    rw [if_pos h]
  · intro h
    exact mul_get (⟨rfl, rfl, hA⟩ : A.HasShape A.rows_ A.cols_)
      (⟨h.symm, rfl, hB⟩ : B.HasShape A.cols_ B.cols_)
  · intro h
    constructor
    · rw [utils.Matrix.determinant, if_pos h]
    · unfold utils.Matrix.inverse
      rw [if_pos h]
  · intro h
    refine ⟨determinant_ok hA h, ?_⟩
    cases hinv : A.inverse with
    | ok M => exact Or.inl ⟨M, rfl⟩
    | error e =>
      right
      rw [(inverse_error ⟨rfl, h.symm, hA⟩ hinv).1]

/-- C26 at `[[2, 1], [1, 1]]` and the matrix `[[1], [1]]` of another shape. -/
theorem C26_shape_errors_witness :
    ((examples.invertible2.rows_ ≠ examples.twinRows.rows_ ∨
        examples.invertible2.cols_ ≠ examples.twinRows.cols_) →
      examples.invertible2.add examples.twinRows = .error .invalid_argument ∧
      examples.invertible2.sub examples.twinRows = .error .invalid_argument) ∧
    ((examples.invertible2.rows_ = examples.twinRows.rows_ ∧
        examples.invertible2.cols_ = examples.twinRows.cols_) →
      ∃ S D, examples.invertible2.add examples.twinRows = .ok S ∧
        examples.invertible2.sub examples.twinRows = .ok D ∧
        S.HasShape examples.invertible2.rows_ examples.invertible2.cols_ ∧
        D.HasShape examples.invertible2.rows_ examples.invertible2.cols_) ∧
    (examples.invertible2.cols_ ≠ examples.twinRows.rows_ →
      examples.invertible2.mul examples.twinRows = .error .invalid_argument) ∧
    (examples.invertible2.cols_ = examples.twinRows.rows_ →
      ∃ P, examples.invertible2.mul examples.twinRows = .ok P ∧
        P.HasShape examples.invertible2.rows_ examples.twinRows.cols_ ∧
        ∀ i j, i < examples.invertible2.rows_ → j < examples.twinRows.cols_ →
          P.get i j = ∑ k in Finset.range examples.invertible2.cols_,
            examples.invertible2.get i k * examples.twinRows.get k j) ∧
    (examples.invertible2.rows_ ≠ examples.invertible2.cols_ →
      examples.invertible2.determinant = .error .invalid_argument ∧
      examples.invertible2.inverse = .error .invalid_argument) ∧
    (examples.invertible2.rows_ = examples.invertible2.cols_ →
      (∃ d, examples.invertible2.determinant = .ok d) ∧
      ((∃ M, examples.invertible2.inverse = .ok M) ∨
        examples.invertible2.inverse = .error .runtime_error)) :=
  C26_shape_errors examples.invertible2 examples.twinRows (by decide) (by decide)

/-! ## `Matrix::reshape` -/

/-- The rows appended to a vector that is not empty. -/
theorem foldl_append_rows (l : List (List ℚ)) (init : List ℚ) :
    l.foldl (fun temp row => temp ++ row) init =
      init ++ l.foldl (fun temp row => temp ++ row) [] := by
  induction l generalizing init with
  | nil => simp
  | cons row rest ih =>
    rw [List.foldl_cons, List.foldl_cons, ih, ih ([] ++ row), List.nil_append,
      List.append_assoc]

/-- The length of the flattening of rows of one length. -/
theorem flat_length (l : List (List ℚ)) (c : Nat) (h : ∀ row ∈ l, row.length = c) :
    (l.foldl (fun temp row => temp ++ row) []).length = l.length * c := by
  induction l with
  | nil => simp
  | cons row rest ih =>
    rw [List.foldl_cons, List.nil_append, foldl_append_rows, List.length_append,
      ih (fun r hr => h r (List.mem_cons_of_mem _ hr)), h row (List.mem_cons_self _ _),
      List.length_cons]
    ring

/-- The cell `[i][j]` in the flattening of rows of one length. -/
theorem flat_getD (l : List (List ℚ)) (c : Nat) (h : ∀ row ∈ l, row.length = c) :
    ∀ i j, i < l.length → j < c →
      (l.foldl (fun temp row => temp ++ row) []).getD (i * c + j) 0 =
        (l.getD i []).getD j 0 := by
  induction l with
  | nil => intro i j hi _; exact absurd hi (Nat.not_lt_zero _)
  | cons row rest ih =>
    intro i j hi hj
    have hrow := h row (List.mem_cons_self _ _)
    rw [List.foldl_cons, List.nil_append, foldl_append_rows]
    cases i with
    | zero =>
      rw [Nat.zero_mul, Nat.zero_add, List.getD_append _ _ _ _ (by rw [hrow]; exact hj)]
      rfl
    | succ i =>
      rw [List.getD_append_right _ _ _ _ (by rw [hrow, Nat.succ_mul]; omega), hrow,
        show (i + 1) * c + j - c = i * c + j by rw [Nat.succ_mul]; omega,
        ih (fun r hr => h r (List.mem_cons_of_mem _ hr)) i j
          (by rw [List.length_cons] at hi; omega) hj]
      rfl

/-- The stored rows after the two `resize`: `rows` rows of `cols` cells. -/
theorem resized_shape (m : utils.Matrix) (rows cols : Nat) :
    (m.resized rows cols).length = rows ∧ ∀ row ∈ m.resized rows cols, row.length = cols := by
  unfold utils.Matrix.resized
  constructor
  · rw [List.length_map, List.length_take, List.length_append, List.length_replicate]
    omega
  · intro row hrow
    obtain ⟨r, _, hr⟩ := List.mem_map.mp hrow
    rw [← hr, List.length_take, List.length_append, List.length_replicate]
    omega

/-- The refill of one row when `temp` holds the cells it reads. -/
theorem refill_row (temp : List ℚ) (i : Nat) (cols : Nat) (a : utils.Matrix) (k : Nat)
    (h : k + cols ≤ temp.length) :
    (List.range cols).foldlM (fun (st : utils.Matrix × Nat) j =>
      utils.Matrix.refill temp i j st) (a, k) =
      .ok ((List.range cols).foldl (fun b j => b.set i j (temp.getD (k + j) 0)) a,
        k + cols) := by
  induction cols with
  | zero => rfl
  | succ c ih =>
    rw [foldlM_range_succ, ih (by omega)]
    simp only
    unfold utils.Matrix.refill
    have hlt : k + c < temp.length := by omega
    simp only [List.getElem?_eq_getElem hlt]
    rw [List.range_succ, List.foldl_append, List.foldl_cons, List.foldl_nil,
      List.getD_eq_getElem _ _ hlt]
    rfl

/-- The refill of all rows when `temp` holds the cells it reads. -/
theorem refill_rows (temp : List ℚ) (rows cols : Nat) (a : utils.Matrix)
    (h : rows * cols ≤ temp.length) :
    (List.range rows).foldlM (fun (st : utils.Matrix × Nat) i =>
      (List.range cols).foldlM (fun (st : utils.Matrix × Nat) j =>
        utils.Matrix.refill temp i j st) st) (a, 0) =
      .ok ((List.range rows).foldl (fun b i =>
        (List.range cols).foldl (fun b j => b.set i j (temp.getD (i * cols + j) 0)) b) a,
        rows * cols) := by
  induction rows with
  | zero =>
    rw [Nat.zero_mul]
    rfl
  | succ r ih =>
    have hr : r * cols + cols ≤ temp.length := by rw [Nat.succ_mul] at h; exact h
    rw [foldlM_range_succ, ih (by omega)]
    simp only
    rw [refill_row temp r cols _ (r * cols) hr, List.range_succ, List.foldl_append,
      List.foldl_cons, List.foldl_nil, Nat.succ_mul]

/-- The writes of cells act on the stored rows only. -/
theorem fill_data (val : Nat → Nat → ℚ) (r c : Nat) (x y : utils.Matrix)
    (h : x.data_ = y.data_) :
    ((List.range r).foldl (fun b i =>
      (List.range c).foldl (fun b j => b.set i j (val i j)) b) x).data_ =
    ((List.range r).foldl (fun b i =>
      (List.range c).foldl (fun b j => b.set i j (val i j)) b) y).data_ := by
  have hstep : ∀ (l : List Nat) (f : utils.Matrix → Nat → utils.Matrix),
      (∀ a b i, a.data_ = b.data_ → (f a i).data_ = (f b i).data_) →
      ∀ a b, a.data_ = b.data_ → (l.foldl f a).data_ = (l.foldl f b).data_ := by
    intro l f hf
    induction l with
    | nil => intro a b hab; exact hab
    | cons i l ih => intro a b hab; exact ih _ _ (hf a b i hab)
  apply hstep _ _ _ x y h
  intro a b i hab
  apply hstep _ _ _ a b hab
  intro a b j hab
  unfold utils.Matrix.set
  simp only
  rw [hab]

/-- The writes of cells leave the two counts. -/
theorem fill_fields (val : Nat → Nat → ℚ) (r c : Nat) (x : utils.Matrix) :
    ((List.range r).foldl (fun b i =>
      (List.range c).foldl (fun b j => b.set i j (val i j)) b) x).rows_ = x.rows_ ∧
    ((List.range r).foldl (fun b i =>
      (List.range c).foldl (fun b j => b.set i j (val i j)) b) x).cols_ = x.cols_ := by
  exact foldl_range_inv (fun _ (b : utils.Matrix) => b.rows_ = x.rows_ ∧ b.cols_ = x.cols_)
    _ r x ⟨rfl, rfl⟩ (by
      intro k b _ hb
      exact foldl_range_inv
        (fun _ (d : utils.Matrix) => d.rows_ = x.rows_ ∧ d.cols_ = x.cols_)
        _ c b hb (by
          intro j d _ hd
          exact hd))

/-- `reshape` on a well-formed matrix to a shape of as many cells: the call returns, the
object has the new shape, its cell `[i][j]` is the cell `i * cols + j` of the flattening
before the call, and its flattening is the one before the call. -/
theorem reshape_spec (m : utils.Matrix) (rows cols : Nat) (hwf : m.WF)
    (hsize : rows * cols = m.rows_ * m.cols_) :
    ∃ res, m.reshape rows cols = (.ok (), res) ∧ res.HasShape rows cols ∧
      (∀ i j, i < rows → j < cols → res.get i j = m.flatten.getD (i * cols + j) 0) ∧
      res.flatten = m.flatten := by
  have hlen : m.flatten.length = rows * cols := by
    unfold utils.Matrix.flatten
    rw [flat_length m.data_ m.cols_ hwf.2, hwf.1, hsize]
  obtain ⟨hrl, hrc⟩ := resized_shape m rows cols
  have hinit : (⟨rows, cols, m.resized rows cols⟩ : utils.Matrix).HasShape rows cols :=
    ⟨rfl, rfl, hrl, hrc⟩
  have hfill := fill_spec (fun i _ => i) (fun _ j => j)
    (fun i j => m.flatten.getD (i * cols + j) 0) rows cols rows cols _ hinit
    (fun i j hi hj => ⟨hi, hj⟩) (fun i j i2 j2 _ _ _ _ h1 h2 => ⟨h1, h2⟩)
  have hfields := fill_fields (fun i j => m.flatten.getD (i * cols + j) 0) rows cols
    ⟨rows, cols, m.resized rows cols⟩
  have hdata := fill_data (fun i j => m.flatten.getD (i * cols + j) 0) rows cols
    ⟨m.rows_, m.cols_, m.resized rows cols⟩ ⟨rows, cols, m.resized rows cols⟩ rfl
  obtain ⟨res, hres⟩ : ∃ res, res = (List.range rows).foldl (fun b i =>
      (List.range cols).foldl (fun b j =>
        b.set i j (m.flatten.getD (i * cols + j) 0)) b)
      (⟨rows, cols, m.resized rows cols⟩ : utils.Matrix) := ⟨_, rfl⟩
  rw [← hres] at hfill hfields hdata
  have hcall : m.reshape rows cols = (.ok (), res) := by
    unfold utils.Matrix.reshape
    rw [if_neg (by rw [hsize]; exact fun h => h rfl)]
    simp only
    rw [refill_rows m.flatten rows cols _ (le_of_eq hlen.symm)]
    simp only
    rw [hdata]
    congr 1
    obtain ⟨r2, c2, d2⟩ := res
    simp only at hfields
    rw [hfields.1, hfields.2]
  have hrows : ∀ row ∈ res.data_, row.length = cols := by
    intro row hrow
    rw [hfill.1.2.2.2 row hrow, hfill.1.2.1]
  refine ⟨res, hcall, hfill.1, hfill.2.1, ?_⟩
  apply List.ext_getElem
  · unfold utils.Matrix.flatten at hlen ⊢
    rw [flat_length res.data_ cols hrows, hfill.1.2.2.1, hfill.1.1, hlen]
  · intro n h1 h2
    have hn : n < rows * cols := by rw [← hlen]; exact h2
    have hcpos : 0 < cols := by
      rcases Nat.eq_zero_or_pos cols with h | h
      · rw [h, Nat.mul_zero] at hn
        exact absurd hn (Nat.not_lt_zero _)
      · exact h
    have hdiv : n / cols < rows := (Nat.div_lt_iff_lt_mul hcpos).mpr hn
    have hmod : n % cols < cols := Nat.mod_lt _ hcpos
    have hsplit : n / cols * cols + n % cols = n := by
      rw [Nat.mul_comm]
      exact Nat.div_add_mod n cols
    have hflat := flat_getD res.data_ cols hrows (n / cols) (n % cols)
      (by rw [hfill.1.2.2.1, hfill.1.1]; exact hdiv) hmod
    rw [hsplit] at hflat
    have hcell := hfill.2.1 (n / cols) (n % cols) hdiv hmod
    simp only at hcell
    rw [hsplit] at hcell
    rw [← List.getD_eq_getElem _ 0 h1, ← List.getD_eq_getElem _ 0 h2]
    unfold utils.Matrix.flatten
    rw [hflat]
    exact hcell

/-- The refill throws nothing but the outcome of the unchecked read. -/
theorem refill_error (temp : List ℚ) (rows cols : Nat) (init : utils.Matrix × Nat)
    (e : Error)
    (h : (List.range rows).foldlM (fun (st : utils.Matrix × Nat) i =>
      (List.range cols).foldlM (fun (st : utils.Matrix × Nat) j =>
        utils.Matrix.refill temp i j st) st) init = .error e) :
    e = .undefined := by
  obtain ⟨i, a, _, _, hrow⟩ := foldlM_range_error _ _ _ _ h
  obtain ⟨j, b, _, _, hcell⟩ := foldlM_range_error _ _ _ _ hrow
  unfold utils.Matrix.refill at hcell
  cases hread : temp[b.2]? with
  | none =>
    simp only [hread] at hcell
    injection hcell with hcell
    exact hcell.symm
  | some v =>
    simp only [hread] at hcell
    cases hcell

/-- The guard of `reshape`: with the two products of `size_t` different the call throws
`std::invalid_argument` and leaves the object; with the two products equal it does not throw
`std::invalid_argument`. -/
theorem reshape_guard (m : utils.Matrix) (rows cols : Nat) :
    ((rows * cols) % utils.sizeRange ≠ (m.rows_ * m.cols_) % utils.sizeRange →
      m.reshape rows cols = (.error .invalid_argument, m)) ∧
    ((rows * cols) % utils.sizeRange = (m.rows_ * m.cols_) % utils.sizeRange →
      (m.reshape rows cols).1 ≠ .error .invalid_argument) := by
  constructor
  · intro h
    unfold utils.Matrix.reshape
    rw [if_pos h]
  · intro h
    unfold utils.Matrix.reshape
    rw [if_neg (fun h2 => h2 h)]
    simp only
    cases hloop : (List.range rows).foldlM (fun (st : utils.Matrix × Nat) i =>
      (List.range cols).foldlM (fun (st : utils.Matrix × Nat) j =>
        utils.Matrix.refill m.flatten i j st) st)
        ((⟨m.rows_, m.cols_, m.resized rows cols⟩ : utils.Matrix), 0) with
    | ok st => simp
    | error e =>
      rw [refill_error _ _ _ _ _ hloop]
      simp

/-- A `reshape` that returns leaves a well-formed object of the new shape. -/
theorem reshape_wf (m : utils.Matrix) (rows cols : Nat)
    (h : (m.reshape rows cols).1 = .ok ()) : (m.reshape rows cols).2.HasShape rows cols := by
  unfold utils.Matrix.reshape at h ⊢
  by_cases hguard : (rows * cols) % utils.sizeRange ≠ (m.rows_ * m.cols_) % utils.sizeRange
  · rw [if_pos hguard] at h
    cases h
  · rw [if_neg hguard] at h ⊢
    simp only at h ⊢
    obtain ⟨hrl, hrc⟩ := resized_shape m rows cols
    have hinv := foldlM_range_inv
      (fun _ (st : utils.Matrix × Nat) =>
        st.1.data_.length = rows ∧ ∀ row ∈ st.1.data_, row.length = cols)
      (fun (st : utils.Matrix × Nat) i =>
        (List.range cols).foldlM (fun (st : utils.Matrix × Nat) j =>
          utils.Matrix.refill m.flatten i j st) st) rows
      ((⟨m.rows_, m.cols_, m.resized rows cols⟩ : utils.Matrix), 0) ⟨hrl, hrc⟩
      (by
        intro i a b _ ha hb
        exact foldlM_range_inv
          (fun _ (st : utils.Matrix × Nat) =>
            st.1.data_.length = rows ∧ ∀ row ∈ st.1.data_, row.length = cols)
          (fun (st : utils.Matrix × Nat) j => utils.Matrix.refill m.flatten i j st) cols a ha
          (by
            intro j c d _ hc hd
            unfold utils.Matrix.refill at hd
            cases hread : (m.flatten)[c.2]? with
            | none =>
              simp only [hread] at hd
              cases hd
            | some v =>
              simp only [hread] at hd
              injection hd with hd
              rw [← hd]
              have hs := hasShape_set (⟨rfl, rfl, hc⟩ :
                (⟨rows, cols, c.1.data_⟩ : utils.Matrix).HasShape rows cols) i j v
              exact hs.2.2) b hb)
    cases hloop : (List.range rows).foldlM (fun (st : utils.Matrix × Nat) i =>
      (List.range cols).foldlM (fun (st : utils.Matrix × Nat) j =>
        utils.Matrix.refill m.flatten i j st) st)
        ((⟨m.rows_, m.cols_, m.resized rows cols⟩ : utils.Matrix), 0) with
    | error e =>
      rw [hloop] at h
      cases h
    | ok st =>
      exact ⟨rfl, rfl, hinv st hloop⟩

/-- C27, evaluated where it fails: on the empty matrix `Matrix(0, 0)` the call
`reshape(2^32, 2^32)` asks for `2^64` cells, not the 0 cells of the matrix, but the product
`rows * cols` of `size_t` is 0, the guard compares 0 with 0 and the call does not throw the
size-mismatch error `std::invalid_argument`: it goes on to the two `resize` and to the read
`temp[0]` of the empty `temp`. -/
theorem C27_reshape_guard_wraps :
    2 ^ 32 * 2 ^ 32 ≠ (utils.Matrix.ofSize 0 0).rows_ * (utils.Matrix.ofSize 0 0).cols_ ∧
      ((utils.Matrix.ofSize 0 0).reshape (2 ^ 32) (2 ^ 32)).1 ≠ .error .invalid_argument :=
  ⟨by decide, (reshape_guard (utils.Matrix.ofSize 0 0) (2 ^ 32) (2 ^ 32)).2 (by decide)⟩

/-- The constructor from nested data: the throw. -/
theorem ofData_error (data : List (List ℚ)) :
    utils.Matrix.ofData data = .error .invalid_argument ↔
      ∃ row ∈ data, row.length ≠ (data.getD 0 []).length := by
  unfold utils.Matrix.ofData
  cases data with
  | nil => simp [List.isEmpty]
  | cons first rest =>
    simp only [List.isEmpty, Bool.false_eq_true, if_false]
    by_cases h : (first :: rest).any
        (fun row => decide (row.length ≠ ((first :: rest).getD 0 []).length)) = true
    · rw [if_pos h]
      constructor
      · intro _
        obtain ⟨row, hrow, hne⟩ := List.any_eq_true.mp h
        exact ⟨row, hrow, of_decide_eq_true hne⟩
      · intro _
        rfl
    · rw [if_neg h]
      constructor
      · intro hok
        cases hok
      · rintro ⟨row, hrow, hne⟩
        exact absurd (List.any_eq_true.mpr ⟨row, hrow, decide_eq_true hne⟩) h

/-- The constructor from nested data: the matrix. -/
theorem ofData_ok (data : List (List ℚ))
    (h : ∀ row ∈ data, row.length = (data.getD 0 []).length) :
    utils.Matrix.ofData data = .ok ⟨data.length, (data.getD 0 []).length, data⟩ := by
  unfold utils.Matrix.ofData
  cases data with
  | nil => rfl
  | cons first rest =>
    simp only [List.isEmpty, Bool.false_eq_true, if_false]
    rw [if_neg]
    intro hany
    obtain ⟨row, hrow, hne⟩ := List.any_eq_true.mp hany
    exact of_decide_eq_true hne (h row hrow)

/-- C28: `Matrix(rows, cols)` is the well-formed matrix of `rows` rows and `cols` columns
with every cell 0; `Matrix(data)` throws `std::invalid_argument` exactly when some row of
`data` has another length than the first row, and otherwise it is the well-formed matrix
with `rows = data.size()`, `cols` the length of the first row (0 and 0 for empty data) and
the stored rows `data`. -/
theorem C28_constructors (rows cols : Nat) (data : List (List ℚ)) :
    (utils.Matrix.ofSize rows cols).HasShape rows cols ∧
      (∀ i j, i < rows → j < cols → (utils.Matrix.ofSize rows cols).get i j = 0) ∧
      (utils.Matrix.ofData data = .error .invalid_argument ↔
        ∃ row ∈ data, row.length ≠ (data.getD 0 []).length) ∧
      ((∀ row ∈ data, row.length = (data.getD 0 []).length) →
        utils.Matrix.ofData data = .ok ⟨data.length, (data.getD 0 []).length, data⟩ ∧
        (⟨data.length, (data.getD 0 []).length, data⟩ : utils.Matrix).WF) ∧
      utils.Matrix.ofData [] = .ok ⟨0, 0, []⟩ := by
  refine ⟨hasShape_ofSize rows cols, fun i j _ _ => get_ofSize rows cols i j,
    ofData_error data, ?_, rfl⟩
  intro h
  exact ⟨ofData_ok data h, rfl, h⟩

/-- The result of `inverse` is well-formed, whatever the stored rows of the argument. -/
theorem inverse_wf (a res : utils.Matrix) (h : a.inverse = .ok res) :
    res.HasShape a.rows_ a.cols_ := by
  unfold utils.Matrix.inverse at h
  by_cases hsq : a.rows_ ≠ a.cols_
  · rw [if_pos hsq] at h
    cases h
  · rw [if_neg hsq] at h
    cases hloop : (List.range a.rows_).foldlM
        (fun augmented i => a.eliminate augmented i) a.augment with
    | error e =>
      rw [hloop] at h
      cases h
    | ok augmented =>
      rw [hloop] at h
      simp only at h
      injection h with h
      rw [← h]
      exact (pointwise_spec (fun i j => augmented.get i (j + a.cols_)) a.rows_ a.cols_).1

/-- The result of the matrix product is well-formed, whatever the stored rows of the
arguments. -/
theorem mul_wf (a b res : utils.Matrix) (h : a.mul b = .ok res) :
    res.HasShape a.rows_ b.cols_ := by
  unfold utils.Matrix.mul at h
  by_cases hk : a.cols_ ≠ b.rows_
  · rw [if_pos hk] at h
    cases h
  · rw [if_neg hk] at h
    injection h with h
    rw [← h]
    exact (pointwise_spec (fun i j => (List.range a.cols_).foldl
      (fun sum k => sum + a.get i k * b.get k j) 0) a.rows_ b.cols_).1

/-- The result of `operator+` and of `operator-` is well-formed. -/
theorem add_sub_wf (a b res : utils.Matrix) (h : a.add b = .ok res ∨ a.sub b = .ok res) :
    res.HasShape a.rows_ a.cols_ := by
  by_cases hshape : a.rows_ ≠ b.rows_ ∨ a.cols_ ≠ b.cols_
  · obtain ⟨h1, h2⟩ := add_sub_mismatch hshape
    rw [h1, h2] at h
    rcases h with h | h <;> cases h
  · have hr : a.rows_ = b.rows_ := by
      by_contra hne
      exact hshape (Or.inl hne)
    have hc : a.cols_ = b.cols_ := by
      by_contra hne
      exact hshape (Or.inr hne)
    obtain ⟨S, hS, hSs, _⟩ := add_spec hr hc
    obtain ⟨D, hD, hDs, _⟩ := sub_spec hr hc
    rcases h with h | h
    · rw [hS] at h
      injection h with h
      rw [← h]
      exact hSs
    · rw [hD] at h
      injection h with h
      rw [← h]
      exact hDs

/-- The result of `transpose` is well-formed, whatever the stored rows of the argument. -/
theorem transpose_wf (a : utils.Matrix) : a.transpose.HasShape a.cols_ a.rows_ := by
  have h := fill_spec (fun _ j => j) (fun i _ => i) (fun i j => a.get i j) a.rows_ a.cols_
    a.cols_ a.rows_ (utils.Matrix.ofSize a.cols_ a.rows_) (hasShape_ofSize _ _)
    (fun i j hi hj => ⟨hj, hi⟩) (fun i j i2 j2 _ _ _ _ h1 h2 => ⟨h2, h1⟩)
  exact h.1

/-- C29: the class invariant (`rows()` stored rows, each of length `cols()`) holds for the
matrix of each of the two constructors that returns, for `identity`, `zeros` and `ones`, for
the results of `+`, `-`, the matrix product, the scalar product, `transpose` and `inverse`,
for the object after `+=`, `-=` and `*=` on an object that had the invariant, thrown or not,
and for the object after a `reshape` that returns. -/
theorem C29_shape_invariant :
    (∀ rows cols, (utils.Matrix.ofSize rows cols).HasShape rows cols) ∧
    (∀ data m, utils.Matrix.ofData data = .ok m → m.WF) ∧
    (∀ n, (utils.Matrix.identity n).HasShape n n) ∧
    (∀ rows cols, (utils.Matrix.zeros rows cols).HasShape rows cols) ∧
    (∀ rows cols, (utils.Matrix.ones rows cols).HasShape rows cols) ∧
    (∀ a b res : utils.Matrix, a.add b = .ok res → res.HasShape a.rows_ a.cols_) ∧
    (∀ a b res : utils.Matrix, a.sub b = .ok res → res.HasShape a.rows_ a.cols_) ∧
    (∀ a b res : utils.Matrix, a.mul b = .ok res → res.HasShape a.rows_ b.cols_) ∧
    (∀ (a : utils.Matrix) (scalar : ℚ), (a.scale scalar).HasShape a.rows_ a.cols_) ∧
    (∀ a b : utils.Matrix, a.WF → (a.addAssign b).2.HasShape a.rows_ a.cols_) ∧
    (∀ a b : utils.Matrix, a.WF → (a.subAssign b).2.HasShape a.rows_ a.cols_) ∧
    (∀ (a : utils.Matrix) (scalar : ℚ), a.WF →
      (a.scaleAssign scalar).HasShape a.rows_ a.cols_) ∧
    (∀ a : utils.Matrix, a.transpose.HasShape a.cols_ a.rows_) ∧
    (∀ a res : utils.Matrix, a.inverse = .ok res → res.HasShape a.rows_ a.cols_) ∧
    (∀ (a : utils.Matrix) (rows cols : Nat), (a.reshape rows cols).1 = .ok () →
      (a.reshape rows cols).2.HasShape rows cols) := by
  refine ⟨hasShape_ofSize, ?_, fun n => (identity_spec n).1, hasShape_ofSize,
    fun rows cols => (ones_spec rows cols).1,
    fun a b res h => add_sub_wf a b res (Or.inl h),
    fun a b res h => add_sub_wf a b res (Or.inr h), mul_wf,
    fun a scalar => (scale_spec a scalar).1, ?_, ?_,
    fun a scalar ha => (scaleAssign_spec ha scalar).1, transpose_wf, inverse_wf, reshape_wf⟩
  · intro data m h
    by_cases hrows : ∀ row ∈ data, row.length = (data.getD 0 []).length
    · rw [ofData_ok data hrows] at h
      injection h with h
      rw [← h]
      exact ⟨rfl, hrows⟩
    · have herr := (ofData_error data).mpr (by
        by_contra hno
        apply hrows
        intro row hrow
        by_contra hne
        exact hno ⟨row, hrow, hne⟩)
      rw [herr] at h
      cases h
  · intro a b ha
    by_cases hshape : a.rows_ ≠ b.rows_ ∨ a.cols_ ≠ b.cols_
    · rw [(assign_mismatch hshape).1]
      exact ⟨rfl, rfl, ha⟩
    · have hr : a.rows_ = b.rows_ := by
        by_contra hne
        exact hshape (Or.inl hne)
      have hc : a.cols_ = b.cols_ := by
        by_contra hne
        exact hshape (Or.inr hne)
      exact (addAssign_spec ha hr hc).2.1
  · intro a b ha
    by_cases hshape : a.rows_ ≠ b.rows_ ∨ a.cols_ ≠ b.cols_
    · rw [(assign_mismatch hshape).2]
      exact ⟨rfl, rfl, ha⟩
    · have hr : a.rows_ = b.rows_ := by
        by_contra hne
        exact hshape (Or.inl hne)
      have hc : a.cols_ = b.cols_ := by
        by_contra hne
        exact hshape (Or.inr hne)
      exact (subAssign_spec ha hr hc).2.1

/-! ## The predictions of the two regressions -/

/-- The loop of `train` leaves the width of the coefficients and the intercept flag. -/
theorem iterate_fields (libm : models.Libm) (features : utils.Matrix) (targets : List ℚ)
    (hwf : features.WF) (n : Nat) :
    ∀ (self m : models.LogisticRegression),
      self.coefficients_.length =
        models.LogisticRegression.width self.fitIntercept_ features →
      models.LogisticRegression.iterate libm (models.designMatrix self.fitIntercept_ features)
        features targets n self = .ok m →
      m.coefficients_.length = models.LogisticRegression.width self.fitIntercept_ features ∧
        m.fitIntercept_ = self.fitIntercept_ := by
  induction n with
  | zero =>
    intro self m hlen h
    rw [models.LogisticRegression.iterate] at h
    injection h with h
    rw [← h]
    exact ⟨hlen, rfl⟩
  | succ n ih =>
    intro self m hlen h
    rw [iterate_succ libm self features targets n hwf hlen] at h
    cases hcost : (self.withCoefficients (models.LogisticRegression.gradientStep libm
        self.fitIntercept_ self.learningRate_ features targets
        self.coefficients_)).computeCost libm
          (models.designMatrix self.fitIntercept_ features) targets with
    | error e =>
      rw [hcost] at h
      cases h
    | ok cost =>
      rw [hcost] at h
      simp only [Except.bind] at h
      by_cases hstop : cost < self.tolerance_
      · rw [if_pos hstop] at h
        injection h with h
        rw [← h]
        exact ⟨gradientStep_length _ _ _ _ _ _, rfl⟩
      · rw [if_neg hstop] at h
        exact ih (self.withCoefficients (models.LogisticRegression.gradientStep libm
          self.fitIntercept_ self.learningRate_ features targets self.coefficients_)) m
          (gradientStep_length _ _ _ _ _ _) h

/-- A `train` of the logistic regression that returns true: the counts match and the model
is the one the loop returns from the zero vector. -/
theorem logistic_train_ok (libm : models.Libm) (self m : models.LogisticRegression)
    (features : utils.Matrix) (targets : List ℚ)
    (h : self.train libm features targets = (.ok true, m)) :
    features.rows_ = targets.length ∧
      models.LogisticRegression.iterate libm
        (models.designMatrix self.fitIntercept_ features) features targets self.maxIterations_
        (self.withCoefficients (List.replicate
          (models.LogisticRegression.width self.fitIntercept_ features) 0)) = .ok m := by
  by_cases hcount : features.rows_ = targets.length
  · refine ⟨hcount, ?_⟩
    obtain ⟨hok, herr⟩ := logistic_train_eq libm self features targets hcount
    cases hloop : models.LogisticRegression.iterate libm
        (models.designMatrix self.fitIntercept_ features) features targets self.maxIterations_
        (self.withCoefficients (List.replicate
          (models.LogisticRegression.width self.fitIntercept_ features) 0)) with
    | error e =>
      have h2 := herr e hloop
      rw [h] at h2
      cases h2
    | ok m2 =>
      have h2 := hok m2 hloop
      rw [h] at h2
      injection h2 with _ h3
      rw [h3]
  · unfold models.LogisticRegression.train at h
    rw [if_pos hcount] at h
    injection h with h1 _
    cases h1

/-- The sigmoid is between 0 and 1 where `exp` is positive. -/
theorem sigmoid_bounds (libm : models.Libm) (z : ℚ) (hexp : 0 < libm.exp (-z)) :
    0 < models.LogisticRegression.sigmoid libm z ∧
      models.LogisticRegression.sigmoid libm z < 1 := by
  unfold models.LogisticRegression.sigmoid
  have hden : (0 : ℚ) < 1 + libm.exp (-z) := by linarith
  constructor
  · exact div_pos one_pos hden
  · rw [div_lt_one hden]
    linarith

/-- `LinearRegression::predict` on features of the width of the coefficients: one prediction
for every row, the product of the row of the design matrix with the coefficients. -/
theorem linear_predict_spec (self : models.LinearRegression) (features : utils.Matrix)
    (hwf : features.WF)
    (hlen : self.coefficients_.length =
      models.LogisticRegression.width self.fitIntercept_ features) :
    self.predict features =
      .ok ((List.range features.rows_).map (fun i =>
        ∑ k in Finset.range (models.LogisticRegression.width self.fitIntercept_ features),
          models.LogisticRegression.augmentedRow self.fitIntercept_ features i k *
            self.coefficients_.getD k 0)) := by
  obtain ⟨hr, hc, _, hget⟩ := designMatrix_augmented self.fitIntercept_ hwf
  unfold models.LinearRegression.predict
  simp only
  rw [hr, hc, foldlM_range_ok _ (fun predictions i => predictions.set i
    (∑ k in Finset.range (models.LogisticRegression.width self.fitIntercept_ features),
      models.LogisticRegression.augmentedRow self.fitIntercept_ features i k *
        self.coefficients_.getD k 0))]
  · rw [foldl_set_update (fun _ i =>
      ∑ k in Finset.range (models.LogisticRegression.width self.fitIntercept_ features),
        models.LogisticRegression.augmentedRow self.fitIntercept_ features i k *
          self.coefficients_.getD k 0) _ _ (List.length_replicate _ _)]
  · intro predictions i hi
    rw [foldlM_range_ok _ (fun z j =>
      z + (models.designMatrix self.fitIntercept_ features).get i j *
        self.coefficients_.getD j 0), foldl_add_range]
    · rw [Finset.sum_congr rfl (fun k hk => by rw [hget i k hi (Finset.mem_range.mp hk)])]
      rfl
    · intro z j hj
      have hlt : j < self.coefficients_.length := by omega
      simp only [List.getElem?_eq_getElem hlt, List.getD_eq_getElem _ _ hlt]

/-- The product of the augmented row with the coefficients, the intercept apart. -/
theorem augmented_dot (fit : Bool) (features : utils.Matrix) (theta : List ℚ) (i : Nat) :
    (∑ k in Finset.range (models.LogisticRegression.width fit features),
      models.LogisticRegression.augmentedRow fit features i k * theta.getD k 0) =
      if fit then
        theta.getD 0 0 + ∑ j in Finset.range features.cols_,
          features.get i j * theta.getD (j + 1) 0
      else ∑ j in Finset.range features.cols_, features.get i j * theta.getD j 0 := by
  unfold models.LogisticRegression.width models.LogisticRegression.augmentedRow
  cases fit with
  | false => simp
  | true =>
    simp only [if_true]
    rw [Finset.sum_range_succ', add_comm]
    simp

/-- A `train` of the linear regression that returns true: the coefficients have the width of
the design matrix and the intercept flag is kept. -/
theorem linear_train_ok (self m : models.LinearRegression) (features : utils.Matrix)
    (targets : List ℚ) (hwf : features.WF)
    (h : self.train features targets = (.ok true, m)) :
    m.coefficients_.length = models.LogisticRegression.width self.fitIntercept_ features ∧
      m.fitIntercept_ = self.fitIntercept_ := by
  obtain ⟨hr, hc, hXwf, _⟩ := designMatrix_augmented self.fitIntercept_ hwf
  unfold models.LinearRegression.train at h
  by_cases hcount : features.rows_ ≠ targets.length
  · rw [if_pos hcount] at h
    injection h with h1 _
    cases h1
  · rw [if_neg hcount] at h
    have hcount2 : targets.length = features.rows_ := by
      by_contra hne
      exact hcount (fun heq => hne heq.symm)
    obtain ⟨G, _, _, _, herr, hok⟩ := solve_spec self
      (⟨hr, hc, hXwf⟩ : (models.designMatrix self.fitIntercept_ features).HasShape
        features.rows_ (models.LogisticRegression.width self.fitIntercept_ features))
      targets hcount2
    cases hinv : G.inverse with
    | error e =>
      rw [herr e hinv] at h
      injection h with h1 _
      cases h1
    | ok M =>
      obtain ⟨theta, hsolve, hshape, _⟩ := hok M hinv
      rw [hsolve] at h
      simp only at h
      injection h with _ h2
      rw [← h2]
      simp only
      rw [coefficients_fill, List.length_map, List.length_range, hshape.1]
      constructor <;> first | rfl | trivial

/-- C22: for every model that a `train` returning true on well-formed features left,
`getParameters()` has `n_features + 1` cells when an intercept is fitted and `n_features`
cells otherwise, and on every well-formed query matrix of `n_features` columns `predict`
returns one value for every row: with an intercept the cell 0 of the parameters plus the
product of the row with the cells from 1 on, without an intercept the product of the row
with the parameters. -/
theorem C22_linear_predict_dot_product (self m : models.LinearRegression)
    (features query : utils.Matrix) (targets : List ℚ) (hwf : features.WF)
    (htrain : self.train features targets = (.ok true, m)) (hquery : query.WF)
    (hcols : query.cols_ = features.cols_) :
    m.getParameters.length =
        (if self.fitIntercept_ then features.cols_ + 1 else features.cols_) ∧
      m.fitIntercept_ = self.fitIntercept_ ∧
      m.predict query = .ok ((List.range query.rows_).map (fun i =>
        if self.fitIntercept_ then
          m.getParameters.getD 0 0 + ∑ j in Finset.range query.cols_,
            query.get i j * m.getParameters.getD (j + 1) 0
        else ∑ j in Finset.range query.cols_, query.get i j * m.getParameters.getD j 0)) := by
  obtain ⟨hlen, hfit⟩ := linear_train_ok self m features targets hwf htrain
  refine ⟨hlen, hfit, ?_⟩
  have hlen2 : m.coefficients_.length =
      models.LogisticRegression.width m.fitIntercept_ query := by
    rw [hlen, hfit]
    unfold models.LogisticRegression.width
    rw [hcols]
  rw [linear_predict_spec m query hquery hlen2]
  congr 1
  apply List.map_congr_left
  intro i _
  rw [augmented_dot, hfit]
  rfl

/-- C22 at the four samples of `y = 2 x1 + 3 x2 + 1`, the parameters `[1, 2, 3]` and the
query rows `[0, 1]`, `[0, 2]`. -/
theorem C22_linear_predict_dot_product_witness :
    (models.LinearRegression.getParameters ⟨[1, 2, 3], true⟩).length =
        (if true then examples.planeFeatures.cols_ + 1 else examples.planeFeatures.cols_) ∧
      (⟨[1, 2, 3], true⟩ : models.LinearRegression).fitIntercept_ = true ∧
      models.LinearRegression.predict ⟨[1, 2, 3], true⟩ examples.twoColumns =
        .ok ((List.range examples.twoColumns.rows_).map (fun i =>
          if true then
            (models.LinearRegression.getParameters ⟨[1, 2, 3], true⟩).getD 0 0 +
              ∑ j in Finset.range examples.twoColumns.cols_,
                examples.twoColumns.get i j *
                  (models.LinearRegression.getParameters ⟨[1, 2, 3], true⟩).getD (j + 1) 0
          else ∑ j in Finset.range examples.twoColumns.cols_,
            examples.twoColumns.get i j *
              (models.LinearRegression.getParameters ⟨[1, 2, 3], true⟩).getD j 0)) :=
  C22_linear_predict_dot_product ⟨[], true⟩ ⟨[1, 2, 3], true⟩ examples.planeFeatures
    examples.twoColumns examples.planeTargets (by decide) (by decide!) (by decide) rfl

/-! ## `DataPreprocessor::standardize` -/

/-- The write of a cell keeps the shape. -/
theorem cell_shape_set {m : data.CellMatrix} {r c : Nat} (h : m.HasShape r c) (i j : Nat)
    (v : Option ℚ) : (m.set i j v).HasShape r c := by
  obtain ⟨hr, hc, hl, hrow⟩ := h
  refine ⟨hr, hc, ?_, ?_⟩
  · simp [data.CellMatrix.set, hl]
  · intro row hmem
    simp only [data.CellMatrix.set] at hmem
    rcases List.mem_or_eq_of_mem_set hmem with h1 | h1
    · exact hrow row h1
    · subst h1
      rw [List.length_set]
      by_cases hi : i < m.data_.length
      · have : m.data_.getD i [] ∈ m.data_ := by
          rw [List.getD_eq_getElem _ _ hi]; exact List.getElem_mem _
        exact hrow _ this
      · have hge : m.data_.length ≤ i := Nat.le_of_not_lt hi
        rw [List.set_eq_of_length_le hge] at hmem
        have hlen := hrow _ hmem
        rw [List.length_set] at hlen
        exact hlen

/-- The cells after the write of one cell. -/
theorem cell_get_set {m : data.CellMatrix} {r c : Nat} (h : m.HasShape r c) {i j : Nat}
    (hi : i < r) (hj : j < c) (v : Option ℚ) (x y : Nat) :
    (m.set i j v).get x y = if x = i ∧ y = j then v else m.get x y := by
  obtain ⟨_, _, hl, hrow⟩ := h
  have hil : i < m.data_.length := by omega
  have hrowi : (m.data_.getD i []).length = c := by
    apply hrow
    rw [List.getD_eq_getElem _ _ hil]; exact List.getElem_mem _
  unfold data.CellMatrix.get data.CellMatrix.set
  simp only [List.getD_eq_getElem?_getD, List.getElem?_set]
  by_cases hx : x = i
  · subst hx
    simp only [hil, if_true, true_and, Option.getD_some, List.getElem?_set]
    by_cases hy : y = j
    · subst hy
      have : y < (m.data_[x]?.getD []).length := by
        rw [← List.getD_eq_getElem?_getD, hrowi]; exact hj
      simp [this]
    · have : ¬ j = y := fun h => hy h.symm
      simp [hy, this]
  · have : ¬ i = x := fun h => hx h.symm
    simp [hx, this]

/-- The zero matrix that `standardize` starts from. -/
theorem cell_zero (r c : Nat) :
    (⟨r, c, List.replicate r (List.replicate c (some 0))⟩ : data.CellMatrix).HasShape r c ∧
      ∀ x y, x < r → y < c →
        (⟨r, c, List.replicate r (List.replicate c (some 0))⟩ : data.CellMatrix).get x y =
          some 0 := by
  refine ⟨⟨rfl, rfl, List.length_replicate _ _, ?_⟩, ?_⟩
  · intro row hrow
    rw [List.eq_of_mem_replicate hrow, List.length_replicate]
  · intro x y hx hy
    unfold data.CellMatrix.get
    simp only [List.getD_eq_getElem?_getD, List.getElem?_replicate]
    simp [hx, hy]

/-- A matrix written column by column, every cell from a value that does not depend on the
matrix. -/
theorem cell_fill_spec (val : Nat → Nat → Option ℚ) (r c : Nat) :
    ((List.range c).foldl (fun a j =>
      (List.range r).foldl (fun a i => a.set i j (val i j)) a)
      (⟨r, c, List.replicate r (List.replicate c (some 0))⟩ : data.CellMatrix)).HasShape r c ∧
    ∀ i j, i < r → j < c →
      ((List.range c).foldl (fun a j =>
        (List.range r).foldl (fun a i => a.set i j (val i j)) a)
        (⟨r, c, List.replicate r (List.replicate c (some 0))⟩ : data.CellMatrix)).get i j =
          val i j := by
  have key := foldl_range_inv
    (fun k (a : data.CellMatrix) => a.HasShape r c ∧ ∀ x y, x < r → y < c →
      a.get x y = if y < k then val x y else some 0)
    (fun a j => (List.range r).foldl (fun a i => a.set i j (val i j)) a) c
    (⟨r, c, List.replicate r (List.replicate c (some 0))⟩ : data.CellMatrix)
    ⟨(cell_zero r c).1, fun x y hx hy => by
      rw [if_neg (Nat.not_lt_zero _)]
      exact (cell_zero r c).2 x y hx hy⟩
    (by
      intro k a hk ⟨ha, hget⟩
      have inner := foldl_range_inv
        (fun l (b : data.CellMatrix) => b.HasShape r c ∧ ∀ x y, x < r → y < c →
          b.get x y = if y < k ∨ (y = k ∧ x < l) then val x y else some 0)
        (fun a i => a.set i k (val i k)) r a
        ⟨ha, fun x y hx hy => by
          rw [hget x y hx hy]
          by_cases h : y < k
          · rw [if_pos h, if_pos (Or.inl h)]
          · rw [if_neg h, if_neg (by rintro (h2 | ⟨_, h2⟩); exact h h2; omega)]⟩
        (by
          intro l b hl ⟨hb, hbget⟩
          refine ⟨cell_shape_set hb _ _ _, ?_⟩
          intro x y hx hy
          rw [cell_get_set hb hl hk]
          by_cases hxy : x = l ∧ y = k
          · obtain ⟨hx2, hy2⟩ := hxy
            subst hx2 hy2
            rw [if_pos ⟨rfl, rfl⟩, if_pos (Or.inr ⟨rfl, Nat.lt_succ_self x⟩)]
          · rw [if_neg hxy, hbget x y hx hy]
            by_cases h : y < k ∨ (y = k ∧ x < l)
            · rw [if_pos h, if_pos (by
                rcases h with h | ⟨h1, h2⟩
                · exact Or.inl h
                · exact Or.inr ⟨h1, by omega⟩)]
            · rw [if_neg h, if_neg (by
                rintro (h2 | ⟨h2, h3⟩)
                · exact h (Or.inl h2)
                · by_cases h4 : x = l
                  · exact hxy ⟨h4, h2⟩
                  · exact h (Or.inr ⟨h2, by omega⟩))])
      refine ⟨inner.1, ?_⟩
      intro x y hx hy
      rw [inner.2 x y hx hy]
      by_cases h : y < k + 1
      · rw [if_pos h, if_pos (by
          by_cases h2 : y < k
          · exact Or.inl h2
          · exact Or.inr ⟨by omega, hx⟩)]
      · rw [if_neg h, if_neg (by rintro (h2 | ⟨h2, _⟩) <;> omega)])
  refine ⟨key.1, ?_⟩
  intro i j hi hj
  rw [key.2 i j hi hj, if_pos hj]

/-- The mean and the variance that `standardize` computes for a column, as sums. -/
theorem column_sums (features : utils.Matrix) (j : Nat) :
    data.DataPreprocessor.columnMean features j =
        (∑ i in Finset.range features.rows_, features.get i j) / features.rows_ ∧
      data.DataPreprocessor.columnVariance features j =
        (∑ i in Finset.range features.rows_,
          (features.get i j - data.DataPreprocessor.columnMean features j) *
            (features.get i j - data.DataPreprocessor.columnMean features j)) /
          features.rows_ := by
  unfold data.DataPreprocessor.columnVariance
  simp only
  rw [foldl_add_range]
  unfold data.DataPreprocessor.columnMean
  rw [foldl_add_range]
  exact ⟨rfl, rfl⟩

/-- The matrix `standardize` returns: the shape of the features, and in every cell the
quotient of the distance to the mean of the column by the square root of its variance. -/
theorem standardize_spec (libm : models.Libm) (features : utils.Matrix) :
    (data.DataPreprocessor.standardize libm features).HasShape features.rows_
        features.cols_ ∧
      ∀ i j, i < features.rows_ → j < features.cols_ →
        (data.DataPreprocessor.standardize libm features).get i j =
          data.quotient (features.get i j - data.DataPreprocessor.columnMean features j)
            (libm.sqrt (data.DataPreprocessor.columnVariance features j)) :=
  cell_fill_spec (fun i j =>
    data.quotient (features.get i j - data.DataPreprocessor.columnMean features j)
      (libm.sqrt (data.DataPreprocessor.columnVariance features j)))
    features.rows_ features.cols_

/-- The mean and the variance of a constant column. -/
theorem constant_column (features : utils.Matrix) (j : Nat) (hrows : 0 < features.rows_)
    (hconst : ∀ i, i < features.rows_ → features.get i j = features.get 0 j) :
    data.DataPreprocessor.columnMean features j = features.get 0 j ∧
      data.DataPreprocessor.columnVariance features j = 0 := by
  have hn : (features.rows_ : ℚ) ≠ 0 := Nat.cast_ne_zero.mpr (by omega)
  have hmean : data.DataPreprocessor.columnMean features j = features.get 0 j := by
    rw [(column_sums features j).1,
      Finset.sum_congr rfl (fun i hi => hconst i (Finset.mem_range.mp hi)),
      Finset.sum_const, Finset.card_range, nsmul_eq_mul]
    field_simp
  refine ⟨hmean, ?_⟩
  rw [(column_sums features j).2, hmean,
    Finset.sum_congr rfl (fun i hi => by
      rw [hconst i (Finset.mem_range.mp hi), sub_self, mul_zero]),
    Finset.sum_const_zero, zero_div]

/-- A column of positive variance whose square root `sqrt` returns exactly: the standardized
cells are numbers, their mean is 0 and their population variance is 1. -/
theorem standardize_unit_variance (libm : models.Libm) (features : utils.Matrix) (j : Nat)
    (hj : j < features.cols_) (hrows : 0 < features.rows_)
    (hpos : data.DataPreprocessor.columnVariance features j ≠ 0)
    (hsqrt : libm.sqrt (data.DataPreprocessor.columnVariance features j) *
      libm.sqrt (data.DataPreprocessor.columnVariance features j) =
        data.DataPreprocessor.columnVariance features j) :
    ∃ z : Nat → ℚ,
      (∀ i, i < features.rows_ →
        (data.DataPreprocessor.standardize libm features).get i j = some (z i)) ∧
      (∑ i in Finset.range features.rows_, z i) / features.rows_ = 0 ∧
      (∑ i in Finset.range features.rows_, z i * z i) / features.rows_ = 1 := by
  have hn : (features.rows_ : ℚ) ≠ 0 := Nat.cast_ne_zero.mpr (by omega)
  have hs0 : libm.sqrt (data.DataPreprocessor.columnVariance features j) ≠ 0 := by
    intro h0
    rw [h0, mul_zero] at hsqrt
    exact hpos hsqrt.symm
  have hcell : ∀ i, i < features.rows_ →
      (data.DataPreprocessor.standardize libm features).get i j =
        some ((features.get i j - data.DataPreprocessor.columnMean features j) /
          libm.sqrt (data.DataPreprocessor.columnVariance features j)) := by
    intro i hi
    rw [(standardize_spec libm features).2 i j hi hj]
    unfold data.quotient
    rw [if_neg hs0]
  obtain ⟨hmean, hvar⟩ := column_sums features j
  generalize data.DataPreprocessor.columnMean features j = mu at hmean hvar hcell ⊢
  generalize data.DataPreprocessor.columnVariance features j = v at hvar hpos hsqrt hs0 hcell ⊢
  refine ⟨fun i => (features.get i j - mu) / libm.sqrt v, hcell, ?_, ?_⟩
  · have hsum : (∑ i in Finset.range features.rows_, features.get i j) =
        mu * features.rows_ := by
      rw [hmean]
      field_simp
    simp only
    rw [← Finset.sum_div, Finset.sum_sub_distrib, Finset.sum_const, Finset.card_range,
      nsmul_eq_mul, hsum, mul_comm mu, sub_self, zero_div, zero_div]
  · have hsq : ∀ i, (features.get i j - mu) / libm.sqrt v *
        ((features.get i j - mu) / libm.sqrt v) =
        (features.get i j - mu) * (features.get i j - mu) / v := by
      intro i
      rw [div_mul_div_comm, hsqrt]
    simp only
    rw [Finset.sum_congr rfl (fun i _ => hsq i), ← Finset.sum_div]
    have hsum : (∑ i in Finset.range features.rows_,
        (features.get i j - mu) * (features.get i j - mu)) = v * features.rows_ := by
      rw [hvar]
      field_simp
    rw [hsum]
    field_simp

/-- C30, where it fails: a column of a feature matrix with at least one row whose cells are
all equal has the variance 0 and, with a square root that is 0 at 0, the standard deviation
0; `standardize` divides the distances to the mean, all 0, by it, and no cell of the column
in the matrix it returns is a number: the column has no mean 0 and no variance 1. The
matrix has the shape of the features. -/
theorem C30_constant_column_not_a_number (libm : models.Libm) (features : utils.Matrix)
    (j : Nat) (hj : j < features.cols_) (hrows : 0 < features.rows_)
    (hconst : ∀ i, i < features.rows_ → features.get i j = features.get 0 j)
    (hsqrt : libm.sqrt 0 = 0) :
    (data.DataPreprocessor.standardize libm features).HasShape features.rows_
        features.cols_ ∧
      ∀ i, i < features.rows_ →
        (data.DataPreprocessor.standardize libm features).get i j = none := by
  refine ⟨(standardize_spec libm features).1, ?_⟩
  intro i hi
  rw [(standardize_spec libm features).2 i j hi hj,
    (constant_column features j hrows hconst).2, hsqrt]
  rfl

/-- C30, where it fails, at the rows `[1]`, `[1]`. -/
theorem C30_constant_column_not_a_number_witness :
    (data.DataPreprocessor.standardize examples.unitLibm examples.twinRows).HasShape
        examples.twinRows.rows_ examples.twinRows.cols_ ∧
      ∀ i, i < examples.twinRows.rows_ →
        (data.DataPreprocessor.standardize examples.unitLibm examples.twinRows).get i 0 =
          none :=
  C30_constant_column_not_a_number examples.unitLibm examples.twinRows 0 (by decide)
    (by decide) (by
      intro i hi
      have h2 : i = 0 ∨ i = 1 := by
        have : i < 2 := hi
        omega
      rcases h2 with h | h <;> subst h <;> rfl) rfl

/-- C31: on every input, whatever `maxDepth`, `minSamplesSplit` and `maxFeatures`: the tree
that a `train` returning true stores is a leaf or one internal node with two leaves, so its
height is at most 1; the split of `buildTree` hands to each child all the targets of its
side and a feature matrix of at most one row; on a feature matrix of at most one row
`findBestSplit` finds no split and `buildTree` returns a leaf. -/
theorem C31_tree_has_at_most_one_split (self : models.DecisionTree)
    (shuffle : models.Shuffle) (features : utils.Matrix) (targets : List ℚ) :
    ((self.train shuffle features targets).1 = .ok true →
      ∃ tree, (self.train shuffle features targets).2.root_ = some tree ∧
        tree.height ≤ 1 ∧
        ((∃ value, tree = .leaf value) ∨
          ∃ f t left right, tree = .node f t (.leaf left) (.leaf right))) ∧
    (∀ f t,
      (models.DecisionTree.splitData features targets f t).2.2.1 =
        models.DecisionTree.leftOf features targets f t ∧
      (models.DecisionTree.splitData features targets f t).2.2.2 =
        models.DecisionTree.rightOf features targets f t ∧
      (models.DecisionTree.splitData features targets f t).1.rows_ ≤ 1 ∧
      (models.DecisionTree.splitData features targets f t).2.1.rows_ ≤ 1) ∧
    (∀ (child : utils.Matrix) (childTargets : List ℚ) (f : Nat), child.rows_ ≤ 1 →
      models.DecisionTree.findBestSplit child childTargets f = (0, ⊤)) ∧
    (∀ (path : List Bool) (child : utils.Matrix) (childTargets : List ℚ) (depth : Nat),
      child.rows_ ≤ 1 →
      ∃ value, self.buildTree shuffle path child childTargets depth = .leaf value) := by
  refine ⟨?_, splitData_spec features targets, findBestSplit_small, ?_⟩
  · unfold models.DecisionTree.train
    by_cases hguard : features.rows_ ≠ targets.length ∨ features.rows_ = 0
    · rw [if_pos hguard]
      intro h
      simp at h
    · rw [if_neg hguard]
      intro _
      refine ⟨_, rfl, ?_⟩
      have hne : targets ≠ [] := by
        intro h
        apply hguard
        by_cases h2 : features.rows_ = 0
        · exact Or.inr h2
        · left
          rw [h]
          exact h2
      rcases buildTree_shape
        (if self.maxFeatures_ = 0 then { self with maxFeatures_ := features.cols_ } else self)
        shuffle [] features targets 0 hne with hleaf | ⟨f, t, _, _, _, hnode⟩
      · rw [hleaf]
        exact ⟨Nat.zero_le _, Or.inl ⟨_, rfl⟩⟩
      · rw [hnode]
        exact ⟨by simp [models.DecisionTreeNode.height], Or.inr ⟨f, t, _, _, rfl⟩⟩
  · intro path child childTargets depth hrows
    obtain ⟨value, hvalue, _⟩ :=
      buildTree_small self shuffle path child childTargets depth hrows
    exact ⟨value, hvalue⟩

/-- `computeCost` on the features themselves, without intercept: every read of a
coefficient is inside the vector and the call returns. -/
theorem computeCost_ok (libm : models.Libm) (self : models.LogisticRegression)
    (features : utils.Matrix) (targets : List ℚ) (hwf : features.WF)
    (hfit : self.fitIntercept_ = false)
    (hlen : self.coefficients_.length =
      models.LogisticRegression.width self.fitIntercept_ features) :
    ∃ cost, self.computeCost libm (models.designMatrix self.fitIntercept_ features) targets =
      .ok cost := by
  have hX : models.designMatrix self.fitIntercept_ features = features := by
    rw [hfit]
    rfl
  rw [hX]
  unfold models.LogisticRegression.computeCost
  rw [logistic_predict_spec libm self features hwf hlen]
  exact ⟨_, rfl⟩

/-- The loop of `train` without intercept returns. -/
theorem iterate_ok (libm : models.Libm) (features : utils.Matrix) (targets : List ℚ)
    (hwf : features.WF) (n : Nat) :
    ∀ (self : models.LogisticRegression), self.fitIntercept_ = false →
      self.coefficients_.length =
        models.LogisticRegression.width self.fitIntercept_ features →
      ∃ m, models.LogisticRegression.iterate libm
        (models.designMatrix self.fitIntercept_ features) features targets n self = .ok m := by
  induction n with
  | zero =>
    intro self _ _
    exact ⟨self, by rw [models.LogisticRegression.iterate]⟩
  | succ n ih =>
    intro self hfit hlen
    rw [iterate_succ libm self features targets n hwf hlen]
    obtain ⟨cost, hcost⟩ := computeCost_ok libm
      (self.withCoefficients (models.LogisticRegression.gradientStep libm
        self.fitIntercept_ self.learningRate_ features targets self.coefficients_))
      features targets hwf hfit (gradientStep_length _ _ _ _ _ _)
    have hcost2 : (self.withCoefficients (models.LogisticRegression.gradientStep libm
        self.fitIntercept_ self.learningRate_ features targets
        self.coefficients_)).computeCost libm
          (models.designMatrix self.fitIntercept_ features) targets = .ok cost := hcost
    rw [hcost2]
    simp only [Except.bind]
    by_cases hstop : cost < self.tolerance_
    · rw [if_pos hstop]
      exact ⟨_, rfl⟩
    · rw [if_neg hstop]
      exact ih (self.withCoefficients (models.LogisticRegression.gradientStep libm
        self.fitIntercept_ self.learningRate_ features targets self.coefficients_)) hfit
        (gradientStep_length _ _ _ _ _ _)

/-- C32, where it fails: on well-formed features of at least one row with matching counts
and at least one iteration, `train` reaches a read of `coefficients_` outside the vector
exactly when an intercept is fitted. With an intercept the matrix handed to `computeCost`
already has the column of ones, `predict` inside `computeCost` adds one more, so the rows
it walks have one more cell than `coefficients_`, and the cost of the first iteration is
the outcome of the read past the end. Without intercept every read is inside the vector and
`train` returns true. -/
theorem C32_coefficient_read_past_the_end (libm : models.Libm)
    (self : models.LogisticRegression) (features : utils.Matrix) (targets : List ℚ)
    (hwf : features.WF) (hcount : features.rows_ = targets.length)
    (hrows : 0 < features.rows_) (hiter : 0 < self.maxIterations_) :
    ((self.train libm features targets).1 = .error .undefined ↔
      self.fitIntercept_ = true) ∧
    (self.fitIntercept_ = true →
      (models.designMatrix self.fitIntercept_
        (models.designMatrix self.fitIntercept_ features)).cols_ =
        (models.LogisticRegression.gradientStep libm self.fitIntercept_ self.learningRate_
          features targets (List.replicate
            (models.LogisticRegression.width self.fitIntercept_ features) 0)).length + 1 ∧
      (self.withCoefficients (models.LogisticRegression.gradientStep libm
        self.fitIntercept_ self.learningRate_ features targets (List.replicate
          (models.LogisticRegression.width self.fitIntercept_ features) 0))).computeCost libm
        (models.designMatrix self.fitIntercept_ features) targets = .error .undefined) ∧
    (self.fitIntercept_ = false → (self.train libm features targets).1 = .ok true) := by
  obtain ⟨hok, herr⟩ := logistic_train_eq libm self features targets hcount
  have hbad : self.fitIntercept_ = true →
      (self.train libm features targets).1 = .error .undefined := by
    intro hfit
    apply herr
    obtain ⟨n, hn⟩ : ∃ n, self.maxIterations_ = n + 1 :=
      ⟨self.maxIterations_ - 1, by omega⟩
    rw [hn]
    refine (iterate_succ libm (self.withCoefficients (List.replicate
      (models.LogisticRegression.width self.fitIntercept_ features) 0)) features targets n
      hwf (List.length_replicate _ _)).trans ?_
    have hcost := computeCost_undefined libm
      (self.withCoefficients (models.LogisticRegression.gradientStep libm
        self.fitIntercept_ self.learningRate_ features targets (List.replicate
          (models.LogisticRegression.width self.fitIntercept_ features) 0)))
      features targets hwf hrows hfit (gradientStep_length _ _ _ _ _ _)
    have hbind : ∀ (r : Except Error ℚ) (f : ℚ → Except Error models.LogisticRegression),
        r = .error .undefined → Except.bind r f = .error .undefined := by
      intro r f hr
      rw [hr]
      rfl
    exact hbind _ _ hcost
  have hgood : self.fitIntercept_ = false →
      (self.train libm features targets).1 = .ok true := by
    intro hfit
    obtain ⟨m, hm⟩ := iterate_ok libm features targets hwf self.maxIterations_
      (self.withCoefficients (List.replicate
        (models.LogisticRegression.width self.fitIntercept_ features) 0)) hfit
      (List.length_replicate _ _)
    rw [hok m hm]
  refine ⟨⟨?_, hbad⟩, ?_, hgood⟩
  · intro h
    cases hfit : self.fitIntercept_ with
    | true => rfl
    | false =>
      rw [hgood hfit] at h
      cases h
  · intro hfit
    obtain ⟨_, _, hXwf, _⟩ := designMatrix_augmented self.fitIntercept_ hwf
    refine ⟨?_, computeCost_undefined libm
      (self.withCoefficients (models.LogisticRegression.gradientStep libm
        self.fitIntercept_ self.learningRate_ features targets (List.replicate
          (models.LogisticRegression.width self.fitIntercept_ features) 0)))
      features targets hwf hrows hfit (gradientStep_length _ _ _ _ _ _)⟩
    rw [gradientStep_length, designMatrix_cols]
    unfold models.LogisticRegression.width
    rw [hfit, if_pos rfl, if_pos rfl, designMatrix_cols]
    unfold models.LogisticRegression.width
    rw [if_pos rfl]

/-- C32, where it fails, at one row `[1]` of target 1, an intercept and one iteration. -/
theorem C32_coefficient_read_past_the_end_witness :
    ((models.LogisticRegression.train examples.constLibm ⟨[], 1 / 100, 1, 1 / 10000, true⟩
        examples.oneRow [1]).1 = .error .undefined ↔ true = true) ∧
    (true = true →
      (models.designMatrix true (models.designMatrix true examples.oneRow)).cols_ =
        (models.LogisticRegression.gradientStep examples.constLibm true (1 / 100)
          examples.oneRow [1] (List.replicate
            (models.LogisticRegression.width true examples.oneRow) 0)).length + 1 ∧
      models.LogisticRegression.computeCost examples.constLibm
        (models.LogisticRegression.withCoefficients ⟨[], 1 / 100, 1, 1 / 10000, true⟩
          (models.LogisticRegression.gradientStep examples.constLibm true (1 / 100)
            examples.oneRow [1] (List.replicate
              (models.LogisticRegression.width true examples.oneRow) 0)))
        (models.designMatrix true examples.oneRow) [1] = .error .undefined) ∧
    (true = false →
      (models.LogisticRegression.train examples.constLibm ⟨[], 1 / 100, 1, 1 / 10000, true⟩
        examples.oneRow [1]).1 = .ok true) :=
  C32_coefficient_read_past_the_end examples.constLibm ⟨[], 1 / 100, 1, 1 / 10000, true⟩
    examples.oneRow [1] (by decide) rfl (by decide) (by decide)

/-- The body of the loop of `predict` when `k` is 0 or larger than the number of stored
rows: the call of `partial_sort` past the end of `distances`, or the dereference of `end()`
of the empty tally. -/
theorem predictRow_undefined (libm : models.Libm) (self : models.KNNClassifier)
    (query : List ℚ) (hwf : self.trainFeatures_.WF)
    (hcount : self.trainFeatures_.rows_ = self.trainTargets_.length)
    (hq : query.length = self.trainFeatures_.cols_)
    (hk : ¬ (1 ≤ self.k_ ∧ self.k_ ≤ self.trainFeatures_.rows_)) :
    self.predictRow libm query = .error .undefined := by
  have hd := distances_spec libm self query hwf hcount hq
  obtain ⟨dists, hdists⟩ : ∃ dists, dists = (List.range self.trainFeatures_.rows_).map (fun j =>
        (libm.sqrt (∑ i in Finset.range query.length,
          (query.getD i 0 - (self.trainFeatures_.data_.getD j []).getD i 0) *
            (query.getD i 0 - (self.trainFeatures_.data_.getD j []).getD i 0)),
          self.trainTargets_.getD j 0)) := ⟨_, rfl⟩
  rw [← hdists] at hd
  have hlen : dists.length = self.trainFeatures_.rows_ := by
    rw [hdists, List.length_map, List.length_range]
  unfold models.KNNClassifier.predictRow
  rw [hd]
  simp only
  by_cases hbig : self.k_ > dists.length
  · have hnear : models.KNNClassifier.nearest self.k_ dists = .error .undefined := by
      unfold models.KNNClassifier.nearest
      rw [if_pos hbig]
    rw [hnear]
  · have hzero : self.k_ = 0 := by
      by_contra hne
      exact hk ⟨by omega, by omega⟩
    have hnear : models.KNNClassifier.nearest self.k_ dists = .ok [] := by
      unfold models.KNNClassifier.nearest
      rw [if_neg hbig, hzero, List.take_zero]
    rw [hnear]
    simp only
    rw [hzero]
    rfl

/-- The pairs that `partial_sort` leaves in front are pairs of `distances`. -/
theorem nearest_mem (k : Nat) (distances nearest : List (ℚ × ℚ))
    (h : models.KNNClassifier.nearest k distances = .ok nearest) :
    nearest = (List.insertionSort models.DecisionTree.pairLE distances).take k ∧
      ∀ p ∈ nearest, p ∈ distances := by
  unfold models.KNNClassifier.nearest at h
  by_cases hbig : k > distances.length
  · rw [if_pos hbig] at h
    cases h
  · rw [if_neg hbig] at h
    injection h with h
    refine ⟨h.symm, ?_⟩
    intro p hp
    rw [← h] at hp
    exact (List.perm_insertionSort models.DecisionTree.pairLE distances).mem_iff.mp
      (List.mem_of_mem_take hp)

/-- C33: for a classifier with well-formed stored features of `n` rows and as many stored
targets, and a well-formed query matrix of at least one row and of the stored column count:
`predict` ends in the undefined outcome of an access out of range exactly when `1 ≤ k ≤ n`
fails; when `1 ≤ k ≤ n` it returns one value for every query row, each of them one of the
stored targets. -/
theorem C33_predict_in_range_iff (libm : models.Libm) (self : models.KNNClassifier)
    (features : utils.Matrix) (hwf : self.trainFeatures_.WF)
    (hcount : self.trainFeatures_.rows_ = self.trainTargets_.length)
    (hqwf : features.WF) (hqrows : 0 < features.rows_)
    (hcols : features.cols_ = self.trainFeatures_.cols_) :
    (self.predict libm features = .error .undefined ↔
      ¬ (1 ≤ self.k_ ∧ self.k_ ≤ self.trainFeatures_.rows_)) ∧
    (1 ≤ self.k_ ∧ self.k_ ≤ self.trainFeatures_.rows_ →
      ∃ predictions, self.predict libm features = .ok predictions ∧
        predictions.length = features.rows_ ∧
        ∀ i, i < features.rows_ → predictions.getD i 0 ∈ self.trainTargets_) := by
  have hgood : 1 ≤ self.k_ ∧ self.k_ ≤ self.trainFeatures_.rows_ →
      ∃ predictions, self.predict libm features = .ok predictions ∧
        predictions.length = features.rows_ ∧
        ∀ i, i < features.rows_ → predictions.getD i 0 ∈ self.trainTargets_ := by
    rintro ⟨hk1, hk2⟩
    obtain ⟨predictions, hp, hplen, hrows⟩ :=
      knn_predict_ok libm self features hwf hcount hk1 hk2 hqwf hcols
    refine ⟨predictions, hp, hplen, ?_⟩
    intro i hi
    have hq : (features.data_.getD i []).length = self.trainFeatures_.cols_ := by
      rw [row_length hqwf hi, hcols]
    obtain ⟨dists, N, value, hd, _, hnear, _, hv, hmem, _, _⟩ :=
      predictRow_spec libm self (features.data_.getD i []) hwf hcount hk1 hk2 hq
    have hvi := hrows i hi
    rw [hv] at hvi
    injection hvi with hvi
    rw [← hvi]
    obtain ⟨p, hpN, hpv⟩ := List.mem_map.mp hmem
    have hpd := (nearest_mem _ _ _ hnear).2 p hpN
    rw [distances_spec libm self _ hwf hcount hq] at hd
    injection hd with hd
    rw [← hd] at hpd
    obtain ⟨j, hj, hjp⟩ := List.mem_map.mp hpd
    rw [List.mem_range, hcount] at hj
    rw [← hpv, ← hjp]
    simp only
    rw [List.getD_eq_getElem _ _ hj]
    exact List.getElem_mem _
  refine ⟨⟨?_, ?_⟩, hgood⟩
  · intro herr hk
    obtain ⟨predictions, hp, _⟩ := hgood hk
    rw [hp] at herr
    cases herr
  · intro hk
    unfold models.KNNClassifier.predict
    apply foldlM_range_first_error _ _ _ _ hqrows
    rw [predictRow_undefined libm self _ hwf hcount
      (by rw [row_length hqwf hqrows, hcols]) hk]

/-- C33 at two stored rows, `k = 1` and one query row. -/
theorem C33_predict_in_range_iff_witness :
    (models.KNNClassifier.predict examples.unitLibm ⟨1, examples.twinRows, [1, 0]⟩
        examples.oneRow = .error .undefined ↔
      ¬ (1 ≤ 1 ∧ 1 ≤ examples.twinRows.rows_)) ∧
    (1 ≤ 1 ∧ 1 ≤ examples.twinRows.rows_ →
      ∃ predictions,
        models.KNNClassifier.predict examples.unitLibm ⟨1, examples.twinRows, [1, 0]⟩
          examples.oneRow = .ok predictions ∧
        predictions.length = examples.oneRow.rows_ ∧
        ∀ i, i < examples.oneRow.rows_ → predictions.getD i 0 ∈ ([1, 0] : List ℚ)) :=
  C33_predict_in_range_iff examples.unitLibm ⟨1, examples.twinRows, [1, 0]⟩ examples.oneRow
    (by decide) rfl (by decide) (by decide) rfl

/-- C35: for a classifier with well-formed stored features of `n` rows and as many stored
targets, `1 ≤ k ≤ n` and a query row of the stored width: `distances` holds for every stored
row the pair of its distance to the query row and its target; the `k` pairs that vote are
the first `k` pairs of `distances` in the ascending order of `std::pair`: together with the
other pairs they are a rearrangement of `distances` that is sorted, so every pair that votes
has a smaller distance than a pair that does not, or the same distance and a target that is
not larger, whatever the positions of the two rows; the tally counts the targets of these
`k` pairs and the value returned is one of them. -/
theorem C35_voters_are_smallest_pairs (libm : models.Libm) (self : models.KNNClassifier)
    (query : List ℚ) (hwf : self.trainFeatures_.WF)
    (hcount : self.trainFeatures_.rows_ = self.trainTargets_.length)
    (hk1 : 1 ≤ self.k_) (hk2 : self.k_ ≤ self.trainFeatures_.rows_)
    (hq : query.length = self.trainFeatures_.cols_) :
    ∃ distances nearest rest value,
      self.distances libm query = .ok distances ∧
      distances.length = self.trainFeatures_.rows_ ∧
      (∀ j, j < self.trainFeatures_.rows_ →
        models.KNNClassifier.euclideanDistance libm query
          (self.trainFeatures_.data_.getD j []) = .ok (distances.getD j (0, 0)).1 ∧
        (distances.getD j (0, 0)).2 = self.trainTargets_.getD j 0) ∧
      models.KNNClassifier.nearest self.k_ distances = .ok nearest ∧
      nearest.length = self.k_ ∧
      (nearest ++ rest).Perm distances ∧
      (nearest ++ rest).Sorted models.DecisionTree.pairLE ∧
      (∀ p ∈ nearest, ∀ q ∈ rest, p.1 < q.1 ∨ (p.1 = q.1 ∧ p.2 ≤ q.2)) ∧
      models.KNNClassifier.tally self.k_ nearest =
        (nearest.map Prod.snd).foldl models.KNNClassifier.vote [] ∧
      self.predictRow libm query = .ok value ∧ value ∈ nearest.map Prod.snd := by
  obtain ⟨dists, N, value, hd, hlen, hnear, hNlen, hv, hmem, _, _⟩ :=
    predictRow_spec libm self query hwf hcount hk1 hk2 hq
  haveI : IsTotal (ℚ × ℚ) models.DecisionTree.pairLE := ⟨pairLE_total⟩
  haveI : IsTrans (ℚ × ℚ) models.DecisionTree.pairLE := ⟨pairLE_trans⟩
  have hsorted : (List.insertionSort models.DecisionTree.pairLE dists).Sorted
      models.DecisionTree.pairLE := List.sorted_insertionSort _ _
  have hperm := List.perm_insertionSort models.DecisionTree.pairLE dists
  have hN := (nearest_mem _ _ _ hnear).1
  have hsplit : N ++ (List.insertionSort models.DecisionTree.pairLE dists).drop self.k_ =
      List.insertionSort models.DecisionTree.pairLE dists := by
    rw [hN, List.take_append_drop]
  have htally := tally_eq N
  rw [hNlen] at htally
  refine ⟨dists, N, (List.insertionSort models.DecisionTree.pairLE dists).drop self.k_, value,
    hd, hlen, ?_, hnear, hNlen, ?_, ?_, ?_, htally, hv, hmem⟩
  · intro j hj
    have hd2 := hd
    rw [distances_spec libm self query hwf hcount hq] at hd2
    injection hd2 with hd2
    have hjl : j < ((List.range self.trainFeatures_.rows_).map (fun j =>
        (libm.sqrt (∑ i in Finset.range query.length,
          (query.getD i 0 - (self.trainFeatures_.data_.getD j []).getD i 0) *
            (query.getD i 0 - (self.trainFeatures_.data_.getD j []).getD i 0)),
          self.trainTargets_.getD j 0))).length := by
      rw [List.length_map, List.length_range]
      exact hj
    rw [← hd2, List.getD_eq_getElem _ _ hjl, List.getElem_map, List.getElem_range]
    refine ⟨?_, rfl⟩
    rw [euclideanDistance_eq libm query _ (by rw [hq, row_length hwf hj])]
  · rw [hsplit]
    exact hperm
  · rw [hsplit]
    exact hsorted
  · rw [← hsplit] at hsorted
    exact (List.pairwise_append.mp hsorted).2.2

/-- C35 at two stored rows identical to the query row, of targets 1 and 0 in this order, and
`k = 1`. -/
theorem C35_voters_are_smallest_pairs_witness :
    ∃ distances nearest rest value,
      models.KNNClassifier.distances examples.unitLibm ⟨1, examples.twinRows, [1, 0]⟩ [1] =
        .ok distances ∧
      distances.length = examples.twinRows.rows_ ∧
      (∀ j, j < examples.twinRows.rows_ →
        models.KNNClassifier.euclideanDistance examples.unitLibm [1]
          (examples.twinRows.data_.getD j []) = .ok (distances.getD j (0, 0)).1 ∧
        (distances.getD j (0, 0)).2 = ([1, 0] : List ℚ).getD j 0) ∧
      models.KNNClassifier.nearest 1 distances = .ok nearest ∧
      nearest.length = 1 ∧
      (nearest ++ rest).Perm distances ∧
      (nearest ++ rest).Sorted models.DecisionTree.pairLE ∧
      (∀ p ∈ nearest, ∀ q ∈ rest, p.1 < q.1 ∨ (p.1 = q.1 ∧ p.2 ≤ q.2)) ∧
      models.KNNClassifier.tally 1 nearest =
        (nearest.map Prod.snd).foldl models.KNNClassifier.vote [] ∧
      models.KNNClassifier.predictRow examples.unitLibm ⟨1, examples.twinRows, [1, 0]⟩ [1] =
        .ok value ∧
      value ∈ nearest.map Prod.snd :=
  C35_voters_are_smallest_pairs examples.unitLibm ⟨1, examples.twinRows, [1, 0]⟩ [1]
    (by decide) rfl (by decide) (by decide) rfl

/-- Every pass of a counted loop that returns has returned. -/
theorem foldlM_range_prefix {α : Type} (f : α → Nat → Except Error α) (n : Nat) (init : α)
    (r : α) (h : (List.range n).foldlM f init = .ok r) :
    ∀ i, i < n → ∃ a b, (List.range i).foldlM f init = .ok a ∧ f a i = .ok b := by
  induction n generalizing r with
  | zero => intro i hi; exact absurd hi (Nat.not_lt_zero _)
  | succ n ih =>
    intro i hi
    rw [foldlM_range_succ] at h
    cases hmid : (List.range n).foldlM f init with
    | error e =>
      rw [hmid] at h
      cases h
    | ok a =>
      rw [hmid] at h
      by_cases hin : i = n
      · rw [hin]
        exact ⟨a, r, hmid, h⟩
      · exact ih a hmid i (by omega)

/-- C34: whenever `inverse` returns a matrix `M` on a well-formed square matrix `A` of `n`
rows, the elimination has run through all `n` pivots, none of magnitude below `1e-10`, the
left half of the reduced augmented matrix is the identity and `M` is its right half;
`M` is a well-formed matrix of `n` rows and `n` columns, and both `M * A` and `A * M` return
`identity(n)`. -/
theorem C34_inverse_is_two_sided (A M : utils.Matrix) (hwf : A.WF) (hsq : A.rows_ = A.cols_)
    (h : A.inverse = .ok M) :
    M.HasShape A.rows_ A.rows_ ∧
      M.mul A = .ok (utils.Matrix.identity A.rows_) ∧
      A.mul M = .ok (utils.Matrix.identity A.rows_) ∧
      ∃ augmented,
        (List.range A.rows_).foldlM (fun augmented i => A.eliminate augmented i) A.augment =
          .ok augmented ∧
        (∀ i, i < A.rows_ → ∃ before,
          (List.range i).foldlM (fun augmented i => A.eliminate augmented i) A.augment =
            .ok before ∧ ¬ |before.get i i| < utils.Matrix.pivotTolerance) ∧
        (∀ i j, i < A.rows_ → j < A.rows_ → augmented.get i j = if i = j then 1 else 0) ∧
        ∀ i j, i < A.rows_ → j < A.rows_ → M.get i j = augmented.get i (j + A.rows_) := by
  have hA := hasShape_of_wf hwf hsq
  obtain ⟨hM, hmul⟩ := inverse_spec hA h
  have hmul2 : A.toMat A.rows_ A.rows_ * M.toMat A.rows_ A.rows_ = 1 :=
    Matrix.mul_eq_one_comm.mp hmul
  refine ⟨hM, ?_, ?_, ?_⟩
  · obtain ⟨res, hres, hshape, hmat⟩ := mul_spec hM hA
    rw [hres]
    congr 1
    apply toMat_eq hshape (identity_spec _).1
    rw [hmat, hmul, (identity_spec _).2]
  · obtain ⟨res, hres, hshape, hmat⟩ := mul_spec hA hM
    rw [hres]
    congr 1
    apply toMat_eq hshape (identity_spec _).1
    rw [hmat, hmul2, (identity_spec _).2]
  · have h2 := h
    rw [inverse_eq hA] at h2
    cases hloop : (List.range A.rows_).foldlM (fun augmented i => A.eliminate augmented i)
        A.augment with
    | error e =>
      rw [hloop] at h2
      cases h2
    | ok augmented =>
      rw [hloop] at h2
      simp only [Except.ok.injEq] at h2
      obtain ⟨_, _, hid⟩ := inverse_loop_inv hA A.rows_ (Nat.le_refl _) augmented hloop
      refine ⟨augmented, rfl, ?_, hid, ?_⟩
      · intro i hi
        obtain ⟨before, after, hbefore, hstep⟩ := foldlM_range_prefix _ _ _ _ hloop i hi
        refine ⟨before, hbefore, ?_⟩
        obtain ⟨hshape, _, _⟩ := inverse_loop_inv hA i (Nat.le_of_lt hi) before hbefore
        exact (eliminate_spec hsq.symm rfl hshape hi hstep).1
      · intro i j hi hj
        rw [← h2]
        exact (pointwise_spec (fun i j => augmented.get i (j + A.rows_)) A.rows_ A.rows_).2
          i j hi hj

/-- C34 at `[[2, 1], [1, 1]]`, whose inverse is `[[1, -1], [-1, 2]]`. -/
theorem C34_inverse_is_two_sided_witness :
    examples.inverse2.HasShape examples.invertible2.rows_ examples.invertible2.rows_ ∧
      examples.inverse2.mul examples.invertible2 =
        .ok (utils.Matrix.identity examples.invertible2.rows_) ∧
      examples.invertible2.mul examples.inverse2 =
        .ok (utils.Matrix.identity examples.invertible2.rows_) ∧
      ∃ augmented,
        (List.range examples.invertible2.rows_).foldlM
          (fun augmented i => examples.invertible2.eliminate augmented i)
          examples.invertible2.augment = .ok augmented ∧
        (∀ i, i < examples.invertible2.rows_ → ∃ before,
          (List.range i).foldlM
            (fun augmented i => examples.invertible2.eliminate augmented i)
            examples.invertible2.augment = .ok before ∧
          ¬ |before.get i i| < utils.Matrix.pivotTolerance) ∧
        (∀ i j, i < examples.invertible2.rows_ → j < examples.invertible2.rows_ →
          augmented.get i j = if i = j then 1 else 0) ∧
        ∀ i j, i < examples.invertible2.rows_ → j < examples.invertible2.rows_ →
          examples.inverse2.get i j = augmented.get i (j + examples.invertible2.rows_) :=
  C34_inverse_is_two_sided examples.invertible2 examples.inverse2 (by decide) rfl
    (by decide!)

/-- The impurity of a non-empty vector, over the square of its size: the sum over the
distinct values of the count times the count of the other targets. -/
theorem gini_as_pairs (targets : List ℚ) (hne : targets ≠ []) :
    models.DecisionTree.calculateGini targets =
      (∑ c in targets.toFinset,
        (targets.count c : ℚ) * ((targets.length : ℚ) - targets.count c)) /
        ((targets.length : ℚ) * targets.length) := by
  have hpos : 0 < targets.length := List.length_pos.mpr hne
  have hn : (targets.length : ℚ) ≠ 0 := Nat.cast_ne_zero.mpr (by omega)
  have hsum : (∑ c in targets.toFinset, (targets.count c : ℚ)) = targets.length := by
    rw [← Nat.cast_sum, List.sum_toFinset_count_eq_length]
  rw [calculateGini_eq, if_neg hne]
  have hterm : ∀ c, (targets.count c : ℚ) * ((targets.length : ℚ) - targets.count c) =
      (targets.length : ℚ) * targets.count c -
        (targets.length : ℚ) * targets.length *
          ((targets.count c : ℚ) / targets.length * ((targets.count c : ℚ) / targets.length)) := by
    intro c
    field_simp
    ring
  rw [Finset.sum_congr rfl (fun c _ => hterm c), Finset.sum_sub_distrib, ← Finset.mul_sum,
    ← Finset.mul_sum, hsum]
  field_simp
  ring

/-- C36: for every target vector `calculateGini` returns 0 on the empty vector and otherwise
1 less the sum, over the distinct values `c`, of the square of the fraction of the targets
equal to `c`; the result is at least 0 and below 1, and it is 0 exactly when the vector is
empty or all its targets are equal. -/
theorem C36_gini_formula_and_range (targets : List ℚ) :
    models.DecisionTree.calculateGini targets =
        (if targets = [] then 0
        else 1 - ∑ c in targets.toFinset,
          ((targets.count c : ℚ) / targets.length) *
            ((targets.count c : ℚ) / targets.length)) ∧
      0 ≤ models.DecisionTree.calculateGini targets ∧
      models.DecisionTree.calculateGini targets < 1 ∧
      (models.DecisionTree.calculateGini targets = 0 ↔
        targets = [] ∨ ∀ x ∈ targets, ∀ y ∈ targets, x = y) := by
  refine ⟨calculateGini_eq targets, ?_⟩
  by_cases hne : targets = []
  · rw [calculateGini_eq, if_pos hne]
    exact ⟨le_refl _, by norm_num, fun _ => Or.inl hne, fun _ => rfl⟩
  · have hpos : 0 < targets.length := List.length_pos.mpr hne
    have hn : (0 : ℚ) < targets.length := Nat.cast_pos.mpr hpos
    have hcount : ∀ c, (targets.count c : ℚ) ≤ targets.length := fun c =>
      Nat.cast_le.mpr (List.count_le_length c targets)
    have hterm : ∀ c ∈ targets.toFinset,
        0 ≤ (targets.count c : ℚ) * ((targets.length : ℚ) - targets.count c) := fun c _ =>
      mul_nonneg (Nat.cast_nonneg _) (sub_nonneg.mpr (hcount c))
    refine ⟨?_, ?_, ?_⟩
    · rw [gini_as_pairs targets hne]
      exact div_nonneg (Finset.sum_nonneg hterm) (le_of_lt (mul_pos hn hn))
    · rw [calculateGini_eq, if_neg hne]
      have hsq : 0 < ∑ c in targets.toFinset,
          ((targets.count c : ℚ) / targets.length) *
            ((targets.count c : ℚ) / targets.length) := by
        obtain ⟨x, hx⟩ := List.exists_mem_of_ne_nil targets hne
        apply Finset.sum_pos
        · intro c hc
          have hc2 : 0 < targets.count c := List.count_pos_iff.mpr (List.mem_toFinset.mp hc)
          have hc3 : (0 : ℚ) < targets.count c := Nat.cast_pos.mpr hc2
          exact mul_pos (div_pos hc3 hn) (div_pos hc3 hn)
        · exact ⟨x, List.mem_toFinset.mpr hx⟩
      linarith
    · rw [gini_as_pairs targets hne, div_eq_zero_iff,
        Finset.sum_eq_zero_iff_of_nonneg hterm]
      constructor
      · rintro (hzero | hzero)
        · right
          intro x hx y hy
          have hx0 := hzero x (List.mem_toFinset.mpr hx)
          have hxc : (0 : ℚ) < targets.count x :=
            Nat.cast_pos.mpr (List.count_pos_iff.mpr hx)
          rcases mul_eq_zero.mp hx0 with h1 | h1
          · exact absurd h1 (ne_of_gt hxc)
          · have h2 : targets.count x = targets.length := by
              have h3 : (targets.length : ℚ) = targets.count x := sub_eq_zero.mp h1
              exact_mod_cast h3.symm
            exact List.count_eq_length.mp h2 y hy
        · exact absurd hzero (ne_of_gt (mul_pos hn hn))
      · rintro (hempty | hall)
        · exact absurd hempty hne
        · left
          intro c hc
          have h2 : targets.count c = targets.length :=
            List.count_eq_length.mpr (fun b hb => hall c (List.mem_toFinset.mp hc) b hb)
          rw [h2, sub_self, mul_zero]

/-! ## The rounding of `double` -/

/-- The bit length `L` of a positive `n`: `2 ^ L ≤ 2 * n` and `n < 2 ^ L`. -/
theorem bitLength_bounds : ∀ (fuel n : Nat), n ≤ fuel → 0 < n →
    2 ^ binary64.bitLength fuel n ≤ 2 * n ∧ n < 2 ^ binary64.bitLength fuel n
  | 0, n, h, hn => by omega
  | fuel + 1, n, h, hn => by
    rw [binary64.bitLength, if_neg (by omega)]
    by_cases h2 : n / 2 = 0
    · have h1 : n = 1 := by omega
      have h0 : binary64.bitLength fuel (n / 2) = 0 := by
        rw [h2]
        cases fuel with
        | zero => rfl
        | succ k => rw [binary64.bitLength, if_pos rfl]
      rw [h0, h1]
      decide
    · obtain ⟨ih1, ih2⟩ := bitLength_bounds fuel (n / 2) (by omega) (by omega)
      generalize binary64.bitLength fuel (n / 2) = L at ih1 ih2
      rw [pow_succ]
      constructor <;> omega

/-- The integer nearest to `n / d` is not below the integer part. -/
theorem nearestEven_ge (n d : Nat) : n / d ≤ binary64.nearestEven n d := by
  unfold binary64.nearestEven
  split_ifs <;> omega

/-- The integer nearest to `n / d` is not above an integer that `n / d` is not above. -/
theorem nearestEven_le (n d p : Nat) (hd : 0 < d) (h : n ≤ d * p) :
    binary64.nearestEven n d ≤ p := by
  have hq : n / d ≤ p := by
    rw [Nat.div_le_iff_le_mul_add_pred hd]
    have : d * p ≤ d * p + (d - 1) := Nat.le_add_right _ _
    omega
  by_cases hlt : n / d < p
  · unfold binary64.nearestEven
    split_ifs <;> omega
  · have hqp : n / d = p := by omega
    have hmod : n % d = 0 := by
      have hdm := Nat.div_add_mod n d
      rw [hqp] at hdm
      omega
    unfold binary64.nearestEven
    rw [hmod, if_pos (by omega)]
    omega

/-- The exponent of `binary64.round` leaves at least 1 of the scaled number: with `e` the
exponent for `n / d`, `d * 2 ^ e ≤ n` when `e` is not negative and `d ≤ n * 2 ^ (-e)` when
it is. -/
theorem exponent_scaled (n d : Nat) (hn : 0 < n) (hd : 0 < d) :
    d * 2 ^ (binary64.exponent n d).toNat ≤ n * 2 ^ (-(binary64.exponent n d)).toNat := by
  obtain ⟨ha1, _⟩ := bitLength_bounds n n (le_refl _) hn
  obtain ⟨_, hb2⟩ := bitLength_bounds d d (le_refl _) hd
  unfold binary64.exponent
  generalize binary64.bitLength n n = a at ha1
  generalize binary64.bitLength d d = b at hb2
  simp only
  split_ifs with hlt
  · rcases le_or_lt (b + 53) a with hab | hab
    · have h1 : (((a : Int) - (b : Int) - 53)).toNat = a - b - 53 := by omega
      have h2 : (-((a : Int) - (b : Int) - 53)).toNat = 0 := by omega
      rw [h1, h2, pow_zero, mul_one]
      have h3 : 2 ^ a = 2 ^ b * 2 ^ (a - b - 53) * 2 ^ 53 := by
        rw [← pow_add, ← pow_add]
        congr 1
        omega
      have h4 : d * 2 ^ (a - b - 53) ≤ 2 ^ b * 2 ^ (a - b - 53) :=
        Nat.mul_le_mul_right _ (le_of_lt hb2)
      generalize 2 ^ b * 2 ^ (a - b - 53) = u at h3 h4
      generalize d * 2 ^ (a - b - 53) = v at h4
      omega
    · have h1 : (((a : Int) - (b : Int) - 53)).toNat = 0 := by omega
      have h2 : (-((a : Int) - (b : Int) - 53)).toNat = b + 53 - a := by omega
      rw [h1, h2, pow_zero, mul_one]
      have h3 : 2 ^ a * 2 ^ (b + 53 - a) = 2 ^ b * 2 ^ 53 := by
        rw [← pow_add, ← pow_add]
        congr 1
        omega
      have h4 : 2 ^ a * 2 ^ (b + 53 - a) ≤ 2 * n * 2 ^ (b + 53 - a) :=
        Nat.mul_le_mul_right _ ha1
      have h5 : 2 * n * 2 ^ (b + 53 - a) = 2 * (n * 2 ^ (b + 53 - a)) := by ring
      generalize n * 2 ^ (b + 53 - a) = v at h4 h5 ⊢
      generalize 2 ^ a * 2 ^ (b + 53 - a) = u at h3 h4
      generalize 2 ^ b = w at h3 hb2
      omega
  · rw [not_lt] at hlt
    rcases le_or_lt (0 : Int) ((a : Int) - (b : Int) - 53) with h0 | h0
    · have h1 : (((a : Int) - (b : Int) - 53 + 1)).toNat =
          ((a : Int) - (b : Int) - 53).toNat + 1 := by omega
      have h2 : (-((a : Int) - (b : Int) - 53 + 1)).toNat = 0 := by omega
      have h3 : (-((a : Int) - (b : Int) - 53)).toNat = 0 := by omega
      rw [h3, pow_zero, mul_one] at hlt
      rw [h1, h2, pow_zero, mul_one]
      generalize ((a : Int) - (b : Int) - 53).toNat = k at hlt ⊢
      have h4 : d * 2 ^ (k + 1) = 2 * (d * 2 ^ k) := by ring
      rw [h4]
      generalize d * 2 ^ k = v at hlt ⊢
      omega
    · have h1 : (((a : Int) - (b : Int) - 53 + 1)).toNat = 0 := by omega
      have h2 : (-((a : Int) - (b : Int) - 53)).toNat =
          (-((a : Int) - (b : Int) - 53 + 1)).toNat + 1 := by omega
      have h3 : (((a : Int) - (b : Int) - 53)).toNat = 0 := by omega
      rw [h3, pow_zero, mul_one, h2] at hlt
      rw [h1, pow_zero, mul_one]
      generalize (-((a : Int) - (b : Int) - 53 + 1)).toNat = k at hlt ⊢
      have h4 : n * 2 ^ (k + 1) = 2 * (n * 2 ^ k) := by ring
      rw [h4] at hlt
      generalize n * 2 ^ k = v at hlt ⊢
      omega

/-- The rounded significand of a positive `n / d`, scaled back, is positive. -/
theorem rounded_pos (n d : Nat) (hn : 0 < n) (hd : 0 < d) :
    0 < binary64.nearestEven (n * 2 ^ (-(binary64.exponent n d)).toNat)
      (d * 2 ^ (binary64.exponent n d).toNat) * 2 ^ (binary64.exponent n d).toNat := by
  have hs := exponent_scaled n d hn hd
  have hD : 0 < d * 2 ^ (binary64.exponent n d).toNat := Nat.mul_pos hd (Nat.pow_pos (by decide))
  have hq := Nat.div_pos hs hD
  have hm := nearestEven_ge (n * 2 ^ (-(binary64.exponent n d)).toNat)
    (d * 2 ^ (binary64.exponent n d).toNat)
  exact Nat.mul_pos (by omega) (Nat.pow_pos (by decide))

/-- The rounding of `n / d ≥ 1` is not below 1, in integers. -/
theorem rounded_one_le (n d : Nat) (hn : 0 < n) (hd : 0 < d) (h : d ≤ n) :
    2 ^ (-(binary64.exponent n d)).toNat ≤
      binary64.nearestEven (n * 2 ^ (-(binary64.exponent n d)).toNat)
        (d * 2 ^ (binary64.exponent n d).toNat) * 2 ^ (binary64.exponent n d).toNat := by
  have hpos := rounded_pos n d hn hd
  generalize binary64.exponent n d = e at hpos ⊢
  rcases le_or_lt 0 e with he | he
  · have h2 : (-e).toNat = 0 := by omega
    rw [h2, pow_zero] at hpos ⊢
    omega
  · have h1 : e.toNat = 0 := by omega
    rw [h1, pow_zero, mul_one, mul_one]
    refine le_trans ?_ (nearestEven_ge _ _)
    rw [Nat.le_div_iff_mul_le hd, mul_comm]
    exact Nat.mul_le_mul_right _ h

/-- The rounding of `n / d ≤ 1` is not above 1, in integers. -/
theorem rounded_le_one (n d : Nat) (hn : 0 < n) (hd : 0 < d) (h : n ≤ d) :
    binary64.nearestEven (n * 2 ^ (-(binary64.exponent n d)).toNat)
        (d * 2 ^ (binary64.exponent n d).toNat) * 2 ^ (binary64.exponent n d).toNat ≤
      2 ^ (-(binary64.exponent n d)).toNat := by
  have hs := exponent_scaled n d hn hd
  generalize binary64.exponent n d = e at hs ⊢
  rcases lt_or_le 0 e with he | he
  · exfalso
    have h2 : (-e).toNat = 0 := by omega
    obtain ⟨k, hk⟩ : ∃ k, e.toNat = k + 1 := ⟨e.toNat - 1, by omega⟩
    rw [h2, pow_zero, mul_one, hk, pow_succ] at hs
    have hk1 : 1 ≤ 2 ^ k := Nat.one_le_two_pow
    have h3 : d * (1 * 2) ≤ d * (2 ^ k * 2) :=
      Nat.mul_le_mul_left _ (Nat.mul_le_mul_right _ hk1)
    omega
  · have h1 : e.toNat = 0 := by omega
    rw [h1, pow_zero, mul_one, mul_one]
    exact nearestEven_le _ _ _ hd (Nat.mul_le_mul_right _ h)

/-- `binary64.round` on a positive number: the rounded significand scaled back. -/
theorem round_of_pos (x : ℚ) (hx : 0 < x) :
    binary64.round x =
      ((binary64.nearestEven
          (x.num.natAbs * 2 ^ (-(binary64.exponent x.num.natAbs x.den)).toNat)
          (x.den * 2 ^ (binary64.exponent x.num.natAbs x.den).toNat) *
        2 ^ (binary64.exponent x.num.natAbs x.den).toNat : Nat) : ℚ) /
      ((2 ^ (-(binary64.exponent x.num.natAbs x.den)).toNat : Nat) : ℚ) := by
  unfold binary64.round
  rw [if_neg (ne_of_gt hx)]
  simp only
  rw [if_neg (not_lt.mpr (le_of_lt hx))]

/-- A positive rational is the quotient of the absolute value of its numerator by its
denominator, both positive. -/
theorem rat_eq_natAbs_div (x : ℚ) (hx : 0 < x) :
    0 < x.num.natAbs ∧ 0 < x.den ∧ x = (x.num.natAbs : ℚ) / (x.den : ℚ) := by
  have hnum : 0 < x.num := Rat.num_pos.mpr hx
  refine ⟨Int.natAbs_pos.mpr (ne_of_gt hnum), x.den_pos, ?_⟩
  have hcast : ((x.num.natAbs : Nat) : ℚ) = (x.num : ℚ) := by
    rw [← Int.cast_natCast, Int.natAbs_of_nonneg (le_of_lt hnum)]
  rw [hcast, Rat.num_div_den]

/-- The rounding of `double` does not take a number from 1 on below 1. -/
theorem round_one_le (x : ℚ) (h : 1 ≤ x) : 1 ≤ binary64.round x := by
  have hx : 0 < x := lt_of_lt_of_le one_pos h
  obtain ⟨hn, hd, hxe⟩ := rat_eq_natAbs_div x hx
  rw [round_of_pos x hx]
  have hdn : x.den ≤ x.num.natAbs := by
    rw [hxe, one_le_div (by exact_mod_cast hd)] at h
    exact_mod_cast h
  have hmain := rounded_one_le _ _ hn hd hdn
  rw [one_le_div (by exact_mod_cast (Nat.pow_pos (by decide) : 0 < 2 ^ _))]
  exact_mod_cast hmain

/-- The rounding of `double` takes a positive number up to 1 to a positive number up to
1. -/
theorem round_unit (x : ℚ) (hx : 0 < x) (h : x ≤ 1) :
    0 < binary64.round x ∧ binary64.round x ≤ 1 := by
  obtain ⟨hn, hd, hxe⟩ := rat_eq_natAbs_div x hx
  rw [round_of_pos x hx]
  have hnd : x.num.natAbs ≤ x.den := by
    rw [hxe, div_le_one (by exact_mod_cast hd)] at h
    exact_mod_cast h
  have hpow : (0 : ℚ) <
      ((2 ^ (-(binary64.exponent x.num.natAbs x.den)).toNat : Nat) : ℚ) := by
    exact_mod_cast (Nat.pow_pos (by decide) : 0 < 2 ^ _)
  constructor
  · apply div_pos _ hpow
    exact_mod_cast rounded_pos _ _ hn hd
  · rw [div_le_one hpow]
    exact_mod_cast rounded_le_one _ _ hn hd hnd

/-! ## Linear regression in rounded arithmetic -/

/-- With the identity for the rounding, the rounded product is the exact one. -/
theorem mulWith_id (m other : utils.Matrix) : m.mulWith id other = m.mul other := rfl

/-- With the identity for the rounding, the rounded inverse is the exact one. -/
theorem inverseWith_id (m : utils.Matrix) : m.inverseWith id = m.inverse := rfl

/-- With the identity for the rounding, the rounded `train` is the exact one. -/
theorem trainWith_id (self : models.LinearRegression) (features : utils.Matrix)
    (targets : List ℚ) : self.trainWith id features targets = self.train features targets :=
  rfl

/-- The singularity error of the rounded inverse leaves `train` before the first write to
`coefficients_`. -/
theorem trainWith_singular (fl : ℚ → ℚ) (self : models.LinearRegression)
    (features : utils.Matrix) (targets : List ℚ) (hcount : features.rows_ = targets.length)
    (gram : utils.Matrix)
    (hgram : (models.designMatrix self.fitIntercept_ features).transpose.mulWith fl
      (models.designMatrix self.fitIntercept_ features) = .ok gram)
    (hinv : gram.inverseWith fl = .error .runtime_error) :
    self.trainWith fl features targets = (.error .runtime_error, self) := by
  have hsolve : self.solveWith fl features targets = .error .runtime_error := by
    unfold models.LinearRegression.solveWith
    simp only [hgram]
    show Except.bind (Except.ok gram) _ = _
    simp only [Except.bind, hinv]
    rfl
  unfold models.LinearRegression.trainWith
  rw [if_neg (not_not.mpr hcount), hsolve]

/-- The transpose has as many columns as the matrix has rows, whatever rows are stored. -/
theorem transpose_cols (m : utils.Matrix) : m.transpose.cols_ = m.rows_ := by
  unfold utils.Matrix.transpose
  exact foldl_range_inv (fun _ (X : utils.Matrix) => X.cols_ = m.rows_) _ _ _ rfl
    (fun _ X _ hX => foldl_range_inv (fun _ (Y : utils.Matrix) => Y.cols_ = m.rows_) _ _ X hX
      (fun _ _ _ hY => hY))

/-- The product of the transpose with the matrix passes the dimension test. -/
theorem transpose_mulWith_ok (fl : ℚ → ℚ) (m : utils.Matrix) :
    ∃ gram, m.transpose.mulWith fl m = .ok gram := by
  unfold utils.Matrix.mulWith
  rw [if_neg (not_not.mpr (transpose_cols m))]
  exact ⟨_, rfl⟩

/-! ## C5 -/

/-- C5, as stated, fails in the arithmetic of `double`: the features `[915, 2745]`,
`[856, 2568]`, `[400, 1200]` have a second column that is three times the first, so the
columns of the design matrix (with the column of ones) are linearly dependent and in exact
arithmetic `train` fails with the singularity error; with every operation rounded to binary64
the third pivot of the elimination is not below `1e-10`, `Matrix::inverse` returns, and
`train` returns true and replaces the coefficients by `-0x1.69d52007f0bap+2`, `0x1p-5`,
`-0x1p-7`. -/
theorem C5_rounding_hides_singularity :
    examples.collinear.rows_ = ([6, 9, 0] : List ℚ).length ∧
    (¬ LinearIndependent ℚ
      (fun (j : Fin (models.designMatrix true examples.collinear).cols_)
        (i : Fin examples.collinear.rows_) =>
          (models.designMatrix true examples.collinear).get i j)) ∧
    models.LinearRegression.train ⟨[], true⟩ examples.collinear [6, 9, 0] =
      (.error .runtime_error, ⟨[], true⟩) ∧
    models.LinearRegression.trainWith binary64.round ⟨[], true⟩ examples.collinear [6, 9, 0] =
      (.ok true, ⟨[-198919531526237 / 35184372088832, 1 / 32, -1 / 128], true⟩) := by
  refine ⟨rfl, ?_, by decide!, by decide!⟩
  show ¬ LinearIndependent ℚ (fun (j : Fin 3) (i : Fin 3) =>
    (models.designMatrix true examples.collinear).get i j)
  rw [Fintype.not_linearIndependent_iff]
  refine ⟨![0, 3, -1], ?_, 1, by norm_num⟩
  funext i
  fin_cases i
  · simp [Fin.sum_univ_three]; decide!
  · simp [Fin.sum_univ_three]; decide!
  · simp [Fin.sum_univ_three]; decide!

/-- C5 (amended): for every model, every rounding of the arithmetic and every training input
with matching sample counts, the product `XᵀX` is computed, and when `Matrix::inverse` reports
it singular (a pivot of the elimination is below `1e-10` in absolute value) `train` fails with
that singularity error (`std::runtime_error`) and the model, its coefficient vector included,
is what it was before the call; in exact arithmetic this is the outcome for every well-formed
training input whose design matrix (the features, with the leading column of ones when an
intercept is fitted) has linearly dependent columns. -/
theorem C5_train_singular_keeps_state (fl : ℚ → ℚ) (self : models.LinearRegression)
    (features : utils.Matrix) (targets : List ℚ)
    (hcount : features.rows_ = targets.length) :
    (∃ gram, (models.designMatrix self.fitIntercept_ features).transpose.mulWith fl
        (models.designMatrix self.fitIntercept_ features) = .ok gram ∧
      (gram.inverseWith fl = .error .runtime_error →
        self.trainWith fl features targets = (.error .runtime_error, self) ∧
          (self.trainWith fl features targets).2.coefficients_ = self.coefficients_)) ∧
    (features.WF →
      ¬ LinearIndependent ℚ
        (fun (j : Fin (models.designMatrix self.fitIntercept_ features).cols_)
          (i : Fin features.rows_) =>
            (models.designMatrix self.fitIntercept_ features).get i j) →
      self.train features targets = (.error .runtime_error, self) ∧
        (self.train features targets).2.coefficients_ = self.coefficients_) := by
  constructor
  · obtain ⟨gram, hgram⟩ := transpose_mulWith_ok fl
      (models.designMatrix self.fitIntercept_ features)
    refine ⟨gram, hgram, fun hinv => ?_⟩
    rw [trainWith_singular fl self features targets hcount gram hgram hinv]
    exact ⟨rfl, rfl⟩
  · intro hwf hdep
    have hX := hasShape_designMatrix self.fitIntercept_ hwf
    obtain ⟨g, hsum, i, hi⟩ := Fintype.not_linearIndependent_iff.mp hdep
    have hmain := train_dependent self rfl hX targets hcount.symm g
      (fun h0 => hi (by rw [h0]; rfl)) (by
        funext k
        have := congrFun hsum k
        simp only [Finset.sum_apply, Pi.smul_apply, smul_eq_mul, Pi.zero_apply] at this
        refine Eq.trans ?_ this
        simp only [Matrix.mulVec, Matrix.dotProduct, utils.Matrix.toMat]
        apply Finset.sum_congr rfl
        intro j _
        rw [mul_comm])
    rw [hmain]
    exact ⟨rfl, rfl⟩

/-- C5 (amended) at the features `[[1, 2], [2, 4]]` without intercept, whose second column is
twice the first: the second pivot is exactly 0 in binary64 as in exact arithmetic, `train`
fails in both and the coefficients `[7, 8]` stay. -/
theorem C5_train_singular_keeps_state_witness :
    (models.LinearRegression.trainWith binary64.round ⟨[7, 8], false⟩ examples.singular2
        [1, 2] = (.error .runtime_error, ⟨[7, 8], false⟩) ∧
      (models.LinearRegression.trainWith binary64.round ⟨[7, 8], false⟩ examples.singular2
        [1, 2]).2.coefficients_ = [7, 8]) ∧
    (models.LinearRegression.train ⟨[7, 8], false⟩ examples.singular2 [1, 2] =
        (.error .runtime_error, ⟨[7, 8], false⟩) ∧
      (models.LinearRegression.train ⟨[7, 8], false⟩ examples.singular2
        [1, 2]).2.coefficients_ = [7, 8]) := by
  obtain ⟨⟨gram, hgram, hround⟩, hexact⟩ := C5_train_singular_keeps_state binary64.round
    ⟨[7, 8], false⟩ examples.singular2 [1, 2] rfl
  refine ⟨hround ?_, hexact (by decide) ?_⟩
  · have hvalue : (models.designMatrix false examples.singular2).transpose.mulWith
        binary64.round (models.designMatrix false examples.singular2) =
        .ok ⟨2, 2, [[5, 10], [10, 20]]⟩ := by decide!
    have hg : gram = ⟨2, 2, [[5, 10], [10, 20]]⟩ := by
      have h := hgram.symm.trans hvalue
      injection h
    rw [hg]
    decide!
  · show ¬ LinearIndependent ℚ (fun (j : Fin 2) (i : Fin 2) => examples.singular2.get i j)
    rw [Fintype.not_linearIndependent_iff]
    refine ⟨![2, -1], ?_, 0, by norm_num⟩
    funext i
    fin_cases i
    · simp [Fin.sum_univ_two]; decide!
    · simp [Fin.sum_univ_two]; decide!

/-! ## The predictions of the logistic regression in rounded arithmetic -/

/-- With the identity for the rounding, the rounded `predict` is the exact one. -/
theorem predictWith_id (libm : models.Libm) (self : models.LogisticRegression)
    (features : utils.Matrix) : self.predictWith id libm features = self.predict libm features :=
  rfl

/-- With the identity for the rounding, the accumulated linear combination is the sum. -/
theorem linearCombination_id (fit : Bool) (features : utils.Matrix) (theta : List ℚ)
    (i : Nat) :
    models.LogisticRegression.linearCombination id fit features theta i =
      ∑ k in Finset.range (models.LogisticRegression.width fit features),
        models.LogisticRegression.augmentedRow fit features i k * theta.getD k 0 := by
  unfold models.LogisticRegression.linearCombination
  exact foldl_add_range _ _

/-- The rounded `LogisticRegression::predict` on features of the width of the coefficients:
one prediction for every row, the rounded sigmoid of the accumulated linear combination of
the augmented row with the coefficients. -/
theorem logistic_predictWith_spec (fl : ℚ → ℚ) (libm : models.Libm)
    (self : models.LogisticRegression) (features : utils.Matrix) (hwf : features.WF)
    (hlen : self.coefficients_.length =
      models.LogisticRegression.width self.fitIntercept_ features) :
    self.predictWith fl libm features =
      .ok ((List.range features.rows_).map (fun i =>
        fl (1 / fl (1 + libm.exp (-(models.LogisticRegression.linearCombination fl
          self.fitIntercept_ features self.coefficients_ i)))))) := by
  obtain ⟨hr, hc, _, hget⟩ := designMatrix_augmented self.fitIntercept_ hwf
  unfold models.LogisticRegression.predictWith
  simp only
  rw [hr, hc, foldlM_range_ok _ (fun predictions i => predictions.set i
    (fl (1 / fl (1 + libm.exp (-(models.LogisticRegression.linearCombination fl
      self.fitIntercept_ features self.coefficients_ i))))))]
  · rw [foldl_set_update (fun _ i => fl (1 / fl (1 + libm.exp
      (-(models.LogisticRegression.linearCombination fl self.fitIntercept_ features
        self.coefficients_ i))))) _ _ (List.length_replicate _ _)]
  · intro predictions i hi
    rw [foldlM_range_ok _ (fun z j =>
      fl (z + fl (models.LogisticRegression.augmentedRow self.fitIntercept_ features i j *
        self.coefficients_.getD j 0)))]
    · rfl
    · intro z j hj
      have hlt : j < self.coefficients_.length := by omega
      simp only [List.getElem?_eq_getElem hlt, List.getD_eq_getElem _ _ hlt, hget i j hi hj]

/-- A successful `train` leaves coefficients of the post-intercept width of every query with
the column count of the training features, and the intercept flag. -/
theorem train_leaves_width (libm : models.Libm) (self m : models.LogisticRegression)
    (features query : utils.Matrix) (targets : List ℚ) (hwf : features.WF)
    (htrain : self.train libm features targets = (.ok true, m))
    (hcols : query.cols_ = features.cols_) :
    m.coefficients_.length = models.LogisticRegression.width m.fitIntercept_ query ∧
      m.fitIntercept_ = self.fitIntercept_ := by
  obtain ⟨_, hloop⟩ := logistic_train_ok libm self m features targets htrain
  obtain ⟨hlen, hfit⟩ := iterate_fields libm features targets hwf self.maxIterations_
    (self.withCoefficients (List.replicate
      (models.LogisticRegression.width self.fitIntercept_ features) 0)) m
    (List.length_replicate _ _) hloop
  have hfit2 : m.fitIntercept_ = self.fitIntercept_ := hfit
  refine ⟨?_, hfit2⟩
  unfold models.LogisticRegression.width
  rw [hfit2, hcols]
  exact hlen

/-! ## C21 -/

/-- C21, as stated, fails: with an `exp` that underflows to 0 as the `exp` of `double` does,
the model trained on the row `[40]` with the target 1 (one iteration, learning rate 2, no
intercept) has the coefficient 40, and `predict` on the row `[40]` computes `z = 1600`,
`exp(-1600) = 0` and returns exactly 1, which is not below 1. Far earlier, with the
coefficient 37 and the row `[1]`, `exp(-37)` is the positive `0x1.898471fca6055p-54`, the
sum `1 + exp(-37)` rounds to 1 in binary64, and `predict` returns exactly 1 as well. -/
theorem C21_sigmoid_saturates :
    models.LogisticRegression.train examples.underflowLibm ⟨[], 2, 1, 0, false⟩
        examples.fortyRow [1] = (.ok true, ⟨[40], 2, 1, 0, false⟩) ∧
      models.LogisticRegression.predict examples.underflowLibm ⟨[40], 2, 1, 0, false⟩
        examples.fortyRow = .ok [1] ∧
      0 < examples.exp37Libm.exp (-37) ∧
      models.LogisticRegression.predictWith binary64.round examples.exp37Libm
        ⟨[37], 2, 1, 0, false⟩ examples.oneRow = .ok [1] := by
  refine ⟨by decide!, by decide!, by decide!, by decide!⟩

/-- C21 (amended): for every model whose coefficient vector has the post-intercept width of
the query (`cols + 1` with an intercept, `cols` without: what `train` leaves for that column
count) and every well-formed query matrix, `predict` returns one value for every query row.
With every operation rounded by a rounding `fl` that takes no number from 1 on below 1 and
every number from `2 ^ -1024` up to 1 to a positive number up to 1, as the rounding of
binary64 does, the value is the rounded sigmoid `fl (1 / fl (1 + exp(-z)))` of the linear
combination `z` that the code accumulates from the row, with a leading 1 when an intercept is
fitted, and the coefficients; it is above 0 and not above 1 when `exp(-z)` is not negative
and the rounded `1 + exp(-z)` is finite (below `2 ^ 1024`). In exact arithmetic the value is
`1 / (1 + exp(-z))` with `z` the sum of the products, above 0 and below 1 when `exp(-z)` is
positive. -/
theorem C21_predict_is_sigmoid (fl : ℚ → ℚ) (libm : models.Libm)
    (m : models.LogisticRegression) (query : utils.Matrix) (hquery : query.WF)
    (hlen : m.coefficients_.length =
      if m.fitIntercept_ then query.cols_ + 1 else query.cols_)
    (hge : ∀ x, 1 ≤ x → 1 ≤ fl x)
    (hle : ∀ x, 1 / 2 ^ 1024 ≤ x → x ≤ 1 → 0 < fl x ∧ fl x ≤ 1) :
    (∃ predictions, m.predictWith fl libm query = .ok predictions ∧
      predictions.length = query.rows_ ∧
      ∀ i, i < query.rows_ →
        predictions.getD i 0 = fl (1 / fl (1 + libm.exp
          (-(models.LogisticRegression.linearCombination fl m.fitIntercept_ query
            m.coefficients_ i)))) ∧
        (0 ≤ libm.exp (-(models.LogisticRegression.linearCombination fl m.fitIntercept_
            query m.coefficients_ i)) →
          fl (1 + libm.exp (-(models.LogisticRegression.linearCombination fl m.fitIntercept_
            query m.coefficients_ i))) < 2 ^ 1024 →
          0 < predictions.getD i 0 ∧ predictions.getD i 0 ≤ 1)) ∧
    (∃ predictions, m.predict libm query = .ok predictions ∧
      predictions.length = query.rows_ ∧
      ∀ i, i < query.rows_ →
        predictions.getD i 0 = 1 / (1 + libm.exp
          (-(∑ k in Finset.range (if m.fitIntercept_ then query.cols_ + 1 else query.cols_),
            models.LogisticRegression.augmentedRow m.fitIntercept_ query i k *
              m.coefficients_.getD k 0))) ∧
        (0 < libm.exp
            (-(∑ k in Finset.range
                (if m.fitIntercept_ then query.cols_ + 1 else query.cols_),
              models.LogisticRegression.augmentedRow m.fitIntercept_ query i k *
                m.coefficients_.getD k 0)) →
          0 < predictions.getD i 0 ∧ predictions.getD i 0 < 1)) := by
  constructor
  · refine ⟨_, logistic_predictWith_spec fl libm m query hquery hlen, ?_, ?_⟩
    · rw [List.length_map, List.length_range]
    · intro i hi
      rw [getD_map_range _ _ _ hi]
      refine ⟨rfl, fun hexp hfinite => ?_⟩
      have hsum : 1 ≤ fl (1 + libm.exp (-(models.LogisticRegression.linearCombination fl
          m.fitIntercept_ query m.coefficients_ i))) := hge _ (by linarith)
      have hpos : 0 < fl (1 + libm.exp (-(models.LogisticRegression.linearCombination fl
          m.fitIntercept_ query m.coefficients_ i))) := lt_of_lt_of_le one_pos hsum
      exact hle _ (one_div_le_one_div_of_le hpos (le_of_lt hfinite))
        ((div_le_one hpos).mpr hsum)
  · refine ⟨_, logistic_predict_spec libm m query hquery hlen, ?_, ?_⟩
    · rw [List.length_map, List.length_range]
    · intro i hi
      rw [getD_map_range _ _ _ hi]
      exact ⟨rfl, fun hexp => sigmoid_bounds libm _ hexp⟩

/-- C21 (amended) at a model with an intercept, the coefficients `[0, 1/2]`, the rounding of
binary64, an `exp` that is 1 everywhere, and the query rows `[1]`, `[1]`. -/
theorem C21_predict_is_sigmoid_witness :
    (∃ predictions,
      models.LogisticRegression.predictWith binary64.round examples.constLibm
        ⟨[0, 1 / 2], 1 / 100, 1, 1 / 10000, true⟩ examples.twinRows = .ok predictions ∧
      predictions.length = examples.twinRows.rows_ ∧
      ∀ i, i < examples.twinRows.rows_ →
        predictions.getD i 0 = binary64.round (1 / binary64.round
          (1 + examples.constLibm.exp
            (-(models.LogisticRegression.linearCombination binary64.round true
              examples.twinRows [0, 1 / 2] i)))) ∧
        (0 ≤ examples.constLibm.exp (-(models.LogisticRegression.linearCombination
            binary64.round true examples.twinRows [0, 1 / 2] i)) →
          binary64.round (1 + examples.constLibm.exp
            (-(models.LogisticRegression.linearCombination binary64.round true
              examples.twinRows [0, 1 / 2] i))) < 2 ^ 1024 →
          0 < predictions.getD i 0 ∧ predictions.getD i 0 ≤ 1)) ∧
    (∃ predictions,
      models.LogisticRegression.predict examples.constLibm
        ⟨[0, 1 / 2], 1 / 100, 1, 1 / 10000, true⟩ examples.twinRows = .ok predictions ∧
      predictions.length = examples.twinRows.rows_ ∧
      ∀ i, i < examples.twinRows.rows_ →
        predictions.getD i 0 = 1 / (1 + examples.constLibm.exp
          (-(∑ k in Finset.range
              (if true then examples.twinRows.cols_ + 1 else examples.twinRows.cols_),
            models.LogisticRegression.augmentedRow true examples.twinRows i k *
              ([0, 1 / 2] : List ℚ).getD k 0))) ∧
        (0 < examples.constLibm.exp
            (-(∑ k in Finset.range
                (if true then examples.twinRows.cols_ + 1 else examples.twinRows.cols_),
              models.LogisticRegression.augmentedRow true examples.twinRows i k *
                ([0, 1 / 2] : List ℚ).getD k 0)) →
          0 < predictions.getD i 0 ∧ predictions.getD i 0 < 1)) :=
  C21_predict_is_sigmoid binary64.round examples.constLibm
    ⟨[0, 1 / 2], 1 / 100, 1, 1 / 10000, true⟩ examples.twinRows (by decide) rfl
    round_one_le (fun x hx h => round_unit x (lt_of_lt_of_le (by positivity) hx) h)

end ml
